import Mathlib

/-!
# Memory-Allocator: a shallow embedding of `src/memalloc.c`

The allocator keeps one singly linked chain of block headers inside an
arena obtained with `sbrk`.  The embedding keeps the pointer structure of the
C code:

* an address is a natural number, `0` is `NULL`;
* the header memory is a map from addresses to `block_header` records, so a
  header that has left the chain (absorbed by coalescing) is still readable
  through a stale pointer, exactly as in C;
* payload bytes live in a second map from addresses to byte values;
* `size_t` arithmetic is arithmetic modulo `2^64`;
* every `while` loop takes a fuel argument and reports `diverge` when the
  fuel runs out;
* `abort()` is the outcome `abort`, carrying the state at the moment of the
  call.

The mutex and the debug output are not modelled (single caller).
Pointer arithmetic (`block + 1`, `(block_header*)ptr - 1`) is plain
arithmetic on addresses.
-/

namespace MemAlloc

/-! ## Constants and machine arithmetic -/

/-- Number of values of a `size_t` (LP64). -/
def WORD : Nat := 2 ^ 64

/-- The value of `(void*)-1` and of `(size_t)-1`. -/
def SIZE_MAX : Nat := WORD - 1

/-- The macro `ALIGNMENT`. -/
def ALIGNMENT : Nat := 8

/-- The macro `CANARY`. -/
def CANARY : Nat := 0xDEADBEEFCAFEBABE

/-- The value of `sizeof(block_header)` on LP64:
`size_t` 8, `int` 4 (+4 padding), pointer 8, `unsigned long long` 8. -/
def sizeof_block_header : Nat := 32

/-- Addition of two `size_t` values. -/
def add64 (a b : Nat) : Nat := (a + b) % WORD

/-- Subtraction of two `size_t` values. -/
def sub64 (a b : Nat) : Nat := (a + WORD - b % WORD) % WORD

/-- The macro `align8(x)`, `(((((x) - 1) >> 3) << 3) + ALIGNMENT)`, on `size_t`. -/
def align8 (x : Nat) : Nat := add64 (((sub64 x 1) >>> 3 <<< 3) % WORD) ALIGNMENT

/-! ## Memory -/

/-- The struct `block_header`. -/
structure block_header where
  size : Nat
  free : Nat
  next : Nat
  canary : Nat
deriving DecidableEq, Repr

/-- Header memory: the header record stored at each address. -/
abbrev Headers := Nat → block_header

/-- The assignment `a->size = v`. -/
def setSize (h : Headers) (a v : Nat) : Headers :=
  fun x => if x = a then { h x with size := v } else h x

/-- The assignment `a->free = v`. -/
def setFree (h : Headers) (a v : Nat) : Headers :=
  fun x => if x = a then { h x with free := v } else h x

/-- The assignment `a->next = v`. -/
def setNext (h : Headers) (a v : Nat) : Headers :=
  fun x => if x = a then { h x with next := v } else h x

/-- The assignment `a->canary = v`. -/
def setCanary (h : Headers) (a v : Nat) : Headers :=
  fun x => if x = a then { h x with canary := v } else h x

/-- The library call `memset(ptr, c, n)` on the payload bytes. -/
def memset (m : Nat → Nat) (ptr c n : Nat) : Nat → Nat :=
  fun x => if ptr ≤ x ∧ x < ptr + n then c else m x

/-- The library call `memcpy(dst, src, n)` on the payload bytes. -/
def memcpy (m : Nat → Nat) (dst src n : Nat) : Nat → Nat :=
  fun x => if dst ≤ x ∧ x < dst + n then m (src + (x - dst)) else m x

/-- The globals of `memalloc.c` together with the memory they point into
and the program break. -/
structure State where
  hdr : Headers
  bytes : Nat → Nat
  brk : Nat
  free_list : Nat
  total_allocations : Nat
  total_frees : Nat

/-- The two fatal reports that precede `abort()`. -/
inductive Fault where
  | corruption
  | double_free
deriving DecidableEq, Repr

/-- How a call ends: it returns a value, it calls `abort()`, or its loop has
not finished within the fuel. -/
inductive Outcome (α : Type) where
  | ret : α → State → Outcome α
  | abort : Fault → State → Outcome α
  | diverge : Outcome α

/-- The outcome of a `void` call followed by `return v;`. -/
def Outcome.returning {α β : Type} (o : Outcome α) (v : β) : Outcome β :=
  match o with
  | .ret _ s => .ret v s
  | .abort f s => .abort f s
  | .diverge => .diverge

/-! ## The environment: `sbrk` -/

/-- The kernel's decision: given the current break and the requested new
break, whether the new break is accepted. -/
abbrev Kernel := Nat → Nat → Bool

/-- The library call `sbrk(increment)`; the increment is an `intptr_t`, so a
value from `2^63` on is a negative increment.  `sbrk(0)` reports the current
break.  A request that leaves the address space, or that the kernel refuses,
returns `(void*)-1` and leaves the break where it is. -/
def sbrk (k : Kernel) (s : State) (increment : Nat) : Nat × State :=
  if increment = 0 then (s.brk, s)
  else if increment < 2 ^ 63 then
    if s.brk + increment < WORD ∧ k s.brk (s.brk + increment) = true then
      (s.brk, { s with brk := s.brk + increment })
    else (SIZE_MAX, s)
  else
    if WORD - increment ≤ s.brk ∧ k s.brk (s.brk - (WORD - increment)) = true then
      (s.brk, { s with brk := s.brk - (WORD - increment) })
    else (SIZE_MAX, s)

/-! ## Internal helper functions -/

/-- The function `set_canary`. -/
def set_canary (h : Headers) (block : Nat) : Headers := setCanary h block CANARY

/-- The function `check_canary`. -/
def check_canary (h : Headers) (block : Nat) : Bool := (h block).canary == CANARY

/-- The first-fit loop of `find_free_block` (`USE_BEST_FIT` is 0).  Returns the
final `current` together with the final value of `*last`. -/
def find_free_block : Nat → Headers → Nat → Nat → Nat → Option (Nat × Nat)
  | 0, _, _, _, _ => none
  | fuel + 1, h, last, current, size =>
    if current ≠ 0 ∧ ¬ ((h current).free ≠ 0 ∧ (h current).size ≥ size) then
      find_free_block fuel h current (h current).next size
    else some (current, last)

/-- The header assignments of `request_space` once the break has been moved:
link `block` after `last` when there is a `last`, then fill in the new header. -/
def request_space_writes (h : Headers) (last block size : Nat) : Headers :=
  let h0 := if last ≠ 0 then setNext h last block else h
  let h1 := setSize h0 block size
  let h2 := setFree h1 block 0
  let h3 := setNext h2 block 0
  set_canary h3 block

/-- The function `request_space`; the result is the new block, `0` when the
break could not be moved. -/
def request_space (k : Kernel) (s : State) (last size : Nat) : Nat × State :=
  let block := (sbrk k s 0).1
  let r := sbrk k s (add64 size sizeof_block_header)
  if r.1 = SIZE_MAX then (0, r.2)
  else (block, { r.2 with hdr := request_space_writes r.2.hdr last block size })

/-- The function `split_block`. -/
def split_block (h : Headers) (block size : Nat) : Headers :=
  if (h block).size ≥ add64 (add64 size sizeof_block_header) ALIGNMENT then
    let new_block := block + sizeof_block_header + size
    let h1 := setSize h new_block (sub64 (sub64 (h block).size size) sizeof_block_header)
    let h2 := setFree h1 new_block 1
    let h3 := setNext h2 new_block (h2 block).next
    let h4 := set_canary h3 new_block
    let h5 := setSize h4 block size
    setNext h5 block new_block
  else h

/-- The two assignments of the merging branch of `coalesce_free_blocks`:
`current->size += sizeof(block_header) + current->next->size;`
`current->next = current->next->next;`. -/
def coalesce_merge (h : Headers) (current : Nat) : Headers :=
  let h1 := setSize h current
    (add64 (h current).size (add64 sizeof_block_header (h (h current).next).size))
  setNext h1 current (h1 (h1 current).next).next

/-- The loop of `coalesce_free_blocks`, started at `current`. -/
def coalesce_loop : Nat → Headers → Nat → Option Headers
  | 0, _, _ => none
  | fuel + 1, h, current =>
    if current ≠ 0 ∧ (h current).next ≠ 0 then
      if (h current).free ≠ 0 ∧ (h (h current).next).free ≠ 0 then
        coalesce_loop fuel (coalesce_merge h current) current
      else coalesce_loop fuel h (h current).next
    else some h

/-- The function `coalesce_free_blocks`. -/
def coalesce_free_blocks (fuel : Nat) (s : State) : Option State :=
  match coalesce_loop fuel s.hdr s.free_list with
  | none => none
  | some h => some { s with hdr := h }

/-- The loop of `leak_check`: the number of occupied blocks met from `current`. -/
def leak_count : Nat → Headers → Nat → Nat → Option Nat
  | 0, _, _, _ => none
  | fuel + 1, h, current, leaks =>
    if current ≠ 0 then
      leak_count fuel h (h current).next (if (h current).free = 0 then leaks + 1 else leaks)
    else some leaks

/-! ## Allocation functions -/

/-- The tail of `malloc_custom`: count the allocation and return `block + 1`. -/
def malloc_done (s : State) (block : Nat) : Outcome Nat :=
  .ret (block + sizeof_block_header)
    { s with total_allocations := add64 s.total_allocations 1 }

/-- The function `malloc_custom`. -/
def malloc_custom (fuel : Nat) (k : Kernel) (s : State) (size : Nat) : Outcome Nat :=
  if size = 0 then .ret 0 s
  else
    let size := align8 size
    if s.free_list = 0 then
      let r := request_space k s 0 size
      if r.1 = 0 then .ret 0 r.2
      else malloc_done { r.2 with free_list := r.1 } r.1
    else
      match find_free_block fuel s.hdr s.free_list s.free_list size with
      | none => .diverge
      | some (block, last) =>
        if block = 0 then
          let r := request_space k s last size
          if r.1 = 0 then .ret 0 r.2
          else malloc_done r.2 r.1
        else
          let h1 := setFree s.hdr block 0
          malloc_done { s with hdr := split_block h1 block size } block

/-- The function `free_custom`. -/
def free_custom (fuel : Nat) (s : State) (ptr : Nat) : Outcome Unit :=
  if ptr = 0 then .ret () s
  else
    let block := ptr - sizeof_block_header
    if check_canary s.hdr block = false then .abort .corruption s
    else if (s.hdr block).free ≠ 0 then .abort .double_free s
    else
      let s1 : State := { s with hdr := setFree s.hdr block 1,
                                 total_frees := add64 s.total_frees 1 }
      match coalesce_free_blocks fuel s1 with
      | none => .diverge
      | some s2 => .ret () s2

/-- The part of `calloc_custom` after the overflow test: allocate `size`
bytes and zero-fill them. -/
def calloc_fill (fuel : Nat) (k : Kernel) (s : State) (size : Nat) : Outcome Nat :=
  match malloc_custom fuel k s size with
  | .ret ptr s1 =>
    if ptr = 0 then .ret 0 s1
    else .ret ptr { s1 with bytes := memset s1.bytes ptr 0 size }
  | .abort f s1 => .abort f s1
  | .diverge => .diverge

/-- The function `calloc_custom`. -/
def calloc_custom (fuel : Nat) (k : Kernel) (s : State) (num nsize : Nat) : Outcome Nat :=
  let size := (num * nsize) % WORD
  if nsize ≠ 0 ∧ size / nsize ≠ num then .ret 0 s
  else calloc_fill fuel k s size

/-- The function `realloc_custom`. -/
def realloc_custom (fuel : Nat) (k : Kernel) (s : State) (ptr size : Nat) : Outcome Nat :=
  if ptr = 0 then malloc_custom fuel k s size
  else if size = 0 then (free_custom fuel s ptr).returning 0
  else
    let block := ptr - sizeof_block_header
    if check_canary s.hdr block = false then .abort .corruption s
    else if (s.hdr block).size ≥ size then .ret ptr s
    else
      match malloc_custom fuel k s size with
      | .ret new_ptr s1 =>
        if new_ptr = 0 then .ret 0 s1
        else
          (free_custom fuel
            { s1 with bytes := memcpy s1.bytes new_ptr ptr (s1.hdr block).size } ptr).returning
            new_ptr
      | .abort f s1 => .abort f s1
      | .diverge => .diverge

/-! ## States used in examples -/

/-- Memory before any call: no block, both counters zero, every header word
and every byte zero, the break at `base`. -/
def empty_arena (base : Nat) : State :=
  { hdr := fun _ => ⟨0, 0, 0, 0⟩, bytes := fun _ => 0, brk := base,
    free_list := 0, total_allocations := 0, total_frees := 0 }

/-- A kernel that accepts every break up to `limit` (and every decrease). -/
def kernel_upto (limit : Nat) : Kernel := fun _ new => decide (new ≤ limit)

/-- The state in which an outcome leaves the allocator (the empty arena at
address 0 when the call has not finished). -/
def Outcome.stateD {α : Type} : Outcome α → State
  | .ret _ s => s
  | .abort _ s => s
  | .diverge => empty_arena 0

/-- The returned value of an outcome, where it has one. -/
def Outcome.value? {α : Type} : Outcome α → Option α
  | .ret v _ => some v
  | _ => none

/-- A kernel with a large limit, used in the examples. -/
def sample_kernel : Kernel := kernel_upto (2 ^ 40)

/-- The state after `malloc_custom(8)` on the empty arena at 4096: one
occupied block of capacity 8 whose payload is at 4128. -/
def after_one_malloc : State :=
  (malloc_custom 1 sample_kernel (empty_arena 4096) 8).stateD

/-- A one-block arena whose block is vacant and whose integrity tag has been
overwritten. -/
def corrupted_vacant_block : State :=
  { empty_arena 4096 with
    hdr := fun a => if a = 4096 then ⟨8, 1, 0, 0x4141414141414141⟩ else ⟨0, 0, 0, 0⟩,
    brk := 4136, free_list := 4096, total_allocations := 1, total_frees := 1 }

/-! ## Reachable states and invariants -/

/-- The break `b` that a successful `sbrk(increment)` sets, from the break
`brk`: unchanged for increment 0, raised for a positive increment, lowered
for a negative one (an increment from `2^63` on). -/
def sbrk_moves (k : Kernel) (brk increment b : Nat) : Prop :=
  (increment = 0 ∧ b = brk) ∨
  (increment ≠ 0 ∧ increment < 2 ^ 63 ∧ brk + increment < WORD ∧
    k brk (brk + increment) = true ∧ b = brk + increment) ∨
  (2 ^ 63 ≤ increment ∧ WORD - increment ≤ brk ∧
    k brk (brk - (WORD - increment)) = true ∧ b = brk - (WORD - increment))

/-- A state before the first call: no chain, both counters zero, the break
at `base`; memory holds anything. -/
def initial_state (base : Nat) (s : State) : Prop :=
  s.free_list = 0 ∧ s.brk = base ∧ s.total_allocations = 0 ∧ s.total_frees = 0

/-- The states a caller can reach from the empty arena whose break is `base`:
by calls of the four public operations that return (with 64-bit arguments,
any fuel and any kernel answers), and by writing payload bytes. -/
inductive Reachable (base : Nat) : State → Prop where
  | start (s : State) : initial_state base s → Reachable base s
  | malloc (s s1 : State) (fuel : Nat) (k : Kernel) (size p : Nat) :
      Reachable base s → size < WORD →
      malloc_custom fuel k s size = .ret p s1 → Reachable base s1
  | free (s s1 : State) (fuel : Nat) (p : Nat) :
      Reachable base s → p < WORD →
      free_custom fuel s p = .ret () s1 → Reachable base s1
  | calloc (s s1 : State) (fuel : Nat) (k : Kernel) (num nsize p : Nat) :
      Reachable base s → num < WORD → nsize < WORD →
      calloc_custom fuel k s num nsize = .ret p s1 → Reachable base s1
  | realloc (s s1 : State) (fuel : Nat) (k : Kernel) (ptr size p : Nat) :
      Reachable base s → ptr < WORD → size < WORD →
      realloc_custom fuel k s ptr size = .ret p s1 → Reachable base s1
  | write (s : State) (m : Nat → Nat) :
      Reachable base s → Reachable base { s with bytes := m }

/-- The call `sbrk(increment)` is denied: it returns `(void*)-1` and the break
stays where it is. -/
def sbrk_denied (k : Kernel) (s : State) (increment : Nat) : Prop :=
  sbrk k s increment = (SIZE_MAX, s)

/-- The state after `malloc_custom(8)` on the empty arena at 4096, a write of
the byte 255 at payload offset 1, and `free_custom` of the block: one vacant
block of capacity 8 whose payload is not all zero. -/
def dirty_vacant_block : State :=
  (free_custom 2
    { after_one_malloc with bytes := fun a => if a = 4129 then 255 else 0 } 4128).stateD

/-- The state after `malloc_custom(8)` and `malloc_custom(2^64 - 32)` on the
empty arena at 4096.  For the second request `size + sizeof(block_header)`
wraps to 0, so the block at 4136 records capacity `2^64 - 32` while the break
stays at 4136. -/
def wrapped_block_state : State :=
  (malloc_custom 2 sample_kernel after_one_malloc (2 ^ 64 - 32)).stateD

/-- The state after `malloc_custom(48)` on the empty arena at 4096 (payload
4128). -/
def cyc1 : State := (malloc_custom 1 sample_kernel (empty_arena 4096) 48).stateD

/-- Then `malloc_custom(2^64 - 72)` (payload 4208): the increment
`2^64 - 40` is `-40` as an `intptr_t`, the break goes back to 4136. -/
def cyc2 : State := (malloc_custom 2 sample_kernel cyc1 (2 ^ 64 - 72)).stateD

/-- Then `free_custom(4128)`. -/
def cyc3 : State := (free_custom 3 cyc2 4128).stateD

/-- Then `malloc_custom(56)` (payload 4168): a new block at the break 4136,
inside the payload of the vacant first block. -/
def cyc4 : State := (malloc_custom 3 sample_kernel cyc3 56).stateD

/-- Then `malloc_custom(8)` (payload 4128): the first block is split at 4136,
which is already a block of the chain; the chain is now
4096 → 4136 → 4176 → 4136 → …. -/
def cyclic_state : State := (malloc_custom 3 sample_kernel cyc4 8).stateD

/-- The chain that starts at address `a` in the header memory `h` consists of
exactly the blocks `l`, in this order, and then ends in `NULL`. -/
def IsChain (h : Headers) : Nat → List Nat → Prop
  | a, [] => a = 0
  | a, b :: l => a = b ∧ b ≠ 0 ∧ IsChain h (h b).next l

/-- The blocks `l` tile the arena up to `e`: each block ends (header plus
capacity) where the following block starts, and the last one ends at `e`. -/
def Tiles (h : Headers) : List Nat → Nat → Prop
  | [], _ => True
  | b :: l, e => b + sizeof_block_header + (h b).size = l.headD e ∧ Tiles h l e

/-- A well-formed state with chain `l`: the chain from `free_list` is finite
and is `l`, its blocks tile the arena up to the break, and the break is at
most `2^64 - 8`. -/
def WellFormed (s : State) (l : List Nat) : Prop :=
  IsChain s.hdr s.free_list l ∧ Tiles s.hdr l s.brk ∧ s.brk + 8 ≤ WORD

/-- The state of `main` after `p1 = malloc_custom(100)`, `p2 = malloc_custom(200)`,
`free_custom(p1)`, `p3 = malloc_custom(50)` on the empty arena at 4096: the
chain is 4096 (occupied, 56), 4184 (vacant, 16), 4232 (occupied, 200). -/
def main_before_realloc : State :=
  (malloc_custom 3 sample_kernel
    (free_custom 3
      (malloc_custom 2 sample_kernel
        (malloc_custom 1 sample_kernel (empty_arena 4096) 100).stateD 200).stateD
      4128).stateD 50).stateD

/-- The state after `p1 = malloc_custom(100)`, `p2 = malloc_custom(200)`,
`free_custom(p1)` on the empty arena at 4096: the chain is 4096 (vacant, 104),
4232 (occupied, 200), so that freeing `p2 = 4264` merges its block into the
vacant block before it. -/
def vacant_then_occupied : State :=
  (free_custom 3
    (malloc_custom 2 sample_kernel
      (malloc_custom 1 sample_kernel (empty_arena 4096) 100).stateD 200).stateD
    4128).stateD

/-- The state after `malloc_custom(48)`, `malloc_custom(2^64 - 72)` and
`malloc_custom(8)` on the empty arena at 4096: the second call lowers the
break to 4136, the third puts its block there, after the block at 4176. -/
def unordered_state : State := (malloc_custom 3 sample_kernel cyc2 8).stateD

/-- The state after `malloc_custom(8)`, `malloc_custom(2^64 - 32)`,
`malloc_custom(8)`, `free_custom(4168)`, `free_custom(4128)` on the empty
arena at 4096; the second and the third call both return 4168. -/
def released_state : State :=
  (free_custom 3
    (free_custom 3 (malloc_custom 3 sample_kernel wrapped_block_state 8).stateD 4168).stateD
    4128).stateD

/-- The states of the call sequence `malloc_custom(40)` (4128),
`malloc_custom(16)` (4200), `malloc_custom(2^64 - 120)` (4248),
`malloc_custom(2^64 - 8)` (4160), `free_custom(4160)`, `free_custom(4200)`,
`malloc_custom(56)` (4160) on the empty arena at 4096. -/
def adj1 : State := (malloc_custom 1 sample_kernel (empty_arena 4096) 40).stateD

/-- See `adj1`. -/
def adj2 : State := (malloc_custom 5 sample_kernel adj1 16).stateD

/-- See `adj1`: the break goes from 4216 back to 4128. -/
def adj3 : State := (malloc_custom 5 sample_kernel adj2 (2 ^ 64 - 120)).stateD

/-- See `adj1`: a block of recorded capacity `2^64 - 8` at 4128, the break
goes to 4152. -/
def adj4 : State := (malloc_custom 5 sample_kernel adj3 (2 ^ 64 - 8)).stateD

/-- See `adj1`. -/
def adj5 : State := (free_custom 5 adj4 4160).stateD

/-- See `adj1`. -/
def adj6 : State := (free_custom 5 adj5 4200).stateD

/-- See `adj1`: the block at 4128 is split at 4216, which is the header of a
block of the chain. -/
def adjacent_vacant_state : State := (malloc_custom 5 sample_kernel adj6 56).stateD

/-- Reference for `find_free_block`, in the words of the specification: the
first block of the chain `l`, from the head, that is vacant and whose
capacity is at least `size`. -/
def first_fit (h : Headers) (l : List Nat) (size : Nat) : Option Nat :=
  l.find? (fun b => decide ((h b).free ≠ 0 ∧ size ≤ (h b).size))

/-- The chain of `s` consists of two occupied blocks: `b0` with capacity `c0`,
followed by `b1` with capacity `c1`. -/
def TwoBlocks (s : State) (b0 b1 c0 c1 : Nat) : Prop :=
  s.free_list = b0 ∧ b0 ≠ 0 ∧ b1 ≠ 0 ∧ b1 ≠ b0 ∧
  s.hdr b0 = ⟨c0, 0, b1, CANARY⟩ ∧ s.hdr b1 = ⟨c1, 0, 0, CANARY⟩

/-- A block as it is seen along the chain: its address, its capacity and
whether it is vacant. -/
structure Blk where
  addr : Nat
  size : Nat
  vacant : Bool
deriving DecidableEq, Repr

/-- The block at address `a` of the header memory `h`. -/
def block_at (h : Headers) (a : Nat) : Blk :=
  ⟨a, (h a).size, decide ((h a).free ≠ 0)⟩

/-- The blocks of the chain `l`, in chain order. -/
def blocks (h : Headers) (l : List Nat) : List Blk := l.map (block_at h)

/-- The loop of `coalesce_free_blocks` on a list of blocks: `cur` is the block
under `current`, the list holds the blocks after it. -/
def coalesce_from (cur : Blk) : List Blk → List Blk
  | [] => [cur]
  | c :: rest =>
    if cur.vacant = true ∧ c.vacant = true then
      coalesce_from ⟨cur.addr, add64 cur.size (add64 sizeof_block_header c.size), cur.vacant⟩ rest
    else cur :: coalesce_from c rest

/-- Reference, in the words of the specification: the maximal runs of
chain-consecutive vacant blocks; an occupied block is a run of its own. -/
def vacant_runs : List Blk → List (List Blk)
  | [] => []
  | b :: rest =>
    match vacant_runs rest with
    | [] => [[b]]
    | [] :: gs => [b] :: gs
    | (c :: g) :: gs =>
      if b.vacant = true ∧ c.vacant = true then (b :: c :: g) :: gs
      else [b] :: (c :: g) :: gs

/-- Reference: the single block that replaces a run with capacities
`c1 … ck`: located at the first block of the run, with capacity
`c1 + … + ck + (k-1) * sizeof(block_header)` (a sum of natural numbers). -/
def collapse_run : List Blk → Option Blk
  | [] => none
  | b :: g =>
    some ⟨b.addr, b.size + (g.map Blk.size).sum + g.length * sizeof_block_header, b.vacant⟩

/-- The block `b` with its capacity stored in a `size_t` field. -/
def size_t_block (b : Blk) : Blk := ⟨b.addr, b.size % WORD, b.vacant⟩

/-- Reference for `coalesce_free_blocks`: merge every maximal run of vacant
blocks; occupied blocks keep their address, capacity and order. -/
def merge_vacant_runs (l : List Blk) : List Blk := (vacant_runs l).filterMap collapse_run

/-- No two neighbours of the list are both vacant. -/
def NoAdjacentVacant (l : List Blk) : Prop :=
  List.Chain' (fun x y => ¬ (x.vacant = true ∧ y.vacant = true)) l

/-- The state inside `free_custom(4264)` called in `vacant_then_occupied`,
right before its call of `coalesce_free_blocks`: the chain is 4096 (vacant,
104), 4232 (vacant, 200). -/
def two_vacant_blocks : State :=
  { vacant_then_occupied with hdr := setFree vacant_then_occupied.hdr 4232 1 }

/-- The states reached from the empty arena whose break is `base` when every
requested size `s` satisfies `s + 40 < 2^63` (for `calloc_custom` the request
is `num * nsize`); the break is moved by `sbrk` inside the allocator only. -/
inductive SaneReachable (base : Nat) : State → Prop where
  | start (s : State) : initial_state base s → SaneReachable base s
  | malloc (s s1 : State) (fuel : Nat) (k : Kernel) (size p : Nat) :
      SaneReachable base s → size + 40 < 2 ^ 63 →
      malloc_custom fuel k s size = .ret p s1 → SaneReachable base s1
  | free (s s1 : State) (fuel : Nat) (p : Nat) :
      SaneReachable base s → p < WORD →
      free_custom fuel s p = .ret () s1 → SaneReachable base s1
  | calloc (s s1 : State) (fuel : Nat) (k : Kernel) (num nsize p : Nat) :
      SaneReachable base s → num < WORD → nsize < WORD → num * nsize + 40 < 2 ^ 63 →
      calloc_custom fuel k s num nsize = .ret p s1 → SaneReachable base s1
  | realloc (s s1 : State) (fuel : Nat) (k : Kernel) (ptr size p : Nat) :
      SaneReachable base s → ptr < WORD → size + 40 < 2 ^ 63 →
      realloc_custom fuel k s ptr size = .ret p s1 → SaneReachable base s1
  | write (s : State) (m : Nat → Nat) :
      SaneReachable base s → SaneReachable base { s with bytes := m }

/-- The tiling invariant: the chain is the finite list `l`, its blocks tile
the arena from `base` up to the break, which is a 64-bit address. -/
def Tiled (base : Nat) (s : State) (l : List Nat) : Prop :=
  IsChain s.hdr s.free_list l ∧ Tiles s.hdr l s.brk ∧ s.brk < WORD ∧ l.headD s.brk = base

/-- The property `Tiles` on a list of blocks. -/
def TilesB : List Blk → Nat → Prop
  | [], _ => True
  | b :: l, e => b.addr + sizeof_block_header + b.size = (l.map Blk.addr).headD e ∧ TilesB l e

/-- The block at `x` is kept from the header memory `h` to `h1`: it is in
the chain `l1` and has the same capacity, flag and integrity tag as before. -/
def Kept (h h1 : Headers) (l1 : List Nat) (x : Nat) : Prop :=
  x ∈ l1 ∧ (h1 x).size = (h x).size ∧ (h1 x).free = (h x).free ∧
    (h1 x).canary = (h x).canary

/-! ## Machine arithmetic -/

theorem align8_lt_WORD (x : Nat) : align8 x < WORD := by
  unfold align8 add64
  exact Nat.mod_lt _ (by unfold WORD; norm_num)

theorem align8_bounds (x : Nat) (h0 : 0 < x) (hx : x + 8 ≤ WORD) :
    x ≤ align8 x ∧ align8 x < x + 8 := by
  unfold align8 add64 sub64 ALIGNMENT WORD at *
  simp only [Nat.shiftRight_eq_div_pow, Nat.shiftLeft_eq]
  norm_num
  omega

theorem add64_lt_WORD (a b : Nat) : add64 a b < WORD := by
  unfold add64
  exact Nat.mod_lt _ (by unfold WORD; norm_num)

theorem sub64_mod8 (a b : Nat) (ha : a % 8 = 0) (hb : b % 8 = 0) : sub64 a b % 8 = 0 := by
  unfold sub64 WORD
  omega

/-! ## Reading a header after an assignment -/

@[simp] theorem setSize_same (h : Headers) (a v : Nat) :
    setSize h a v a = { h a with size := v } := by simp [setSize]

@[simp] theorem setFree_same (h : Headers) (a v : Nat) :
    setFree h a v a = { h a with free := v } := by simp [setFree]

@[simp] theorem setNext_same (h : Headers) (a v : Nat) :
    setNext h a v a = { h a with next := v } := by simp [setNext]

@[simp] theorem setCanary_same (h : Headers) (a v : Nat) :
    setCanary h a v a = { h a with canary := v } := by simp [setCanary]

theorem setSize_other (h : Headers) (a v x : Nat) (hx : x ≠ a) :
    setSize h a v x = h x := by simp [setSize, hx]

theorem setFree_other (h : Headers) (a v x : Nat) (hx : x ≠ a) :
    setFree h a v x = h x := by simp [setFree, hx]

theorem setNext_other (h : Headers) (a v x : Nat) (hx : x ≠ a) :
    setNext h a v x = h x := by simp [setNext, hx]

theorem setCanary_other (h : Headers) (a v x : Nat) (hx : x ≠ a) :
    setCanary h a v x = h x := by simp [setCanary, hx]

/-! ## The environment and the helpers, case by case -/

theorem sbrk_zero (k : Kernel) (s : State) : sbrk k s 0 = (s.brk, s) := by
  simp [sbrk]

theorem sbrk_cases (k : Kernel) (s : State) (i : Nat) :
    sbrk k s i = (SIZE_MAX, s) ∨
    ∃ b, sbrk_moves k s.brk i b ∧ sbrk k s i = (s.brk, { s with brk := b }) := by
  unfold sbrk sbrk_moves
  split
  · rename_i h0
    exact Or.inr ⟨s.brk, Or.inl ⟨h0, rfl⟩, rfl⟩
  · rename_i h0
    split
    · rename_i hpos
      split
      · rename_i hk
        exact Or.inr ⟨_, Or.inr (Or.inl ⟨h0, hpos, hk.1, hk.2, rfl⟩), rfl⟩
      · exact Or.inl rfl
    · rename_i hneg
      split
      · rename_i hk
        exact Or.inr ⟨_, Or.inr (Or.inr ⟨Nat.le_of_not_lt hneg, hk.1, hk.2, rfl⟩), rfl⟩
      · exact Or.inl rfl

/-- The three ways `request_space` can end: the break was not moved; the old
break was `(void*)-1` so that a moved break is taken for a failure; or the new
block is written at the old break. -/
theorem request_space_cases (k : Kernel) (s : State) (last size : Nat) :
    request_space k s last size = (0, s) ∨
    (s.brk = SIZE_MAX ∧ ∃ b, request_space k s last size = (0, { s with brk := b })) ∨
    (s.brk ≠ SIZE_MAX ∧ ∃ b, sbrk_moves k s.brk (add64 size sizeof_block_header) b ∧
      request_space k s last size =
      (s.brk, { s with brk := b, hdr := request_space_writes s.hdr last s.brk size })) := by
  unfold request_space
  rw [sbrk_zero]
  rcases sbrk_cases k s (add64 size sizeof_block_header) with hs | ⟨b, hmv, hs⟩
  · left
    simp [hs]
  · rw [hs]
    by_cases hb : s.brk = SIZE_MAX
    · right; left
      exact ⟨hb, b, by simp [hb]⟩
    · right; right
      exact ⟨hb, b, hmv, by simp [hb]⟩

theorem request_space_writes_block (h : Headers) (last block size : Nat) :
    request_space_writes h last block size block = ⟨size, 0, 0, CANARY⟩ := by
  simp [request_space_writes, set_canary]

theorem request_space_writes_other (h : Headers) (last block size x : Nat)
    (hx : x ≠ block) :
    request_space_writes h last block size x
      = if x = last ∧ last ≠ 0 then { h x with next := block } else h x := by
  unfold request_space_writes set_canary
  simp only [setCanary_other _ _ _ _ hx, setNext_other _ _ _ _ hx, setFree_other _ _ _ _ hx,
    setSize_other _ _ _ _ hx]
  by_cases hl : last = 0
  · simp [hl]
  · by_cases hxl : x = last
    · subst hxl
      simp [hl]
    · simp [hl, hxl, setNext_other _ _ _ _ hxl]

theorem request_space_block (k : Kernel) (s : State) (last size : Nat)
    (hr : (request_space k s last size).1 ≠ 0) :
    (request_space k s last size).1 = s.brk ∧
    (request_space k s last size).2.hdr s.brk = ⟨size, 0, 0, CANARY⟩ := by
  rcases request_space_cases k s last size with h0 | ⟨_, b, hb⟩ | ⟨_, b, _, hb⟩
  · rw [h0] at hr; exact absurd rfl hr
  · rw [hb] at hr; exact absurd rfl hr
  · rw [hb]
    exact ⟨rfl, request_space_writes_block _ _ _ _⟩

theorem find_free_block_result (fuel : Nat) (h : Headers) (last cur size b l : Nat)
    (hf : find_free_block fuel h last cur size = some (b, l)) :
    b = 0 ∨ ((h b).free ≠ 0 ∧ size ≤ (h b).size) := by
  induction fuel generalizing last cur with
  | zero => simp [find_free_block] at hf
  | succ n ih =>
    rw [find_free_block] at hf
    split at hf
    · exact ih _ _ hf
    · rename_i hc
      simp only [Option.some.injEq, Prod.mk.injEq] at hf
      obtain ⟨rfl, rfl⟩ := hf
      by_cases h0 : cur = 0
      · exact Or.inl h0
      · right
        simp only [h0, ne_eq, not_false_eq_true, true_and, not_not] at hc
        exact ⟨hc.1, hc.2⟩

theorem split_block_size (h : Headers) (b sz : Nat) (hsz : sz ≤ (h b).size) :
    sz ≤ (split_block h b sz b).size := by
  unfold split_block
  split
  · simp [setNext, setSize]
  · exact hsz

/-! ## The branches of `malloc_custom` -/

theorem malloc_custom_zero (fuel : Nat) (k : Kernel) (s : State) :
    malloc_custom fuel k s 0 = .ret 0 s := by
  simp [malloc_custom]

theorem malloc_custom_empty (fuel : Nat) (k : Kernel) (s : State) (size : Nat)
    (hsz : size ≠ 0) (hfl : s.free_list = 0) :
    malloc_custom fuel k s size =
      if (request_space k s 0 (align8 size)).1 = 0 then
        .ret 0 (request_space k s 0 (align8 size)).2
      else malloc_done { (request_space k s 0 (align8 size)).2 with
              free_list := (request_space k s 0 (align8 size)).1 }
            (request_space k s 0 (align8 size)).1 := by
  simp [malloc_custom, hsz, hfl]

theorem malloc_custom_search_fuel (fuel : Nat) (k : Kernel) (s : State) (size : Nat)
    (hsz : size ≠ 0) (hfl : s.free_list ≠ 0)
    (hfind : find_free_block fuel s.hdr s.free_list s.free_list (align8 size) = none) :
    malloc_custom fuel k s size = .diverge := by
  simp [malloc_custom, hsz, hfl, hfind]

theorem malloc_custom_grow (fuel : Nat) (k : Kernel) (s : State) (size last : Nat)
    (hsz : size ≠ 0) (hfl : s.free_list ≠ 0)
    (hfind : find_free_block fuel s.hdr s.free_list s.free_list (align8 size)
      = some (0, last)) :
    malloc_custom fuel k s size =
      if (request_space k s last (align8 size)).1 = 0 then
        .ret 0 (request_space k s last (align8 size)).2
      else malloc_done (request_space k s last (align8 size)).2
            (request_space k s last (align8 size)).1 := by
  simp [malloc_custom, hsz, hfl, hfind]

theorem malloc_custom_reuse (fuel : Nat) (k : Kernel) (s : State) (size block last : Nat)
    (hsz : size ≠ 0) (hfl : s.free_list ≠ 0) (hblock : block ≠ 0)
    (hfind : find_free_block fuel s.hdr s.free_list s.free_list (align8 size)
      = some (block, last)) :
    malloc_custom fuel k s size = .ret (block + sizeof_block_header)
        { s with
          hdr := split_block (setFree s.hdr block 0) block (align8 size),
          total_allocations := add64 s.total_allocations 1 } := by
  simp [malloc_custom, hsz, hfl, hfind, hblock, malloc_done]

/-- What `malloc_custom` does after `request_space last size`, by the three
ways the latter can end. -/
theorem malloc_after_request_cases (k : Kernel) (s : State) (last asize : Nat)
    (o : Outcome Nat) (fl : Nat)
    (ho : o = if (request_space k s last asize).1 = 0 then
        .ret 0 (request_space k s last asize).2
      else malloc_done { (request_space k s last asize).2 with free_list := fl }
            (request_space k s last asize).1) :
    o = .ret 0 s ∨
    (s.brk = SIZE_MAX ∧ ∃ b, o = .ret 0 { s with brk := b }) ∨
    (s.brk = 0 ∧ ∃ b, sbrk_moves k s.brk (add64 asize sizeof_block_header) b ∧
      o = .ret 0 { s with brk := b, hdr := request_space_writes s.hdr last s.brk asize }) ∨
    (s.brk ≠ 0 ∧ s.brk ≠ SIZE_MAX ∧ ∃ b,
      sbrk_moves k s.brk (add64 asize sizeof_block_header) b ∧
      o = .ret (s.brk + sizeof_block_header)
        { s with
          brk := b,
          hdr := request_space_writes s.hdr last s.brk asize,
          free_list := fl,
          total_allocations := add64 s.total_allocations 1 }) := by
  rcases request_space_cases k s last asize with h0 | ⟨hb, b, hr⟩ | ⟨hb, b, hmv, hr⟩
  · left
    rw [ho, h0]; simp
  · right; left
    refine ⟨hb, b, ?_⟩
    rw [ho, hr]; simp
  · by_cases hz : s.brk = 0
    · right; right; left
      refine ⟨hz, b, hmv, ?_⟩
      rw [ho, hr]
      simp [hz]
    · right; right; right
      refine ⟨hz, hb, b, hmv, ?_⟩
      rw [ho, hr]
      simp [hz, malloc_done]

/-- Every way a call `malloc_custom(size)` with `size ≠ 0` can end: the search
runs out of fuel; the break is not moved and null is returned; one of the two
degenerate breaks (`(void*)-1` or `0`); a new block at the old break; or a
vacant block of the chain is taken over. -/
theorem malloc_custom_cases (fuel : Nat) (k : Kernel) (s : State) (size : Nat)
    (hsz : size ≠ 0) :
    malloc_custom fuel k s size = .diverge ∨
    malloc_custom fuel k s size = .ret 0 s ∨
    (s.brk = SIZE_MAX ∧ ∃ b, malloc_custom fuel k s size = .ret 0 { s with brk := b }) ∨
    (s.brk = 0 ∧ ∃ last b, sbrk_moves k s.brk (add64 (align8 size) sizeof_block_header) b ∧
      malloc_custom fuel k s size = .ret 0
        { s with brk := b, hdr := request_space_writes s.hdr last s.brk (align8 size) }) ∨
    (s.brk ≠ 0 ∧ s.brk ≠ SIZE_MAX ∧ ∃ last b,
      (s.free_list = 0 ∧ last = 0 ∨
        s.free_list ≠ 0 ∧
          find_free_block fuel s.hdr s.free_list s.free_list (align8 size) = some (0, last)) ∧
      sbrk_moves k s.brk (add64 (align8 size) sizeof_block_header) b ∧
      malloc_custom fuel k s size = .ret (s.brk + sizeof_block_header)
        { s with
          brk := b,
          hdr := request_space_writes s.hdr last s.brk (align8 size),
          free_list := if s.free_list = 0 then s.brk else s.free_list,
          total_allocations := add64 s.total_allocations 1 }) ∨
    (s.free_list ≠ 0 ∧ ∃ block last, block ≠ 0 ∧
      find_free_block fuel s.hdr s.free_list s.free_list (align8 size) = some (block, last) ∧
      malloc_custom fuel k s size = .ret (block + sizeof_block_header)
        { s with
          hdr := split_block (setFree s.hdr block 0) block (align8 size),
          total_allocations := add64 s.total_allocations 1 }) := by
  by_cases hfl : s.free_list = 0
  · have hm := malloc_custom_empty fuel k s size hsz hfl
    have hr := request_space_block k s 0 (align8 size)
    rcases malloc_after_request_cases k s 0 (align8 size)
      (malloc_custom fuel k s size) s.brk (by
      rw [hm]
      split
      · rfl
      · rename_i hne
        rw [(hr hne).1]) with h | ⟨hb, b, h⟩ | ⟨hz, b, hmv, h⟩ | ⟨hz, hb, b, hmv, h⟩
    · exact Or.inr (Or.inl h)
    · exact Or.inr (Or.inr (Or.inl ⟨hb, b, h⟩))
    · exact Or.inr (Or.inr (Or.inr (Or.inl ⟨hz, 0, b, hmv, h⟩)))
    · refine Or.inr (Or.inr (Or.inr (Or.inr (Or.inl
        ⟨hz, hb, 0, b, Or.inl ⟨hfl, rfl⟩, hmv, ?_⟩))))
      rw [h, if_pos hfl]
  · cases hfind : find_free_block fuel s.hdr s.free_list s.free_list (align8 size) with
    | none => exact Or.inl (malloc_custom_search_fuel fuel k s size hsz hfl hfind)
    | some r =>
      obtain ⟨block, last⟩ := r
      by_cases hblock : block = 0
      · subst hblock
        have hm := malloc_custom_grow fuel k s size last hsz hfl hfind
        rcases malloc_after_request_cases k s last (align8 size)
          (malloc_custom fuel k s size) s.free_list (by
          rw [hm]
          rcases request_space_cases k s last (align8 size) with
            h | ⟨_, b, h⟩ | ⟨_, b, _, h⟩ <;>
            rw [h]) with h | ⟨hb, b, h⟩ | ⟨hz, b, hmv, h⟩ | ⟨hz, hb, b, hmv, h⟩
        · exact Or.inr (Or.inl h)
        · exact Or.inr (Or.inr (Or.inl ⟨hb, b, h⟩))
        · exact Or.inr (Or.inr (Or.inr (Or.inl ⟨hz, last, b, hmv, h⟩)))
        · refine Or.inr (Or.inr (Or.inr (Or.inr (Or.inl
            ⟨hz, hb, last, b, Or.inr ⟨hfl, rfl⟩, hmv, ?_⟩))))
          rw [h, if_neg hfl]
      · exact Or.inr (Or.inr (Or.inr (Or.inr (Or.inr
          ⟨hfl, block, last, hblock, rfl,
            malloc_custom_reuse fuel k s size block last hsz hfl hblock hfind⟩))))


/-! ## Capacity of the block handed out -/

/-- The block behind a non-null result of `malloc_custom(size)` has capacity
at least the rounded size `align8 size` (which is `≥ size` unless the rounding
wraps). -/
theorem malloc_custom_capacity (fuel : Nat) (k : Kernel) (s s1 : State) (size p : Nat)
    (h0 : 0 < size)
    (hm : malloc_custom fuel k s size = .ret p s1) (hp : p ≠ 0) :
    align8 size ≤ (s1.hdr (p - sizeof_block_header)).size := by
  have hne : size ≠ 0 := Nat.pos_iff_ne_zero.mp h0
  rcases malloc_custom_cases fuel k s size hne with h | h | ⟨_, b, h⟩ | ⟨_, _, b, _, h⟩ |
      ⟨_, _, last, b, _, _, h⟩ | ⟨_, block, last, hblock, hfind, h⟩
  all_goals rw [h] at hm
  · cases hm
  · simp only [Outcome.ret.injEq] at hm; exact absurd hm.1.symm hp
  · simp only [Outcome.ret.injEq] at hm; exact absurd hm.1.symm hp
  · simp only [Outcome.ret.injEq] at hm; exact absurd hm.1.symm hp
  · simp only [Outcome.ret.injEq] at hm
    obtain ⟨rfl, rfl⟩ := hm
    simp [request_space_writes_block]
  · simp only [Outcome.ret.injEq] at hm
    obtain ⟨rfl, rfl⟩ := hm
    rcases find_free_block_result _ _ _ _ _ _ _ hfind with hz | ⟨_, hge⟩
    · exact absurd hz hblock
    · simp only [Nat.add_sub_cancel]
      exact split_block_size _ _ _ (by simpa using hge)

/-! ## The early exits of `free_custom` and `realloc_custom` -/

theorem free_custom_corrupt (fuel : Nat) (s : State) (p : Nat) (hp : p ≠ 0)
    (htag : (s.hdr (p - sizeof_block_header)).canary ≠ CANARY) :
    free_custom fuel s p = .abort .corruption s := by
  simp [free_custom, hp, check_canary, htag]

theorem realloc_custom_corrupt (fuel : Nat) (k : Kernel) (s : State) (p n : Nat)
    (hp : p ≠ 0) (hn : n ≠ 0)
    (htag : (s.hdr (p - sizeof_block_header)).canary ≠ CANARY) :
    realloc_custom fuel k s p n = .abort .corruption s := by
  simp [realloc_custom, hp, hn, check_canary, htag]

theorem realloc_custom_same (fuel : Nat) (k : Kernel) (s : State) (p n : Nat)
    (hp : p ≠ 0) (hn : n ≠ 0)
    (htag : (s.hdr (p - sizeof_block_header)).canary = CANARY)
    (hfit : n ≤ (s.hdr (p - sizeof_block_header)).size) :
    realloc_custom fuel k s p n = .ret p s := by
  simp [realloc_custom, hp, hn, check_canary, htag, hfit]

/-! ## Claims -/

/-- C1, evaluated where it fails: on the empty arena `malloc_custom(2^64 - 1)`
rounds the request to 0, returns the non-null address 4128, and the block
behind that address records capacity 0, which is smaller than the request. -/
theorem malloc_custom_wraps_capacity :
    (malloc_custom 1 sample_kernel (empty_arena 4096) (2 ^ 64 - 1)).value? = some 4128 ∧
    ((malloc_custom 1 sample_kernel (empty_arena 4096) (2 ^ 64 - 1)).stateD.hdr
        (4128 - sizeof_block_header)).size = 0 ∧
    ¬ (2 ^ 64 - 1 ≤
      ((malloc_custom 1 sample_kernel (empty_arena 4096) (2 ^ 64 - 1)).stateD.hdr
        (4128 - sizeof_block_header)).size) := by
  decide

/-- C10: in every state and whatever the kernel would answer,
`malloc_custom(0)` returns null and the state after the call is the state
before it (chain, headers, both counters and the break). -/
theorem malloc_custom_zero_noop (fuel : Nat) (k : Kernel) (s : State) :
    malloc_custom fuel k s 0 = .ret 0 s :=
  malloc_custom_zero fuel k s

/-- C4: when the header before a non-null `p` does not carry the integrity
tag, `free_custom(p)` aborts with the corruption report and so does
`realloc_custom(p, n)` for every `n > 0`; this holds whatever the occupancy
flag is, and the state at the abort is the state before the call. -/
theorem corrupt_tag_aborts (fuel : Nat) (s : State) (p : Nat) (hp : p ≠ 0)
    (htag : (s.hdr (p - sizeof_block_header)).canary ≠ CANARY) :
    free_custom fuel s p = .abort .corruption s ∧
    ∀ (k : Kernel) (n : Nat), 0 < n →
      realloc_custom fuel k s p n = .abort .corruption s :=
  ⟨free_custom_corrupt fuel s p hp htag,
   fun k n hn => realloc_custom_corrupt fuel k s p n hp (Nat.pos_iff_ne_zero.mp hn) htag⟩

theorem corrupt_tag_aborts_witness :
    free_custom 1 corrupted_vacant_block 4128 = .abort .corruption corrupted_vacant_block ∧
    ∀ (k : Kernel) (n : Nat), 0 < n →
      realloc_custom 1 k corrupted_vacant_block 4128 n
        = .abort .corruption corrupted_vacant_block :=
  corrupt_tag_aborts 1 corrupted_vacant_block 4128 (by decide) (by decide)

/-- C6, amended: for a non-null `p` whose header carries the integrity tag and
every `n` with `0 < n ≤` capacity, `realloc_custom(p, n)` returns `p` and the
state is unchanged. -/
theorem realloc_custom_fits (fuel : Nat) (k : Kernel) (s : State) (p n : Nat)
    (hp : p ≠ 0) (hn : 0 < n)
    (htag : (s.hdr (p - sizeof_block_header)).canary = CANARY)
    (hfit : n ≤ (s.hdr (p - sizeof_block_header)).size) :
    realloc_custom fuel k s p n = .ret p s :=
  realloc_custom_same fuel k s p n hp (Nat.pos_iff_ne_zero.mp hn) htag hfit

theorem realloc_custom_fits_witness :
    realloc_custom 1 sample_kernel after_one_malloc 4128 5 = .ret 4128 after_one_malloc :=
  realloc_custom_fits 1 sample_kernel after_one_malloc 4128 5 (by decide) (by decide)
    (by decide) (by decide)

/-- C6 as stated fails at `n = 0`: the block at 4128 is occupied with an intact
tag and `0 ≤` capacity, yet `realloc_custom(4128, 0)` returns null, marks the
block vacant and counts a free. -/
theorem realloc_custom_zero_frees :
    (after_one_malloc.hdr (4128 - sizeof_block_header)).canary = CANARY ∧
    0 ≤ (after_one_malloc.hdr (4128 - sizeof_block_header)).size ∧
    (after_one_malloc.hdr (4128 - sizeof_block_header)).free = 0 ∧
    (realloc_custom 2 sample_kernel after_one_malloc 4128 0).value? = some 0 ∧
    ((realloc_custom 2 sample_kernel after_one_malloc 4128 0).stateD.hdr
        (4128 - sizeof_block_header)).free = 1 ∧
    (realloc_custom 2 sample_kernel after_one_malloc 4128 0).stateD.total_frees
      = after_one_malloc.total_frees + 1 := by
  decide

/-- C8: the overflow test of `calloc_custom` is exact.  For all `num` and
`nsize` (in particular all 64-bit ones), a product of at least `2^64` returns null with the state unchanged,
and a product below `2^64` goes on to allocate and zero-fill exactly the
product. -/
theorem calloc_custom_overflow_exact (fuel : Nat) (k : Kernel) (s : State) (num nsize : Nat) :
    (WORD ≤ num * nsize → calloc_custom fuel k s num nsize = .ret 0 s) ∧
    (num * nsize < WORD →
      calloc_custom fuel k s num nsize = calloc_fill fuel k s (num * nsize)) := by
  have hW : 0 < WORD := by unfold WORD; norm_num
  constructor
  · intro hov
    have hns0 : nsize ≠ 0 := by
      rintro rfl
      simp at hov
      omega
    have hlt : num * nsize % WORD < num * nsize := lt_of_lt_of_le (Nat.mod_lt _ hW) hov
    have hdiv : num * nsize % WORD / nsize < num :=
      Nat.div_lt_of_lt_mul (by rw [Nat.mul_comm nsize num]; exact hlt)
    simp [calloc_custom, hns0, Nat.ne_of_lt hdiv]
  · intro hlt
    have hmod : num * nsize % WORD = num * nsize := Nat.mod_eq_of_lt hlt
    by_cases hns0 : nsize = 0
    · subst hns0
      simp [calloc_custom]
    · have hdiv : num * nsize / nsize = num := Nat.mul_div_cancel _ (Nat.pos_of_ne_zero hns0)
      simp [calloc_custom, hmod, hdiv]

theorem calloc_custom_overflow_exact_witness :
    calloc_custom 1 sample_kernel (empty_arena 4096) (2 ^ 32) (2 ^ 32)
      = .ret 0 (empty_arena 4096) ∧
    calloc_custom 1 sample_kernel (empty_arena 4096) 10 10
      = calloc_fill 1 sample_kernel (empty_arena 4096) (10 * 10) :=
  ⟨(calloc_custom_overflow_exact 1 sample_kernel (empty_arena 4096) (2 ^ 32) (2 ^ 32)).1
      (by decide),
   (calloc_custom_overflow_exact 1 sample_kernel (empty_arena 4096) 10 10).2 (by decide)⟩

/-! ## The header memory after `split_block` and after a merge -/

theorem split_block_eq (h : Headers) (b sz x : Nat) :
    split_block h b sz x =
      if add64 (add64 sz sizeof_block_header) ALIGNMENT ≤ (h b).size then
        if x = b then { h b with size := sz, next := b + sizeof_block_header + sz }
        else if x = b + sizeof_block_header + sz then
          ⟨sub64 (sub64 (h b).size sz) sizeof_block_header, 1, (h b).next, CANARY⟩
        else h x
      else h x := by
  unfold split_block
  have hne : b ≠ b + sizeof_block_header + sz := by unfold sizeof_block_header; omega
  by_cases hc : add64 (add64 sz sizeof_block_header) ALIGNMENT ≤ (h b).size
  · simp only [ge_iff_le, hc, if_true]
    by_cases hx : x = b
    · subst hx
      simp [set_canary, setCanary_other _ _ _ _ hne, setNext_other _ _ _ _ hne,
        setFree_other _ _ _ _ hne, setSize_other _ _ _ _ hne]
    · by_cases hx2 : x = b + sizeof_block_header + sz
      · subst hx2
        simp [hx, set_canary, setNext_other _ _ _ _ hx, setSize_other _ _ _ _ hx,
          setFree_other _ _ _ _ hne, setSize_other _ _ _ _ hne]
      · simp [hx, hx2, set_canary, setNext_other _ _ _ _ hx, setSize_other _ _ _ _ hx,
          setCanary_other _ _ _ _ hx2, setNext_other _ _ _ _ hx2, setFree_other _ _ _ _ hx2,
          setSize_other _ _ _ _ hx2]
  · simp [hc]

theorem coalesce_merge_eq (h : Headers) (cur x : Nat) :
    coalesce_merge h cur x =
      if x = cur then
        { h cur with
          size := add64 (h cur).size (add64 sizeof_block_header (h (h cur).next).size),
          next := (h (h cur).next).next }
      else h x := by
  unfold coalesce_merge
  by_cases hx : x = cur
  · subst hx
    by_cases hn : (h x).next = x
    · simp [hn]
    · simp [setSize_other _ _ _ _ hn]
  · simp [hx, setNext_other _ _ _ _ hx, setSize_other _ _ _ _ hx]

/-- Induction along the loop of `coalesce_free_blocks`: a property of the
header memory and the loop variable that survives a merge and survives an
advance holds when the loop ends. -/
theorem coalesce_loop_induction (P : Headers → Nat → Prop)
    (hmerge : ∀ h cur, P h cur → cur ≠ 0 → (h cur).next ≠ 0 → (h cur).free ≠ 0 →
      (h ((h cur).next)).free ≠ 0 → P (coalesce_merge h cur) cur)
    (hadv : ∀ h cur, P h cur → cur ≠ 0 → (h cur).next ≠ 0 →
      ¬ ((h cur).free ≠ 0 ∧ (h ((h cur).next)).free ≠ 0) → P h ((h cur).next))
    (fuel : Nat) (h : Headers) (cur : Nat) (h1 : Headers)
    (hP : P h cur) (hrun : coalesce_loop fuel h cur = some h1) :
    ∃ c, P h1 c ∧ (c = 0 ∨ (h1 c).next = 0) := by
  induction fuel generalizing h cur with
  | zero => simp [coalesce_loop] at hrun
  | succ n ih =>
    rw [coalesce_loop] at hrun
    split at hrun
    · rename_i hc
      split at hrun
      · rename_i hf
        exact ih _ _ (hmerge h cur hP hc.1 hc.2 hf.1 hf.2) hrun
      · rename_i hf
        exact ih _ _ (hadv h cur hP hc.1 hc.2 hf) hrun
    · rename_i hc
      simp only [Option.some.injEq] at hrun
      subst hrun
      refine ⟨cur, hP, ?_⟩
      by_cases h0 : cur = 0
      · exact Or.inl h0
      · right
        by_contra hn
        exact hc ⟨h0, hn⟩

/-- The loop of `coalesce_free_blocks` never writes a `free` flag or an
integrity tag. -/
theorem coalesce_loop_free_canary (fuel : Nat) (h : Headers) (cur : Nat) (h1 : Headers)
    (hrun : coalesce_loop fuel h cur = some h1) (x : Nat) :
    (h1 x).free = (h x).free ∧ (h1 x).canary = (h x).canary := by
  obtain ⟨_, hP, _⟩ := coalesce_loop_induction
    (fun g _ => ∀ x, (g x).free = (h x).free ∧ (g x).canary = (h x).canary)
    (by
      intro g cur hg _ _ _ _ x
      rw [coalesce_merge_eq]
      by_cases hx : x = cur
      · subst hx; simpa using hg x
      · simpa [hx] using hg x)
    (by intro g cur hg _ _ _; exact hg)
    fuel h cur h1 (fun _ => ⟨rfl, rfl⟩) hrun
  exact hP x

/-! ## The branches of `free_custom` -/

/-- Every way a call `free_custom(p)` can end. -/
theorem free_custom_cases (fuel : Nat) (s : State) (p : Nat) :
    (p = 0 ∧ free_custom fuel s p = .ret () s) ∨
    (p ≠ 0 ∧ (s.hdr (p - sizeof_block_header)).canary ≠ CANARY ∧
      free_custom fuel s p = .abort .corruption s) ∨
    (p ≠ 0 ∧ (s.hdr (p - sizeof_block_header)).canary = CANARY ∧
      (s.hdr (p - sizeof_block_header)).free ≠ 0 ∧
      free_custom fuel s p = .abort .double_free s) ∨
    (p ≠ 0 ∧ (s.hdr (p - sizeof_block_header)).canary = CANARY ∧
      (s.hdr (p - sizeof_block_header)).free = 0 ∧
      coalesce_loop fuel (setFree s.hdr (p - sizeof_block_header) 1) s.free_list = none ∧
      free_custom fuel s p = .diverge) ∨
    (p ≠ 0 ∧ (s.hdr (p - sizeof_block_header)).canary = CANARY ∧
      (s.hdr (p - sizeof_block_header)).free = 0 ∧
      ∃ h1, coalesce_loop fuel (setFree s.hdr (p - sizeof_block_header) 1) s.free_list
          = some h1 ∧
        free_custom fuel s p = .ret ()
          { s with hdr := h1, total_frees := add64 s.total_frees 1 }) := by
  by_cases hp : p = 0
  · left
    exact ⟨hp, by simp [free_custom, hp]⟩
  · right
    by_cases hc : (s.hdr (p - sizeof_block_header)).canary = CANARY
    · right
      by_cases hf : (s.hdr (p - sizeof_block_header)).free = 0
      · right
        cases hrun : coalesce_loop fuel (setFree s.hdr (p - sizeof_block_header) 1)
            s.free_list with
        | none =>
          left
          exact ⟨hp, hc, hf, rfl, by
            simp [free_custom, hp, check_canary, hc, hf, coalesce_free_blocks, hrun]⟩
        | some h1 =>
          right
          exact ⟨hp, hc, hf, h1, rfl, by
            simp [free_custom, hp, check_canary, hc, hf, coalesce_free_blocks, hrun]⟩
      · left
        exact ⟨hp, hc, hf, by simp [free_custom, hp, check_canary, hc, hf]⟩
    · left
      exact ⟨hp, hc, by simp [free_custom, hp, check_canary, hc]⟩
/-! ## The alignment invariant -/

theorem realloc_custom_null (fuel : Nat) (k : Kernel) (s : State) (size : Nat) :
    realloc_custom fuel k s 0 size = malloc_custom fuel k s size := by
  simp [realloc_custom]

theorem realloc_custom_size_zero (fuel : Nat) (k : Kernel) (s : State) (ptr : Nat)
    (hp : ptr ≠ 0) :
    realloc_custom fuel k s ptr 0 = (free_custom fuel s ptr).returning 0 := by
  simp [realloc_custom, hp]

/-- The moving branch of `realloc_custom`: the tag is intact and the block is
too small, so the outcome is decided by `malloc_custom(size)`. -/
theorem realloc_custom_moves (fuel : Nat) (k : Kernel) (s : State) (ptr size : Nat)
    (hp : ptr ≠ 0) (hsz : size ≠ 0)
    (htag : (s.hdr (ptr - sizeof_block_header)).canary = CANARY)
    (hsmall : (s.hdr (ptr - sizeof_block_header)).size < size) :
    realloc_custom fuel k s ptr size =
      match malloc_custom fuel k s size with
      | .ret new_ptr s1 =>
        if new_ptr = 0 then .ret 0 s1
        else
          (free_custom fuel
            { s1 with bytes := (memcpy s1.bytes new_ptr ptr
                (s1.hdr (ptr - sizeof_block_header)).size) } ptr).returning new_ptr
      | .abort f s1 => .abort f s1
      | .diverge => .diverge := by
  simp [realloc_custom, hp, hsz, check_canary, htag, Nat.not_le.mpr hsmall]

theorem returning_ret {α β : Type} (o : Outcome α) (v w : β) (s : State)
    (h : o.returning v = .ret w s) : w = v ∧ ∃ u, o = .ret u s := by
  cases o with
  | ret u s0 =>
    simp only [Outcome.returning, Outcome.ret.injEq] at h
    exact ⟨h.1.symm, u, by rw [h.2]⟩
  | abort f s0 => simp [Outcome.returning] at h
  | diverge => simp [Outcome.returning] at h

/-- Every returning call of `realloc_custom` is one of: a `malloc_custom`
call; a `free_custom` call; nothing at all; a failed `malloc_custom`; or a
`malloc_custom`, a `memcpy` and a `free_custom` in a row. -/
theorem realloc_custom_ret_cases (fuel : Nat) (k : Kernel) (s s3 : State) (ptr size q : Nat)
    (hr : realloc_custom fuel k s ptr size = .ret q s3) :
    (ptr = 0 ∧ malloc_custom fuel k s size = .ret q s3) ∨
    (ptr ≠ 0 ∧ size = 0 ∧ q = 0 ∧ free_custom fuel s ptr = .ret () s3) ∨
    (ptr ≠ 0 ∧ size ≠ 0 ∧ (s.hdr (ptr - sizeof_block_header)).canary = CANARY ∧
      size ≤ (s.hdr (ptr - sizeof_block_header)).size ∧ q = ptr ∧ s3 = s) ∨
    (ptr ≠ 0 ∧ size ≠ 0 ∧ (s.hdr (ptr - sizeof_block_header)).canary = CANARY ∧
      (s.hdr (ptr - sizeof_block_header)).size < size ∧ q = 0 ∧
      malloc_custom fuel k s size = .ret 0 s3) ∨
    (ptr ≠ 0 ∧ size ≠ 0 ∧ (s.hdr (ptr - sizeof_block_header)).canary = CANARY ∧
      (s.hdr (ptr - sizeof_block_header)).size < size ∧ q ≠ 0 ∧
      ∃ s1, malloc_custom fuel k s size = .ret q s1 ∧
        free_custom fuel
          { s1 with bytes := (memcpy s1.bytes q ptr
              (s1.hdr (ptr - sizeof_block_header)).size) } ptr = .ret () s3) := by
  by_cases hp : ptr = 0
  · subst hp
    rw [realloc_custom_null] at hr
    exact Or.inl ⟨rfl, hr⟩
  right
  by_cases hsz : size = 0
  · subst hsz
    rw [realloc_custom_size_zero _ _ _ _ hp] at hr
    obtain ⟨hq, u, hu⟩ := returning_ret _ _ _ _ hr
    exact Or.inl ⟨hp, rfl, hq, hu⟩
  right
  by_cases htag : (s.hdr (ptr - sizeof_block_header)).canary = CANARY
  · by_cases hfit : size ≤ (s.hdr (ptr - sizeof_block_header)).size
    · left
      have := realloc_custom_same fuel k s ptr size hp hsz htag hfit
      rw [this] at hr
      simp only [Outcome.ret.injEq] at hr
      exact ⟨hp, hsz, htag, hfit, hr.1.symm, hr.2.symm⟩
    · right
      have hsmall := Nat.not_le.mp hfit
      rw [realloc_custom_moves fuel k s ptr size hp hsz htag hsmall] at hr
      cases hm : malloc_custom fuel k s size with
      | ret new_ptr s1 =>
        rw [hm] at hr
        simp only at hr
        by_cases hn : new_ptr = 0
        · left
          subst hn
          simp only [if_true, Outcome.ret.injEq] at hr
          obtain ⟨rfl, rfl⟩ := hr
          exact ⟨hp, hsz, htag, hsmall, rfl, rfl⟩
        · right
          simp only [hn, if_false] at hr
          obtain ⟨hq, u, hu⟩ := returning_ret _ _ _ _ hr
          subst hq
          exact ⟨hp, hsz, htag, hsmall, hn, s1, rfl, hu⟩
      | abort f s1 => rw [hm] at hr; cases hr
      | diverge => rw [hm] at hr; cases hr
  · have := realloc_custom_corrupt fuel k s ptr size hp hsz htag
    rw [this] at hr
    cases hr

/-- Every returning call of `calloc_custom` is the overflow exit or a
returning `malloc_custom` followed, for a non-null result, by `memset`. -/
theorem calloc_custom_ret_cases (fuel : Nat) (k : Kernel) (s s2 : State) (num nsize p : Nat)
    (hr : calloc_custom fuel k s num nsize = .ret p s2) :
    (p = 0 ∧ s2 = s) ∨
    (p = 0 ∧ malloc_custom fuel k s (num * nsize % WORD) = .ret 0 s2) ∨
    (p ≠ 0 ∧ ∃ s1, malloc_custom fuel k s (num * nsize % WORD) = .ret p s1 ∧
      s2 = { s1 with bytes := memset s1.bytes p 0 (num * nsize % WORD) }) := by
  unfold calloc_custom at hr
  simp only at hr
  split at hr
  · simp only [Outcome.ret.injEq] at hr
    exact Or.inl ⟨hr.1.symm, hr.2.symm⟩
  · right
    unfold calloc_fill at hr
    cases hm : malloc_custom fuel k s (num * nsize % WORD) with
    | ret ptr s1 =>
      rw [hm] at hr
      simp only at hr
      by_cases hn : ptr = 0
      · left
        subst hn
        simp only [if_true, Outcome.ret.injEq] at hr
        obtain ⟨rfl, rfl⟩ := hr
        exact ⟨rfl, rfl⟩
      · right
        simp only [hn, if_false, Outcome.ret.injEq] at hr
        obtain ⟨rfl, rfl⟩ := hr
        exact ⟨hn, s1, rfl, rfl⟩
    | abort f s1 => rw [hm] at hr; cases hr
    | diverge => rw [hm] at hr; cases hr

/-! ## The alignment invariant holds in every reachable state -/

theorem request_space_denied (k : Kernel) (s : State) (last size : Nat)
    (hd : sbrk_denied k s (add64 size sizeof_block_header)) :
    request_space k s last size = (0, s) := by
  unfold sbrk_denied at hd
  unfold request_space
  simp [hd]

/-- With the arena extension denied, a call of `malloc_custom` that returns
null leaves the state as it was. -/
theorem malloc_custom_denied (fuel : Nat) (k : Kernel) (s s1 : State) (n : Nat)
    (hfail : malloc_custom fuel k s n = .ret 0 s1)
    (hdenied : sbrk_denied k s (add64 (align8 n) sizeof_block_header)) : s1 = s := by
  by_cases hn : n = 0
  · subst hn
    rw [malloc_custom_zero] at hfail
    simp only [Outcome.ret.injEq, true_and] at hfail
    exact hfail.symm
  by_cases hfl : s.free_list = 0
  · rw [malloc_custom_empty fuel k s n hn hfl, request_space_denied k s 0 _ hdenied] at hfail
    simp only [if_true, Outcome.ret.injEq, true_and] at hfail
    exact hfail.symm
  · cases hfind : find_free_block fuel s.hdr s.free_list s.free_list (align8 n) with
    | none =>
      rw [malloc_custom_search_fuel fuel k s n hn hfl hfind] at hfail
      cases hfail
    | some r =>
      obtain ⟨block, last⟩ := r
      by_cases hblock : block = 0
      · subst hblock
        rw [malloc_custom_grow fuel k s n last hn hfl hfind,
          request_space_denied k s last _ hdenied] at hfail
        simp only [if_true, Outcome.ret.injEq, true_and] at hfail
        exact hfail.symm
      · rw [malloc_custom_reuse fuel k s n block last hn hfl hblock hfind] at hfail
        simp only [Outcome.ret.injEq] at hfail
        exact absurd hfail.1 (by unfold sizeof_block_header; omega)

/-- C7: atomicity of a failed resize.  For a non-null `p` whose header carries
the integrity tag and every `n` greater than the block's capacity, if the
replacement allocation `malloc_custom(n)` returns null with its arena
extension `sbrk(align8(n) + sizeof(block_header))` denied, then
`realloc_custom(p, n)` returns null and the state after the call is the state
before it: every header (so the block of `p` is as occupied as before, with
its capacity, link and tag), the chain head, both counters, the bytes and the
break. -/
theorem realloc_custom_failed_alloc (fuel : Nat) (k : Kernel) (s s1 : State) (p n : Nat)
    (hp : p ≠ 0)
    (htag : (s.hdr (p - sizeof_block_header)).canary = CANARY)
    (hsmall : (s.hdr (p - sizeof_block_header)).size < n)
    (hfail : malloc_custom fuel k s n = .ret 0 s1)
    (hdenied : sbrk_denied k s (add64 (align8 n) sizeof_block_header)) :
    realloc_custom fuel k s p n = .ret 0 s := by
  have hn : n ≠ 0 := by omega
  have hs1 : s1 = s := malloc_custom_denied fuel k s s1 n hfail hdenied
  subst hs1
  rw [realloc_custom_moves fuel k s1 p n hp hn htag hsmall, hfail]
  simp

theorem realloc_custom_failed_alloc_witness :
    realloc_custom 2 (kernel_upto 4136) after_one_malloc 4128 16 = .ret 0 after_one_malloc :=
  realloc_custom_failed_alloc 2 (kernel_upto 4136) after_one_malloc after_one_malloc 4128 16
    (by decide) (by decide) (by decide) rfl rfl

/-- C9, amended: for `0 < n*s ≤ 2^64 - 8`, when `calloc_custom(n, s)` returns a
non-null address `p`, the block behind `p` has capacity at least `n*s` and
each of the `n*s` bytes `p[0] … p[n*s - 1]` is zero on return. -/
theorem calloc_custom_zeroed (fuel : Nat) (k : Kernel) (s s2 : State) (num nsize p : Nat)
    (hpos : 0 < num * nsize) (hle : num * nsize + 8 ≤ WORD)
    (hr : calloc_custom fuel k s num nsize = .ret p s2) (hp : p ≠ 0) :
    num * nsize ≤ (s2.hdr (p - sizeof_block_header)).size ∧
    ∀ i, i < num * nsize → s2.bytes (p + i) = 0 := by
  have hmod : num * nsize % WORD = num * nsize := Nat.mod_eq_of_lt (by omega)
  rcases calloc_custom_ret_cases fuel k s s2 num nsize p hr with ⟨h0, _⟩ | ⟨h0, _⟩ |
    ⟨_, s1, hm, rfl⟩
  · exact absurd h0 hp
  · exact absurd h0 hp
  · rw [hmod] at hm
    constructor
    · exact le_trans (align8_bounds _ hpos hle).1
        (malloc_custom_capacity fuel k s s1 _ p hpos hm hp)
    · intro i hi
      simp [memset, hmod, hi]

theorem calloc_custom_zeroed_witness :
    dirty_vacant_block.bytes (4128 + 1) = 255 ∧
    2 * 1 ≤ ((calloc_custom 2 sample_kernel dirty_vacant_block 2 1).stateD.hdr
        (4128 - sizeof_block_header)).size ∧
    ∀ i, i < 2 * 1 →
      (calloc_custom 2 sample_kernel dirty_vacant_block 2 1).stateD.bytes (4128 + i) = 0 :=
  ⟨by decide,
    calloc_custom_zeroed 2 sample_kernel dirty_vacant_block
      (calloc_custom 2 sample_kernel dirty_vacant_block 2 1).stateD 2 1 4128
      (by decide) (by decide) rfl (by decide)⟩

/-- C9 as stated fails: `calloc_custom(1, 1)` on a vacant block of capacity 8
whose byte at offset 1 is 255 returns that block; its capacity is 8, not
`1*1`, and the payload byte at offset 1 is still 255. -/
theorem calloc_custom_not_exact :
    0 < 1 * 1 ∧ 1 * 1 < 2 ^ 64 ∧
    (calloc_custom 2 sample_kernel dirty_vacant_block 1 1).value? = some 4128 ∧
    ((calloc_custom 2 sample_kernel dirty_vacant_block 1 1).stateD.hdr
        (4128 - sizeof_block_header)).size = 8 ∧
    8 ≠ 1 * 1 ∧
    (calloc_custom 2 sample_kernel dirty_vacant_block 1 1).stateD.bytes (4128 + 1) = 255 ∧
    (calloc_custom 2 sample_kernel dirty_vacant_block 1 1).stateD.bytes 4128 = 0 := by
  decide

/-- A returning `malloc_custom` writes no payload byte. -/
theorem malloc_custom_bytes (fuel : Nat) (k : Kernel) (s s1 : State) (size p : Nat)
    (hm : malloc_custom fuel k s size = .ret p s1) : s1.bytes = s.bytes := by
  by_cases hsz : size = 0
  · subst hsz
    rw [malloc_custom_zero] at hm
    simp only [Outcome.ret.injEq] at hm
    rw [← hm.2]
  · rcases malloc_custom_cases fuel k s size hsz with h | h | ⟨_, b, h⟩ | ⟨_, last, b, _, h⟩ |
      ⟨_, _, last, b, _, _, h⟩ | ⟨_, block, last, _, _, h⟩ <;>
    · rw [h] at hm
      cases hm <;> rfl

/-- A returning `calloc_custom(n, s)` writes only the first `n*s` bytes behind
the address it returns: every other byte keeps its value (in particular the
payload bytes beyond the first `n*s`), and a call that returns null writes no
byte. -/
theorem calloc_custom_frame (fuel : Nat) (k : Kernel) (s s2 : State) (num nsize p : Nat)
    (hr : calloc_custom fuel k s num nsize = .ret p s2) :
    ∀ x, ¬ (p ≠ 0 ∧ p ≤ x ∧ x < p + num * nsize % WORD) → s2.bytes x = s.bytes x := by
  intro x hx
  rcases calloc_custom_ret_cases fuel k s s2 num nsize p hr with ⟨_, rfl⟩ | ⟨_, hm⟩ |
    ⟨hp, s1, hm, rfl⟩
  · rfl
  · rw [malloc_custom_bytes fuel k s s2 _ 0 hm]
  · have hb := malloc_custom_bytes fuel k s s1 _ p hm
    show memset s1.bytes p 0 (num * nsize % WORD) x = s.bytes x
    unfold memset
    rw [if_neg (fun h => hx ⟨hp, h.1, h.2⟩), hb]

/-- The zero-fill of `calloc_custom(2, 1)` on a reused block whose second
payload byte is 255: both bytes are zero on return, the capacity is 8. -/
theorem calloc_custom_zero_fill_example :
    dirty_vacant_block.bytes 4129 = 255 ∧
    (calloc_custom 2 sample_kernel dirty_vacant_block 2 1).value? = some 4128 ∧
    (calloc_custom 2 sample_kernel dirty_vacant_block 2 1).stateD.bytes 4128 = 0 ∧
    (calloc_custom 2 sample_kernel dirty_vacant_block 2 1).stateD.bytes 4129 = 0 ∧
    ((calloc_custom 2 sample_kernel dirty_vacant_block 2 1).stateD.hdr 4096).size = 8 := by
  decide

/-! ## A chain with a cycle -/

theorem eq_ret_of_value {α : Type} (o : Outcome α) (v : α) (h : o.value? = some v) :
    o = .ret v o.stateD := by
  cases o with
  | ret u s =>
    simp only [Outcome.value?, Option.some.injEq] at h
    subst h
    rfl
  | abort f s => simp [Outcome.value?] at h
  | diverge => simp [Outcome.value?] at h

/-- On two blocks that link to each other, the first of them occupied, the
loop of `coalesce_free_blocks` never ends. -/
theorem coalesce_loop_two_cycle (h : Headers) (a b : Nat) (ha : a ≠ 0) (hb : b ≠ 0)
    (hab : (h a).next = b) (hba : (h b).next = a) (hfa : (h a).free = 0) (fuel : Nat) :
    coalesce_loop fuel h a = none ∧ coalesce_loop fuel h b = none := by
  induction fuel with
  | zero => exact ⟨rfl, rfl⟩
  | succ n ih =>
    constructor
    · rw [coalesce_loop]
      simp only [ha, hab, hb, hfa, ne_eq, not_false_eq_true, and_self, if_true,
        not_true_eq_false, false_and, if_false]
      exact ih.2
    · rw [coalesce_loop]
      simp only [hb, hba, ha, hfa, ne_eq, not_false_eq_true, and_self, if_true,
        not_true_eq_false, and_false, if_false]
      exact ih.1

theorem cyclic_state_reachable : Reachable 4096 cyclic_state :=
  Reachable.malloc cyc4 cyclic_state 3 sample_kernel 8 4128
    (Reachable.malloc cyc3 cyc4 3 sample_kernel 56 4168
      (Reachable.free cyc2 cyc3 3 4128
        (Reachable.malloc cyc1 cyc2 2 sample_kernel (2 ^ 64 - 72) 4208
          (Reachable.malloc (empty_arena 4096) cyc1 1 sample_kernel 48 4128
            (Reachable.start _ ⟨rfl, rfl, rfl, rfl⟩) (by decide)
            (eq_ret_of_value _ _ (by decide)))
          (by decide) (eq_ret_of_value _ _ (by decide)))
        (by decide) (eq_ret_of_value _ _ (by decide)))
      (by decide) (eq_ret_of_value _ _ (by decide)))
    (by decide) (eq_ret_of_value _ _ (by decide))

theorem cyclic_state_coalesce (fuel : Nat) :
    coalesce_loop fuel (setFree cyclic_state.hdr 4096 1) 4096 = none := by
  cases fuel with
  | zero => rfl
  | succ n =>
    rw [coalesce_loop]
    have h1 : (4096 : Nat) ≠ 0 ∧ (setFree cyclic_state.hdr 4096 1 4096).next ≠ 0 := by decide
    have h2 : (setFree cyclic_state.hdr 4096 1 4096).free ≠ 0 ∧
        (setFree cyclic_state.hdr 4096 1 (setFree cyclic_state.hdr 4096 1 4096).next).free ≠ 0 := by
      decide
    rw [if_pos h1, if_pos h2]
    cases n with
    | zero => rfl
    | succ m =>
      rw [coalesce_loop]
      have h3 : (4096 : Nat) ≠ 0 ∧
          (coalesce_merge (setFree cyclic_state.hdr 4096 1) 4096 4096).next ≠ 0 := by decide
      have h4 : ¬ ((coalesce_merge (setFree cyclic_state.hdr 4096 1) 4096 4096).free ≠ 0 ∧
          (coalesce_merge (setFree cyclic_state.hdr 4096 1) 4096
            (coalesce_merge (setFree cyclic_state.hdr 4096 1) 4096 4096).next).free ≠ 0) := by
        decide
      rw [if_pos h3, if_neg h4]
      have h5 : (coalesce_merge (setFree cyclic_state.hdr 4096 1) 4096 4096).next = 4176 := by
        decide
      rw [h5]
      exact (coalesce_loop_two_cycle _ 4176 4136 (by decide) (by decide) (by decide)
        (by decide) (by decide) m).1

/-- C3, evaluated where it fails.  The state `cyclic_state` is reached from the
empty arena by `malloc_custom(48)`, `malloc_custom(2^64 - 72)`,
`free_custom(4128)`, `malloc_custom(56)`, `malloc_custom(8)`.  In it 4128 is the
payload of an occupied block with an intact tag, and `free_custom(4128)` does
not complete for any fuel: the chain has a cycle and the coalescing loop walks
it for ever. -/
theorem free_custom_hangs_on_cycle :
    Reachable 4096 cyclic_state ∧
    (cyclic_state.hdr (4128 - sizeof_block_header)).canary = CANARY ∧
    (cyclic_state.hdr (4128 - sizeof_block_header)).free = 0 ∧
    ∀ fuel, free_custom fuel cyclic_state 4128 = .diverge := by
  refine ⟨cyclic_state_reachable, by decide, by decide, ?_⟩
  intro fuel
  rcases free_custom_cases fuel cyclic_state 4128 with ⟨h, _⟩ | ⟨_, h, _⟩ | ⟨_, _, h, _⟩ |
      ⟨_, _, _, _, h⟩ | ⟨_, _, _, h1, hrun, _⟩
  · exact absurd h (by decide)
  · exact absurd (by decide) h
  · exact absurd (by decide) h
  · exact h
  · have := cyclic_state_coalesce fuel
    have hfl : cyclic_state.free_list = 4096 := by decide
    have hb : 4128 - sizeof_block_header = 4096 := by decide
    rw [hfl, hb, this] at hrun
    cases hrun

/-- C5, evaluated where it fails.  The state `wrapped_block_state` is reached
from the empty arena by `malloc_custom(8)` and `malloc_custom(2^64 - 32)`.  In
it 4168 is the payload of an occupied block with an intact tag and capacity
`2^64 - 32`; for `n = 2^64 - 1` the replacement allocation succeeds, and
`realloc_custom(4168, n)` returns 4168 itself, whose block is then vacant with
capacity 0. -/
theorem realloc_custom_returns_old_address :
    Reachable 4096 wrapped_block_state ∧
    (wrapped_block_state.hdr (4168 - sizeof_block_header)).canary = CANARY ∧
    (wrapped_block_state.hdr (4168 - sizeof_block_header)).free = 0 ∧
    (wrapped_block_state.hdr (4168 - sizeof_block_header)).size < 2 ^ 64 - 1 ∧
    (malloc_custom 3 sample_kernel wrapped_block_state (2 ^ 64 - 1)).value? = some 4168 ∧
    (realloc_custom 3 sample_kernel wrapped_block_state 4168 (2 ^ 64 - 1)).value?
      = some 4168 ∧
    ((realloc_custom 3 sample_kernel wrapped_block_state 4168 (2 ^ 64 - 1)).stateD.hdr
      (4168 - sizeof_block_header)).free = 1 ∧
    ((realloc_custom 3 sample_kernel wrapped_block_state 4168 (2 ^ 64 - 1)).stateD.hdr
      (4168 - sizeof_block_header)).size = 0 := by
  refine ⟨?_, by decide, by decide, by decide, by decide, by decide, by decide, by decide⟩
  exact Reachable.malloc after_one_malloc wrapped_block_state 2 sample_kernel (2 ^ 64 - 32) 4168
    (Reachable.malloc (empty_arena 4096) after_one_malloc 1 sample_kernel 8 4128
      (Reachable.start _ ⟨rfl, rfl, rfl, rfl⟩) (by decide) (eq_ret_of_value _ _ (by decide)))
    (by decide) (eq_ret_of_value _ _ (by decide))

/-! ## Finite chains -/

theorem isChain_unique (h : Headers) (a : Nat) (l1 l2 : List Nat)
    (h1 : IsChain h a l1) (h2 : IsChain h a l2) : l1 = l2 := by
  induction l1 generalizing a l2 with
  | nil =>
    cases l2 with
    | nil => rfl
    | cons b l =>
      simp only [IsChain] at h1 h2
      exact absurd (h2.1 ▸ h1) h2.2.1
  | cons b l ih =>
    cases l2 with
    | nil =>
      simp only [IsChain] at h1 h2
      exact absurd (h1.1 ▸ h2) h1.2.1
    | cons c l2 =>
      simp only [IsChain] at h1 h2
      have hbc : b = c := h1.1.symm.trans h2.1
      subst hbc
      rw [ih _ _ h1.2.2 h2.2.2]

theorem isChain_suffix (h : Headers) (a b : Nat) (l1 l2 : List Nat)
    (hc : IsChain h a (l1 ++ b :: l2)) : IsChain h b (b :: l2) := by
  induction l1 generalizing a with
  | nil =>
    simp only [List.nil_append, IsChain] at hc ⊢
    exact ⟨trivial, hc.2.1, hc.2.2⟩
  | cons c l ih =>
    simp only [List.cons_append, IsChain] at hc
    exact ih _ hc.2.2

theorem isChain_head_not_mem (h : Headers) (a b : Nat) (l : List Nat)
    (hc : IsChain h a (b :: l)) : b ∉ l := by
  intro hb
  obtain ⟨l1, l2, rfl⟩ := List.append_of_mem hb
  have h1 : IsChain h b (b :: l2) := by
    simp only [IsChain] at hc
    exact isChain_suffix h _ b l1 l2 hc.2.2
  have h2 : IsChain h b (b :: (l1 ++ b :: l2)) := by
    simp only [IsChain] at hc ⊢
    exact ⟨trivial, hc.2.1, hc.2.2⟩
  have := congrArg List.length (isChain_unique h b _ _ h1 h2)
  simp at this
  omega

theorem isChain_nodup (h : Headers) (a : Nat) (l : List Nat) (hc : IsChain h a l) :
    l.Nodup := by
  induction l generalizing a with
  | nil => exact List.nodup_nil
  | cons b l ih =>
    refine List.nodup_cons.mpr ⟨isChain_head_not_mem h a b l hc, ?_⟩
    simp only [IsChain] at hc
    exact ih _ hc.2.2

theorem isChain_not_mem_zero (h : Headers) (a : Nat) (l : List Nat) (hc : IsChain h a l) :
    0 ∉ l := by
  induction l generalizing a with
  | nil => simp
  | cons b l ih =>
    simp only [IsChain] at hc
    simp only [List.mem_cons, not_or]
    exact ⟨fun h0 => hc.2.1 h0.symm, ih _ hc.2.2⟩

/-- A chain only depends on the `next` links of its own blocks. -/
theorem isChain_congr (h g : Headers) (a : Nat) (l : List Nat)
    (hg : ∀ x ∈ l, (g x).next = (h x).next) (hc : IsChain h a l) : IsChain g a l := by
  induction l generalizing a with
  | nil => exact hc
  | cons b l ih =>
    simp only [IsChain] at hc ⊢
    refine ⟨hc.1, hc.2.1, ?_⟩
    rw [hg b (List.mem_cons_self _ _)]
    exact ih _ (fun x hx => hg x (List.mem_cons_of_mem _ hx)) hc.2.2

/-- On a finite chain the loop of `coalesce_free_blocks` ends: a fuel of one
more than the number of blocks is enough. -/
theorem coalesce_loop_terminates (n : Nat) (h : Headers) (a : Nat) (l : List Nat)
    (hc : IsChain h a l) (hn : l.length ≤ n) :
    ∃ h1, coalesce_loop (n + 1) h a = some h1 := by
  induction n generalizing h a l with
  | zero =>
    have : l = [] := List.length_eq_zero.mp (Nat.le_zero.mp hn)
    subst this
    simp only [IsChain] at hc
    subst hc
    exact ⟨h, by simp [coalesce_loop]⟩
  | succ n ih =>
    cases l with
    | nil =>
      simp only [IsChain] at hc
      subst hc
      exact ⟨h, by simp [coalesce_loop]⟩
    | cons b l1 =>
      have hnd := isChain_nodup h a _ hc
      simp only [IsChain] at hc
      obtain ⟨rfl, hb0, hc1⟩ := hc
      cases l1 with
      | nil =>
        simp only [IsChain] at hc1
        exact ⟨h, by rw [coalesce_loop]; simp [hc1]⟩
      | cons c l2 =>
        have hc1' := hc1
        simp only [IsChain] at hc1
        obtain ⟨hnc, hc0, hc2⟩ := hc1
        have hnext : (h a).next ≠ 0 := by rw [hnc]; exact hc0
        rw [coalesce_loop, if_pos ⟨hb0, hnext⟩]
        split
        · -- merge: the chain from `a` loses the block `c`
          have hchain : IsChain (coalesce_merge h a) a (a :: l2) := by
            simp only [IsChain]
            refine ⟨trivial, hb0, ?_⟩
            have hnx : (coalesce_merge h a a).next = (h c).next := by
              rw [coalesce_merge_eq, if_pos rfl, hnc]
            rw [hnx]
            refine isChain_congr h _ _ l2 ?_ hc2
            intro x hx
            have hxa : x ≠ a := by
              rintro rfl
              have := (List.nodup_cons.mp hnd).1
              exact this (List.mem_cons_of_mem _ hx)
            rw [coalesce_merge_eq, if_neg hxa]
          exact ih _ _ _ hchain (by simp at hn ⊢; omega)
        · exact ih _ _ _ hc1' (by simp at hn ⊢; omega)

/-! ## Double free -/

/-- In every state whose chain is finite: for a non-null `p` whose header
carries the integrity tag and is marked occupied, `free_custom(p)` returns
(with any fuel above the length of the chain), counting one free and marking
the block vacant, and a second `free_custom(p)` right after it aborts with
the double-free report, in the state the first call left. -/
theorem free_custom_twice (s : State) (l : List Nat) (p fuel : Nat)
    (hc : IsChain s.hdr s.free_list l) (hfuel : l.length < fuel) (hp : p ≠ 0)
    (htag : (s.hdr (p - sizeof_block_header)).canary = CANARY)
    (hocc : (s.hdr (p - sizeof_block_header)).free = 0) :
    ∃ h1, free_custom fuel s p
        = .ret () { s with hdr := h1, total_frees := add64 s.total_frees 1 } ∧
      (h1 (p - sizeof_block_header)).free = 1 ∧
      (h1 (p - sizeof_block_header)).canary = CANARY ∧
      ∀ fuel2, free_custom fuel2 { s with hdr := h1, total_frees := add64 s.total_frees 1 } p
        = .abort .double_free { s with hdr := h1, total_frees := add64 s.total_frees 1 } := by
  have hc1 : IsChain (setFree s.hdr (p - sizeof_block_header) 1) s.free_list l :=
    isChain_congr s.hdr _ _ l (by
      intro x _
      by_cases hx : x = p - sizeof_block_header
      · subst hx; simp
      · rw [setFree_other _ _ _ _ hx]) hc
  obtain ⟨n, rfl⟩ : ∃ n, fuel = n + 1 := ⟨fuel - 1, by omega⟩
  obtain ⟨h1, hrun⟩ := coalesce_loop_terminates n _ _ l hc1 (by omega)
  rcases free_custom_cases (n + 1) s p with ⟨h, _⟩ | ⟨_, h, _⟩ | ⟨_, _, h, _⟩ |
      ⟨_, _, _, h, _⟩ | ⟨_, _, _, h2, hrun2, hfree⟩
  · exact absurd h hp
  · exact absurd htag h
  · exact absurd hocc h
  · rw [hrun] at h; cases h
  · have hfc := coalesce_loop_free_canary _ _ _ _ hrun2 (p - sizeof_block_header)
    simp only [setFree_same] at hfc
    refine ⟨h2, hfree, hfc.1, hfc.2.trans htag, ?_⟩
    intro fuel2
    rcases free_custom_cases fuel2
        { s with hdr := h2, total_frees := add64 s.total_frees 1 } p with
      ⟨h, _⟩ | ⟨_, h, _⟩ | ⟨_, _, _, h⟩ | ⟨_, _, h, _⟩ | ⟨_, _, h, _⟩
    · exact absurd h hp
    · exact absurd (hfc.2.trans htag) h
    · exact h
    · rw [show (h2 (p - sizeof_block_header)).free = 1 from hfc.1] at h
      cases h
    · rw [show (h2 (p - sizeof_block_header)).free = 1 from hfc.1] at h
      cases h

/-! ## Tiling -/

theorem tiles_append (h : Headers) (l1 l2 : List Nat) (x e : Nat) :
    Tiles h (l1 ++ x :: l2) e ↔ Tiles h l1 x ∧ Tiles h (x :: l2) e := by
  induction l1 with
  | nil =>
    show Tiles h (x :: l2) e ↔ True ∧ Tiles h (x :: l2) e
    exact ⟨fun ht => ⟨trivial, ht⟩, fun ht => ht.2⟩
  | cons b l ih =>
    have hd : (l ++ x :: l2).headD e = l.headD x := by cases l <;> rfl
    show (b + sizeof_block_header + (h b).size = (l ++ x :: l2).headD e ∧
        Tiles h (l ++ x :: l2) e) ↔
      (b + sizeof_block_header + (h b).size = l.headD x ∧ Tiles h l x) ∧ Tiles h (x :: l2) e
    rw [hd, ih]
    exact (and_assoc).symm

theorem tiles_le (h : Headers) (l : List Nat) (e : Nat) (ht : Tiles h l e) :
    ∀ y ∈ l, y + sizeof_block_header + (h y).size ≤ e := by
  induction l with
  | nil => simp
  | cons b l ih =>
    have ht1 : b + sizeof_block_header + (h b).size = l.headD e := ht.1
    have ht2 : Tiles h l e := ht.2
    intro y hy
    rcases List.mem_cons.mp hy with rfl | hy
    · cases l with
      | nil => exact le_of_eq ht1
      | cons c l2 =>
        have := ih ht2 c (List.mem_cons_self _ _)
        simp only [List.headD_cons] at ht1
        omega
    · exact ih ht2 y hy

theorem tiles_after (h : Headers) (l : List Nat) (c e : Nat) (ht : Tiles h (c :: l) e) :
    ∀ y ∈ l, c + sizeof_block_header + (h c).size ≤ y := by
  induction l generalizing c with
  | nil => intro y hy; simp at hy
  | cons d l ih =>
    have ht1 : c + sizeof_block_header + (h c).size = d := ht.1
    have ht2 : Tiles h (d :: l) e := ht.2
    intro y hy
    rcases List.mem_cons.mp hy with rfl | hy
    · exact le_of_eq ht1
    · have := ih d ht2 y hy
      omega

/-- In a tiling, the blocks before `x` end at or before `x`, the blocks after
`x` start at or after the end of `x`, and `x` ends at or before the end. -/
theorem tiles_split (h : Headers) (l1 l2 : List Nat) (x e : Nat)
    (ht : Tiles h (l1 ++ x :: l2) e) :
    (∀ y ∈ l1, y + sizeof_block_header + (h y).size ≤ x) ∧
    (∀ y ∈ l2, x + sizeof_block_header + (h x).size ≤ y) ∧
    x + sizeof_block_header + (h x).size ≤ e := by
  obtain ⟨h1, h2⟩ := (tiles_append h l1 l2 x e).mp ht
  exact ⟨tiles_le h l1 x h1, tiles_after h l2 x e h2,
    tiles_le h _ e h2 x (List.mem_cons_self _ _)⟩

/-! ## The search on a finite chain -/

/-- What `find_free_block` returns on a finite chain: a block of the chain, or
`NULL` together with the last block of the chain (the initial `last` when the
chain is empty). -/
theorem find_free_block_chain (fuel : Nat) (h : Headers) (last cur size b r : Nat)
    (l : List Nat) (hc : IsChain h cur l)
    (hf : find_free_block fuel h last cur size = some (b, r)) :
    (b ≠ 0 → b ∈ l) ∧ (b = 0 → r = l.getLastD last) := by
  induction fuel generalizing last cur l with
  | zero => simp [find_free_block] at hf
  | succ n ih =>
    rw [find_free_block] at hf
    split at hf
    · rename_i hcond
      cases l with
      | nil => exact absurd hc hcond.1
      | cons c l2 =>
        obtain ⟨rfl, hc0, hc2⟩ := hc
        obtain ⟨i1, i2⟩ := ih cur _ l2 hc2 hf
        refine ⟨fun hb => List.mem_cons_of_mem _ (i1 hb), fun hb => ?_⟩
        rw [i2 hb]
        cases l2 <;> rfl
    · rename_i hcond
      simp only [Option.some.injEq, Prod.mk.injEq] at hf
      obtain ⟨rfl, rfl⟩ := hf
      cases l with
      | nil => exact ⟨fun hb => absurd hc hb, fun _ => rfl⟩
      | cons c l2 =>
        obtain ⟨rfl, hc0, _⟩ := hc
        exact ⟨fun _ => List.mem_cons_self _ _, fun hb => absurd hb hc0⟩

/-! ## The chain after `request_space` and after `split_block` -/

/-- Linking a new block `nb` after the last block of a finite chain gives the
chain with `nb` at its end. -/
theorem isChain_request_space_writes (h : Headers) (a nb sz : Nat) (l : List Nat)
    (hc : IsChain h a l) (hne : l ≠ []) (hnb : nb ∉ l) (hnb0 : nb ≠ 0) :
    IsChain (request_space_writes h (l.getLastD 0) nb sz) a (l ++ [nb]) := by
  have hnd := isChain_nodup h a l hc
  have h0 := isChain_not_mem_zero h a l hc
  induction l generalizing a with
  | nil => exact absurd rfl hne
  | cons b l2 ih =>
    obtain ⟨rfl, hb0, hc2⟩ := hc
    have hbnb : a ≠ nb := fun e => hnb (e ▸ List.mem_cons_self _ _)
    cases l2 with
    | nil =>
      have hnext : (h a).next = 0 := hc2
      show a = a ∧ a ≠ 0 ∧ IsChain _ _ [nb]
      refine ⟨rfl, hb0, ?_⟩
      rw [request_space_writes_other _ _ _ _ _ hbnb]
      simp only [List.getLastD_cons, List.getLastD_nil, hb0, ne_eq, not_false_eq_true,
        and_self, if_true]
      show nb = nb ∧ nb ≠ 0 ∧ _ = 0
      exact ⟨rfl, hnb0, by rw [request_space_writes_block]⟩
    | cons c l3 =>
      show a = a ∧ a ≠ 0 ∧ IsChain _ _ ((c :: l3) ++ [nb])
      refine ⟨rfl, hb0, ?_⟩
      have hlast : (a :: c :: l3).getLastD 0 = (c :: l3).getLastD 0 := by
        simp [List.getLastD_cons]
      have hal : a ≠ (c :: l3).getLastD 0 := by
        intro e
        have hmem : (c :: l3).getLastD 0 ∈ c :: l3 := by
          rw [List.getLastD_cons]
          exact List.getLastD_mem_cons _ _
        exact (List.nodup_cons.mp hnd).1 (e ▸ hmem)
      rw [hlast, request_space_writes_other _ _ _ _ _ hbnb, if_neg (fun hh => hal hh.1)]
      exact ih _ hc2 (by simp) (fun hm => hnb (List.mem_cons_of_mem _ hm))
        (List.nodup_cons.mp hnd).2 (fun hm => h0 (List.mem_cons_of_mem _ hm))

/-- Splitting the block `x` of a finite chain at an address `nb` that is not
in the chain gives the chain with `nb` right after `x`. -/
theorem isChain_insert (h g : Headers) (a x nb : Nat) (l1 l2 : List Nat)
    (hc : IsChain h a (l1 ++ x :: l2)) (hnb : nb ∉ l1 ++ x :: l2) (hnb0 : nb ≠ 0)
    (hgx : (g x).next = nb) (hgnb : (g nb).next = (h x).next)
    (hg : ∀ y, y ≠ x → y ≠ nb → g y = h y) :
    IsChain g a (l1 ++ x :: nb :: l2) := by
  have hnd := isChain_nodup h a _ hc
  induction l1 generalizing a with
  | nil =>
    obtain ⟨rfl, hx0, hc2⟩ := hc
    show a = a ∧ a ≠ 0 ∧ IsChain g (g a).next (nb :: l2)
    refine ⟨rfl, hx0, ?_⟩
    rw [hgx]
    show nb = nb ∧ nb ≠ 0 ∧ IsChain g (g nb).next l2
    refine ⟨rfl, hnb0, ?_⟩
    rw [hgnb]
    refine isChain_congr h g _ l2 ?_ hc2
    intro y hy
    have hyx : y ≠ a := by
      rintro rfl
      exact (List.nodup_cons.mp hnd).1 hy
    have hynb : y ≠ nb := by
      rintro rfl
      exact hnb (List.mem_cons_of_mem _ hy)
    rw [hg y hyx hynb]
  | cons b l ih =>
    obtain ⟨rfl, hb0, hc2⟩ := hc
    show a = a ∧ a ≠ 0 ∧ IsChain g (g a).next (l ++ x :: nb :: l2)
    refine ⟨rfl, hb0, ?_⟩
    have hax : a ≠ x := by
      rintro rfl
      exact (List.nodup_cons.mp hnd).1 (by simp)
    have hanb : a ≠ nb := by
      rintro rfl
      exact hnb (List.mem_cons_self _ _)
    rw [hg a hax hanb]
    exact ih _ hc2 (fun hm => hnb (List.mem_cons_of_mem _ hm)) (List.nodup_cons.mp hnd).2

/-- In a well-formed state, splitting a chain block keeps the chain finite:
the new block, when one is made, lies strictly inside the old block. -/
theorem isChain_split_block (s : State) (l : List Nat) (x asize : Nat)
    (hwf : WellFormed s l) (hx : x ∈ l) (hfit : asize ≤ (s.hdr x).size)
    (g : Headers) (hgnext : ∀ y, (g y).next = (s.hdr y).next)
    (hgsize : (g x).size = (s.hdr x).size) :
    ∃ l1, IsChain (split_block g x asize) s.free_list l1 ∧ l1.length ≤ l.length + 1 ∧
      ∀ y ∈ l, y ≠ x → split_block g x asize y = g y := by
  obtain ⟨hc, ht, hbrk⟩ := hwf
  have hcg : IsChain g s.free_list l := isChain_congr s.hdr g _ l (fun y _ => hgnext y) hc
  by_cases hcond : add64 (add64 asize sizeof_block_header) ALIGNMENT ≤ (g x).size
  · obtain ⟨l1, l2, rfl⟩ := List.append_of_mem hx
    obtain ⟨hbefore, hafter, hend⟩ := tiles_split s.hdr l1 l2 x s.brk ht
    have hx0 : x ≠ 0 := fun e => isChain_not_mem_zero _ _ _ hc (e ▸ hx)
    -- the size test did not wrap
    have hnowrap : asize + 40 ≤ (s.hdr x).size := by
      rw [hgsize] at hcond
      unfold add64 sizeof_block_header ALIGNMENT WORD at hcond
      unfold sizeof_block_header at hend
      unfold WORD at hbrk
      omega
    have hnb : x + sizeof_block_header + asize ∉ l1 ++ x :: l2 := by
      intro hm
      rcases List.mem_append.mp hm with hm | hm
      · have := hbefore _ hm
        unfold sizeof_block_header at this
        omega
      · rcases List.mem_cons.mp hm with hm | hm
        · unfold sizeof_block_header at hm
          omega
        · have := hafter _ hm
          unfold sizeof_block_header at this
          omega
    refine ⟨l1 ++ x :: (x + sizeof_block_header + asize) :: l2, ?_, by simp; omega, ?_⟩
    · refine isChain_insert g _ _ x _ l1 l2 hcg hnb (by unfold sizeof_block_header; omega)
        ?_ ?_ ?_
      · rw [split_block_eq, if_pos hcond, if_pos rfl]
      · rw [split_block_eq, if_pos hcond,
          if_neg (by unfold sizeof_block_header; omega), if_pos rfl]
      · intro y hy1 hy2
        rw [split_block_eq, if_pos hcond, if_neg hy1, if_neg hy2]
    · intro y hy hyx
      have hynb : y ≠ x + sizeof_block_header + asize := by
        rintro rfl
        exact hnb hy
      rw [split_block_eq, if_pos hcond, if_neg hyx, if_neg hynb]
  · refine ⟨l, ?_, by simp, ?_⟩
    · have : split_block g x asize = g := by
        funext y
        rw [split_block_eq, if_neg hcond]
      rw [this]
      exact hcg
    · intro y _ _
      rw [split_block_eq, if_neg hcond]

/-! ## A moving `realloc_custom` in a well-formed state -/

/-- In a well-formed state a successful `malloc_custom` hands out a block other
than the occupied chain block `b`, leaves the bytes and the capacity, flag and
tag of `b` as they were, and leaves a finite chain. -/
theorem malloc_custom_keeps_block (s : State) (l : List Nat) (b n fuel : Nat) (k : Kernel)
    (q : Nat) (s1 : State) (hwf : WellFormed s l) (hb : b ∈ l)
    (hocc : (s.hdr b).free = 0)
    (hm : malloc_custom fuel k s n = .ret q s1) (hq : q ≠ 0) :
    q ≠ b + sizeof_block_header ∧ s1.bytes = s.bytes ∧
    (s1.hdr b).size = (s.hdr b).size ∧ (s1.hdr b).free = (s.hdr b).free ∧
    (s1.hdr b).canary = (s.hdr b).canary ∧
    ∃ l1, IsChain s1.hdr s1.free_list l1 ∧ l1.length ≤ l.length + 1 := by
  have hn0 : n ≠ 0 := by
    rintro rfl
    rw [malloc_custom_zero] at hm
    simp only [Outcome.ret.injEq] at hm
    exact hq hm.1.symm
  obtain ⟨hc, ht, hbrk⟩ := hwf
  have hlne : l ≠ [] := List.ne_nil_of_mem hb
  have hfl0 : s.free_list ≠ 0 := by
    cases l with
    | nil => exact absurd rfl hlne
    | cons c l2 =>
      obtain ⟨e, hc0, _⟩ := hc
      rw [e]; exact hc0
  rcases malloc_custom_cases fuel k s n hn0 with h | h | ⟨_, b2, h⟩ | ⟨_, _, b2, _, h⟩ |
      ⟨hz, _, last, b2, hlast, _, h⟩ | ⟨_, block, last, hblock, hfind, h⟩
  all_goals rw [h] at hm
  · cases hm
  · simp only [Outcome.ret.injEq] at hm; exact absurd hm.1.symm hq
  · simp only [Outcome.ret.injEq] at hm; exact absurd hm.1.symm hq
  · simp only [Outcome.ret.injEq] at hm; exact absurd hm.1.symm hq
  · simp only [Outcome.ret.injEq] at hm
    obtain ⟨rfl, rfl⟩ := hm
    have hfind : find_free_block fuel s.hdr s.free_list s.free_list (align8 n)
        = some (0, last) := by
      rcases hlast with ⟨h0, _⟩ | ⟨_, hf⟩
      · exact absurd h0 hfl0
      · exact hf
    have hlast2 : last = l.getLastD 0 := by
      rw [(find_free_block_chain fuel s.hdr _ _ _ _ _ l hc hfind).2 rfl]
      cases l with
      | nil => exact absurd rfl hlne
      | cons c l2 => rfl
    have hlt : ∀ y ∈ l, y < s.brk := by
      intro y hy
      have := tiles_le s.hdr l s.brk ht y hy
      unfold sizeof_block_header at this
      omega
    have hnb : s.brk ∉ l := fun hm => absurd (hlt _ hm) (lt_irrefl _)
    have hbb : b ≠ s.brk := fun e => hnb (e ▸ hb)
    have hhdr := request_space_writes_other s.hdr last s.brk (align8 n) b hbb
    refine ⟨by omega, rfl, ?_, ?_, ?_, l ++ [s.brk], ?_, by simp⟩
    · show (request_space_writes s.hdr last s.brk (align8 n) b).size = _
      rw [hhdr]; split <;> rfl
    · show (request_space_writes s.hdr last s.brk (align8 n) b).free = _
      rw [hhdr]; split <;> rfl
    · show (request_space_writes s.hdr last s.brk (align8 n) b).canary = _
      rw [hhdr]; split <;> rfl
    · show IsChain (request_space_writes s.hdr last s.brk (align8 n))
        (if s.free_list = 0 then s.brk else s.free_list) (l ++ [s.brk])
      rw [if_neg hfl0, hlast2]
      exact isChain_request_space_writes s.hdr _ s.brk _ l hc hlne hnb hz
  · simp only [Outcome.ret.injEq] at hm
    obtain ⟨rfl, rfl⟩ := hm
    have hmem : block ∈ l := (find_free_block_chain fuel s.hdr _ _ _ _ _ l hc hfind).1 hblock
    rcases find_free_block_result _ _ _ _ _ _ _ hfind with h0 | ⟨hvac, hfit⟩
    · exact absurd h0 hblock
    have hbne : b ≠ block := by
      rintro rfl
      exact hvac hocc
    obtain ⟨l1, hl1, hlen, hsame⟩ := isChain_split_block s l block (align8 n)
      ⟨hc, ht, hbrk⟩ hmem hfit (setFree s.hdr block 0)
      (by
        intro y
        by_cases hy : y = block
        · subst hy; simp
        · rw [setFree_other _ _ _ _ hy])
      (by simp)
    have hhdr : split_block (setFree s.hdr block 0) block (align8 n) b = s.hdr b := by
      rw [hsame b hb hbne, setFree_other _ _ _ _ hbne]
    refine ⟨by omega, rfl, ?_, ?_, ?_, l1, hl1, hlen⟩
    · show (split_block (setFree s.hdr block 0) block (align8 n) b).size = _
      rw [hhdr]
    · show (split_block (setFree s.hdr block 0) block (align8 n) b).free = _
      rw [hhdr]
    · show (split_block (setFree s.hdr block 0) block (align8 n) b).canary = _
      rw [hhdr]

/-- In a well-formed state, for an occupied chain block `b` with intact tag and
`n` above its capacity: when the replacement allocation succeeds (result `q`),
`realloc_custom(b + 1, n)` returns `q`, which is not the old payload address;
the first `capacity` bytes at `q` are the old payload bytes; the old block is
vacant afterwards and a following `free_custom` of the old address aborts
with the double-free report. -/
theorem realloc_custom_moves_block (s : State) (l : List Nat) (b n fuel : Nat) (k : Kernel)
    (q : Nat) (s1 : State) (hwf : WellFormed s l) (hb : b ∈ l)
    (htag : (s.hdr b).canary = CANARY) (hocc : (s.hdr b).free = 0)
    (hn : (s.hdr b).size < n) (hfuel : l.length + 1 < fuel)
    (hm : malloc_custom fuel k s n = .ret q s1) (hq : q ≠ 0) :
    ∃ s3, realloc_custom fuel k s (b + sizeof_block_header) n = .ret q s3 ∧
      q ≠ b + sizeof_block_header ∧
      (∀ i, i < (s.hdr b).size → s3.bytes (q + i) = s.bytes (b + sizeof_block_header + i)) ∧
      (s3.hdr b).free = 1 ∧ (s3.hdr b).canary = CANARY ∧
      ∀ fuel2, free_custom fuel2 s3 (b + sizeof_block_header) = .abort .double_free s3 := by
  obtain ⟨hqb, hbytes, hsize, hfree, hcan, l1, hl1, hlen⟩ :=
    malloc_custom_keeps_block s l b n fuel k q s1 hwf hb hocc hm hq
  have hpb : b + sizeof_block_header - sizeof_block_header = b := Nat.add_sub_cancel _ _
  have hp0 : b + sizeof_block_header ≠ 0 := by unfold sizeof_block_header; omega
  have hn0 : n ≠ 0 := by omega
  have hre := realloc_custom_moves fuel k s (b + sizeof_block_header) n hp0 hn0
    (by rw [hpb]; exact htag) (by rw [hpb]; exact hn)
  rw [hm] at hre
  simp only [hq, if_false, hpb] at hre
  obtain ⟨h1, hf1, hvac, hcan1, hdf⟩ := free_custom_twice
    { s1 with bytes := memcpy s1.bytes q (b + sizeof_block_header) (s1.hdr b).size } l1
    (b + sizeof_block_header) fuel hl1 (by omega) hp0
    (by rw [hpb]; exact hcan.trans htag) (by rw [hpb]; exact hfree.trans hocc)
  rw [hpb] at hvac hcan1
  rw [hf1] at hre
  refine ⟨_, hre, hqb, ?_, hvac, hcan1, hdf⟩
  intro i hi
  show memcpy s1.bytes q (b + sizeof_block_header) (s1.hdr b).size (q + i) = _
  rw [hsize, hbytes]
  simp [memcpy, hi]

/-! ## The two lemmas above on the calls of `main` -/

theorem main_before_realloc_wellFormed :
    WellFormed main_before_realloc [4096, 4184, 4232] := by
  refine ⟨⟨by decide, by decide, by decide, by decide, by decide, by decide,
      (show (main_before_realloc.hdr 4232).next = 0 by decide)⟩,
    ⟨by decide, by decide, by decide, trivial⟩, by decide⟩

/-- The call `realloc_custom(p2, 300)` of `main`: the block moves from 4264 to
4496, and freeing 4264 again is a double free. -/
theorem main_realloc_moves :
    ∃ s3, realloc_custom 5 sample_kernel main_before_realloc (4232 + sizeof_block_header) 300
        = .ret 4496 s3 ∧
      4496 ≠ 4232 + sizeof_block_header ∧
      (∀ i, i < (main_before_realloc.hdr 4232).size →
        s3.bytes (4496 + i) = main_before_realloc.bytes (4232 + sizeof_block_header + i)) ∧
      (s3.hdr 4232).free = 1 ∧ (s3.hdr 4232).canary = CANARY ∧
      ∀ fuel2, free_custom fuel2 s3 (4232 + sizeof_block_header) = .abort .double_free s3 :=
  realloc_custom_moves_block main_before_realloc [4096, 4184, 4232] 4232 300 5 sample_kernel
    4496 (malloc_custom 5 sample_kernel main_before_realloc 300).stateD
    main_before_realloc_wellFormed (by decide) (by decide) (by decide) (by decide) (by decide)
    (eq_ret_of_value _ _ (by decide)) (by decide)

/-- Freeing 4264 twice in `vacant_then_occupied`: the first call returns and
the block at 4232 is absorbed by the vacant block at 4096 (which then is the
whole chain, with capacity 104 + 32 + 200); the second call aborts with the
double-free report. -/
theorem double_free_after_absorption :
    ∃ h1, free_custom 3 vacant_then_occupied 4264
        = .ret () { vacant_then_occupied with
            hdr := h1, total_frees := add64 vacant_then_occupied.total_frees 1 } ∧
      (h1 (4264 - sizeof_block_header)).free = 1 ∧
      (h1 (4264 - sizeof_block_header)).canary = CANARY ∧
      ∀ fuel2, free_custom fuel2 { vacant_then_occupied with
            hdr := h1, total_frees := add64 vacant_then_occupied.total_frees 1 } 4264
        = .abort .double_free { vacant_then_occupied with
            hdr := h1, total_frees := add64 vacant_then_occupied.total_frees 1 } :=
  free_custom_twice vacant_then_occupied [4096, 4232] 4264 3
    ⟨by decide, by decide, by decide, by decide,
      (show (vacant_then_occupied.hdr 4232).next = 0 by decide)⟩
    (by decide) (by decide) (by decide) (by decide)

theorem absorbed_block_left_chain :
    ((free_custom 3 vacant_then_occupied 4264).stateD.hdr 4096).next = 0 ∧
    ((free_custom 3 vacant_then_occupied 4264).stateD.hdr 4096).size = 104 + 32 + 200 ∧
    ((free_custom 3 vacant_then_occupied 4264).stateD.hdr 4096).free = 1 := by
  decide

theorem wrapped_block_state_reachable : Reachable 4096 wrapped_block_state :=
  Reachable.malloc after_one_malloc wrapped_block_state 2 sample_kernel (2 ^ 64 - 32) 4168
    (Reachable.malloc (empty_arena 4096) after_one_malloc 1 sample_kernel 8 4128
      (Reachable.start _ ⟨rfl, rfl, rfl, rfl⟩) (by decide) (eq_ret_of_value _ _ (by decide)))
    (by decide) (eq_ret_of_value _ _ (by decide))

theorem cyc2_reachable : Reachable 4096 cyc2 :=
  Reachable.malloc cyc1 cyc2 2 sample_kernel (2 ^ 64 - 72) 4208
    (Reachable.malloc (empty_arena 4096) cyc1 1 sample_kernel 48 4128
      (Reachable.start _ ⟨rfl, rfl, rfl, rfl⟩) (by decide)
      (eq_ret_of_value _ _ (by decide)))
    (by decide) (eq_ret_of_value _ _ (by decide))

theorem adjacent_vacant_state_reachable : Reachable 4096 adjacent_vacant_state :=
  Reachable.malloc adj6 adjacent_vacant_state 5 sample_kernel 56 4160
    (Reachable.free adj5 adj6 5 4200
      (Reachable.free adj4 adj5 5 4160
        (Reachable.malloc adj3 adj4 5 sample_kernel (2 ^ 64 - 8) 4160
          (Reachable.malloc adj2 adj3 5 sample_kernel (2 ^ 64 - 120) 4248
            (Reachable.malloc adj1 adj2 5 sample_kernel 16 4200
              (Reachable.malloc (empty_arena 4096) adj1 1 sample_kernel 40 4128
                (Reachable.start _ ⟨rfl, rfl, rfl, rfl⟩) (by decide)
                (eq_ret_of_value _ _ (by decide)))
              (by decide) (eq_ret_of_value _ _ (by decide)))
            (by decide) (eq_ret_of_value _ _ (by decide)))
          (by decide) (eq_ret_of_value _ _ (by decide)))
        (by decide) (eq_ret_of_value _ _ (by decide)))
      (by decide) (eq_ret_of_value _ _ (by decide)))
    (by decide) (eq_ret_of_value _ _ (by decide))

/-- C17, evaluated where it fails.  The state `unordered_state` is reached from
the empty arena by `malloc_custom(48)`, `malloc_custom(2^64 - 72)`,
`malloc_custom(8)`; its chain is 4096, 4176, 4136: the block at 4176 has the
successor 4136, at a smaller address. -/
theorem chain_not_increasing :
    Reachable 4096 unordered_state ∧
    IsChain unordered_state.hdr unordered_state.free_list [4096, 4176, 4136] ∧
    (unordered_state.hdr 4176).next = 4136 ∧ ¬ (4176 < 4136) := by
  refine ⟨?_, ⟨by decide, by decide, by decide, by decide, by decide, by decide,
    (show (unordered_state.hdr 4136).next = 0 by decide)⟩, by decide, by decide⟩
  exact Reachable.malloc cyc2 unordered_state 3 sample_kernel 8 4168 cyc2_reachable
    (by decide) (eq_ret_of_value _ _ (by decide))

/-- C19, evaluated where it fails.  The state `adjacent_vacant_state` is
reached from the empty arena by `malloc_custom(40)`, `malloc_custom(16)`,
`malloc_custom(2^64 - 120)`, `malloc_custom(2^64 - 8)`, `free_custom(4160)`,
`free_custom(4200)`, `malloc_custom(56)`; its chain is 4096, 4168, 4216, and the
neighbours 4168 and 4216 are both vacant. -/
theorem adjacent_blocks_both_vacant :
    Reachable 4096 adjacent_vacant_state ∧
    IsChain adjacent_vacant_state.hdr adjacent_vacant_state.free_list [4096, 4168, 4216] ∧
    (adjacent_vacant_state.hdr 4168).next = 4216 ∧
    (adjacent_vacant_state.hdr 4168).free ≠ 0 ∧
    (adjacent_vacant_state.hdr 4216).free ≠ 0 := by
  refine ⟨adjacent_vacant_state_reachable,
    ⟨by decide, by decide, by decide, by decide, by decide, by decide,
      (show (adjacent_vacant_state.hdr 4216).next = 0 by decide)⟩,
    by decide, by decide, by decide⟩

/-- C20, evaluated where it fails.  In the reachable state
`wrapped_block_state` the chain is 4096, 4136 and the block at 4136 is
occupied with recorded capacity `2^64 - 32`; the call `malloc_custom(8)`
completes (result 4168) and afterwards that block records capacity 8. -/
theorem malloc_custom_overwrites_live_block :
    Reachable 4096 wrapped_block_state ∧
    IsChain wrapped_block_state.hdr wrapped_block_state.free_list [4096, 4136] ∧
    (wrapped_block_state.hdr 4136).free = 0 ∧
    (wrapped_block_state.hdr 4136).size = 2 ^ 64 - 32 ∧
    (malloc_custom 3 sample_kernel wrapped_block_state 8).value? = some 4168 ∧
    ((malloc_custom 3 sample_kernel wrapped_block_state 8).stateD.hdr 4136).size = 8 := by
  refine ⟨wrapped_block_state_reachable,
    ⟨by decide, by decide, by decide, by decide,
      (show (wrapped_block_state.hdr 4136).next = 0 by decide)⟩,
    by decide, by decide, by decide, by decide⟩

/-- C11, evaluated where it fails.  From the empty arena the calls
`malloc_custom(8)`, `malloc_custom(2^64 - 32)`, `malloc_custom(8)` return 4128,
4168 and 4168 again; `free_custom(4168)` and `free_custom(4128)` then return,
so every returned address has been released.  In the state reached no block of
the chain is occupied (`leak_check` counts 0), but `total_allocations` is 3 and
`total_frees` is 2. -/
theorem counters_differ_after_release :
    (malloc_custom 1 sample_kernel (empty_arena 4096) 8).value? = some 4128 ∧
    (malloc_custom 2 sample_kernel after_one_malloc (2 ^ 64 - 32)).value? = some 4168 ∧
    (malloc_custom 3 sample_kernel wrapped_block_state 8).value? = some 4168 ∧
    (free_custom 3 (malloc_custom 3 sample_kernel wrapped_block_state 8).stateD 4168).value?
      = some () ∧
    (free_custom 3
      (free_custom 3 (malloc_custom 3 sample_kernel wrapped_block_state 8).stateD 4168).stateD
      4128).value? = some () ∧
    leak_count 3 released_state.hdr released_state.free_list 0 = some 0 ∧
    released_state.total_allocations = 3 ∧ released_state.total_frees = 2 := by
  decide

/-! ## `find_free_block` is first fit -/

theorem first_fit_ne_zero (h : Headers) (a : Nat) (l : List Nat) (size b : Nat)
    (hc : IsChain h a l) (hb : first_fit h l size = some b) : b ≠ 0 := by
  intro h0
  have hm : b ∈ l := List.mem_of_find?_eq_some hb
  exact isChain_not_mem_zero h a l hc (h0 ▸ hm)

theorem find_free_block_eq_first_fit (h : Headers) (a last size fuel : Nat) (l : List Nat)
    (hc : IsChain h a l) (hfuel : l.length < fuel) :
    ∃ r, find_free_block fuel h last a size = some ((first_fit h l size).getD 0, r) ∧
      (first_fit h l size = none → r = l.getLastD last) := by
  induction l generalizing a last fuel with
  | nil =>
    obtain ⟨n, rfl⟩ : ∃ n, fuel = n + 1 := ⟨fuel - 1, by simp at hfuel; omega⟩
    have ha : a = 0 := hc
    subst ha
    exact ⟨last, by simp [find_free_block, first_fit], fun _ => rfl⟩
  | cons b l2 ih =>
    obtain ⟨n, rfl⟩ : ∃ n, fuel = n + 1 := ⟨fuel - 1, by simp at hfuel; omega⟩
    obtain ⟨rfl, hb0, hc2⟩ := hc
    by_cases hfit : (h a).free ≠ 0 ∧ size ≤ (h a).size
    · refine ⟨last, ?_, ?_⟩
      · rw [find_free_block, if_neg (fun hcond => hcond.2 hfit)]
        simp [first_fit, List.find?_cons, hfit]
      · intro hnone
        simp [first_fit, List.find?_cons, hfit] at hnone
    · obtain ⟨r, hr, hlast⟩ := ih (h a).next a n hc2 (by simp at hfuel; omega)
      refine ⟨r, ?_, ?_⟩
      · rw [find_free_block, if_pos ⟨hb0, hfit⟩, hr]
        simp [first_fit, List.find?_cons, hfit]
      · intro hnone
        have hnone2 : first_fit h l2 size = none := by
          simpa [first_fit, List.find?_cons, hfit] using hnone
        rw [hlast hnone2]
        cases l2 <;> rfl

/-- C16: on a finite chain `l` starting at `head` (with fuel above its length),
`find_free_block` returns the first block of `l`, in chain order, that is vacant
with capacity at least `size`; it returns null exactly when no block of the
chain is vacant with capacity at least `size`, and then the out-parameter
`last` is the final block of the chain (for a non-empty chain; the value it had
before the call otherwise).  The function returns its two results and no
header memory: it modifies no block. -/
theorem find_free_block_first_fit (h : Headers) (head last size fuel : Nat) (l : List Nat)
    (hc : IsChain h head l) (hfuel : l.length < fuel) :
    ∃ r, find_free_block fuel h last head size = some ((first_fit h l size).getD 0, r) ∧
      ((first_fit h l size).getD 0 = 0 ↔
        ∀ b ∈ l, ¬ ((h b).free ≠ 0 ∧ size ≤ (h b).size)) ∧
      ((first_fit h l size).getD 0 = 0 → r = l.getLastD last) := by
  obtain ⟨r, hr, hlast⟩ := find_free_block_eq_first_fit h head last size fuel l hc hfuel
  have hiff : (first_fit h l size).getD 0 = 0 ↔ first_fit h l size = none := by
    cases hff : first_fit h l size with
    | none => simp
    | some b =>
      have := first_fit_ne_zero h head l size b hc hff
      simp [this]
  refine ⟨r, hr, ?_, fun h0 => hlast (hiff.mp h0)⟩
  rw [hiff]
  unfold first_fit
  rw [List.find?_eq_none]
  constructor
  · intro hall b hb
    simpa using hall b hb
  · intro hall b hb
    simpa using hall b hb

theorem find_free_block_first_fit_witness :
    ∃ r, find_free_block 4 main_before_realloc.hdr 4096 4096 16 =
        some ((first_fit main_before_realloc.hdr [4096, 4184, 4232] 16).getD 0, r) ∧
      ((first_fit main_before_realloc.hdr [4096, 4184, 4232] 16).getD 0 = 0 ↔
        ∀ b ∈ [4096, 4184, 4232],
          ¬ ((main_before_realloc.hdr b).free ≠ 0 ∧ 16 ≤ (main_before_realloc.hdr b).size)) ∧
      ((first_fit main_before_realloc.hdr [4096, 4184, 4232] 16).getD 0 = 0 →
        r = [4096, 4184, 4232].getLastD 4096) :=
  find_free_block_first_fit main_before_realloc.hdr 4096 4096 16 4 [4096, 4184, 4232]
    main_before_realloc_wellFormed.1 (by decide)

theorem first_fit_example :
    first_fit main_before_realloc.hdr [4096, 4184, 4232] 16 = some 4184 ∧
    first_fit main_before_realloc.hdr [4096, 4184, 4232] 24 = none ∧
    find_free_block 4 main_before_realloc.hdr 4096 4096 24 = some (0, 4232) := by
  decide

/-! ## `split_block` -/

/-- C15: `split_block(block, size)` on a block of capacity `c`, in the `size_t`
arithmetic of the code.  If `c ≥ size + sizeof(block_header) + ALIGNMENT`, then
afterwards the block has capacity `size` and links to a new block at
`block + sizeof(block_header) + size` (exactly `size` bytes after the payload
start), which is vacant, carries the integrity tag, has capacity
`c - size - sizeof(block_header)` and inherits the former link, and no other
header changes; otherwise the header memory is unchanged.  The flag and the tag
of the block itself never change.  When the test does not wrap
(`size + 40 < 2^64`, `c < 2^64`) the test and the new capacity are the plain
`size + 40 ≤ c` and `c - size - 32`, and the new capacity is at least 8. -/
theorem split_block_spec (h : Headers) (block size : Nat) :
    (add64 (add64 size sizeof_block_header) ALIGNMENT ≤ (h block).size →
      (split_block h block size block).size = size ∧
      (split_block h block size block).next = block + sizeof_block_header + size ∧
      split_block h block size (block + sizeof_block_header + size) =
        ⟨sub64 (sub64 (h block).size size) sizeof_block_header, 1, (h block).next, CANARY⟩ ∧
      ∀ x, x ≠ block → x ≠ block + sizeof_block_header + size →
        split_block h block size x = h x) ∧
    (¬ add64 (add64 size sizeof_block_header) ALIGNMENT ≤ (h block).size →
      split_block h block size = h) ∧
    ((split_block h block size block).free = (h block).free ∧
      (split_block h block size block).canary = (h block).canary) ∧
    (size + sizeof_block_header + ALIGNMENT < WORD → (h block).size < WORD →
      (add64 (add64 size sizeof_block_header) ALIGNMENT ≤ (h block).size ↔
        size + sizeof_block_header + ALIGNMENT ≤ (h block).size) ∧
      (size + sizeof_block_header + ALIGNMENT ≤ (h block).size →
        sub64 (sub64 (h block).size size) sizeof_block_header
          = (h block).size - size - sizeof_block_header ∧
        8 ≤ (h block).size - size - sizeof_block_header)) := by
  have hne : block + sizeof_block_header + size ≠ block := by
    unfold sizeof_block_header; omega
  refine ⟨?_, ?_, ?_, ?_⟩
  · intro hc
    refine ⟨?_, ?_, ?_, ?_⟩
    · rw [split_block_eq, if_pos hc, if_pos rfl]
    · rw [split_block_eq, if_pos hc, if_pos rfl]
    · rw [split_block_eq, if_pos hc, if_neg hne, if_pos rfl]
    · intro x hx1 hx2
      rw [split_block_eq, if_pos hc, if_neg hx1, if_neg hx2]
  · intro hc
    funext x
    rw [split_block_eq, if_neg hc]
  · rw [split_block_eq]
    split
    · rw [if_pos rfl]
      exact ⟨rfl, rfl⟩
    · exact ⟨rfl, rfl⟩
  · intro hw hcw
    unfold add64 sub64 sizeof_block_header ALIGNMENT WORD at *
    refine ⟨?_, ?_⟩
    · omega
    · intro hle
      omega

theorem split_block_example :
    (split_block (setFree vacant_then_occupied.hdr 4096 0) 4096 56 4096).size = 56 ∧
    (split_block (setFree vacant_then_occupied.hdr 4096 0) 4096 56 4096).next = 4184 ∧
    split_block (setFree vacant_then_occupied.hdr 4096 0) 4096 56 4184
      = ⟨16, 1, 4232, CANARY⟩ ∧
    split_block (setFree vacant_then_occupied.hdr 4096 0) 4096 72 4096
      = setFree vacant_then_occupied.hdr 4096 0 4096 := by
  decide

/-! ## Single steps of the loops -/

theorem coalesce_loop_stop (n : Nat) (h : Headers) (cur : Nat)
    (hstop : cur = 0 ∨ (h cur).next = 0) : coalesce_loop (n + 1) h cur = some h := by
  rw [coalesce_loop, if_neg]
  rintro ⟨h1, h2⟩
  rcases hstop with h0 | h0
  · exact h1 h0
  · exact h2 h0

theorem coalesce_loop_advance (n : Nat) (h : Headers) (cur : Nat) (hcur : cur ≠ 0)
    (hnext : (h cur).next ≠ 0)
    (hno : ¬ ((h cur).free ≠ 0 ∧ (h ((h cur).next)).free ≠ 0)) :
    coalesce_loop (n + 1) h cur = coalesce_loop n h ((h cur).next) := by
  rw [coalesce_loop, if_pos ⟨hcur, hnext⟩, if_neg hno]

theorem coalesce_loop_merge (n : Nat) (h : Headers) (cur : Nat) (hcur : cur ≠ 0)
    (hnext : (h cur).next ≠ 0)
    (hboth : (h cur).free ≠ 0 ∧ (h ((h cur).next)).free ≠ 0) :
    coalesce_loop (n + 1) h cur = coalesce_loop n (coalesce_merge h cur) cur := by
  rw [coalesce_loop, if_pos ⟨hcur, hnext⟩, if_pos hboth]

theorem find_free_block_stop (n : Nat) (h : Headers) (last cur size : Nat)
    (hstop : cur = 0 ∨ ((h cur).free ≠ 0 ∧ size ≤ (h cur).size)) :
    find_free_block (n + 1) h last cur size = some (cur, last) := by
  rw [find_free_block, if_neg]
  rintro ⟨h1, h2⟩
  rcases hstop with h0 | h0
  · exact h1 h0
  · exact h2 h0

theorem find_free_block_step (n : Nat) (h : Headers) (last cur size : Nat) (hcur : cur ≠ 0)
    (hno : ¬ ((h cur).free ≠ 0 ∧ size ≤ (h cur).size)) :
    find_free_block (n + 1) h last cur size = find_free_block n h cur ((h cur).next) size := by
  rw [find_free_block, if_pos ⟨hcur, hno⟩]

/-! ## Two allocations on the empty arena -/

/-- A first successful `malloc_custom` on an empty chain puts its block at the
break. -/
theorem malloc_custom_first (fuel : Nat) (k : Kernel) (s0 s1 : State) (a p1 : Nat)
    (hfl : s0.free_list = 0) (h1 : malloc_custom fuel k s0 a = .ret p1 s1) (hp1 : p1 ≠ 0) :
    s0.brk ≠ 0 ∧ p1 = s0.brk + sizeof_block_header ∧
    ∃ b1, sbrk_moves k s0.brk (add64 (align8 a) sizeof_block_header) b1 ∧
      s1 = { s0 with
        brk := b1,
        hdr := request_space_writes s0.hdr 0 s0.brk (align8 a),
        free_list := s0.brk,
        total_allocations := add64 s0.total_allocations 1 } := by
  have ha : a ≠ 0 := by
    rintro rfl
    rw [malloc_custom_zero] at h1
    simp only [Outcome.ret.injEq] at h1
    exact hp1 h1.1.symm
  rcases malloc_custom_cases fuel k s0 a ha with h | h | ⟨_, b, h⟩ | ⟨_, _, b, _, h⟩ |
      ⟨hz, _, last, b, hlast, hmv, h⟩ | ⟨hne, _⟩
  · rw [h] at h1; cases h1
  · rw [h] at h1; simp only [Outcome.ret.injEq] at h1; exact absurd h1.1.symm hp1
  · rw [h] at h1; simp only [Outcome.ret.injEq] at h1; exact absurd h1.1.symm hp1
  · rw [h] at h1; simp only [Outcome.ret.injEq] at h1; exact absurd h1.1.symm hp1
  · rw [h] at h1
    simp only [Outcome.ret.injEq] at h1
    obtain ⟨rfl, rfl⟩ := h1
    have hl : last = 0 := by
      rcases hlast with ⟨_, hl⟩ | ⟨hne, _⟩
      · exact hl
      · exact absurd hfl hne
    subst hl
    refine ⟨hz, rfl, b, hmv, ?_⟩
    rw [if_pos hfl]
  · exact absurd hfl hne

/-- The break after a successful extension for a request below `2^63 - 40`:
it is raised by the rounded size plus the header. -/
theorem sbrk_moves_small (k : Kernel) (brk a b1 : Nat) (ha : 0 < a) (hw : a + 40 < 2 ^ 63)
    (hmv : sbrk_moves k brk (add64 (align8 a) sizeof_block_header) b1) :
    b1 = brk + sizeof_block_header + align8 a ∧ b1 < WORD := by
  have hb := align8_bounds a ha (by unfold WORD; omega)
  unfold sbrk_moves add64 sizeof_block_header WORD at *
  rcases hmv with ⟨h0, _⟩ | ⟨_, _, hlt, _, rfl⟩ | ⟨hneg, _⟩
  · omega
  · omega
  · omega

/-- After two successful allocations on the empty arena, the first of a size
below `2^63 - 40`, the chain consists of two occupied blocks: one at the
initial break and one right after it. -/
theorem two_mallocs (base fuel : Nat) (k1 k2 : Kernel) (s0 s1 s2 : State) (a b p1 p2 : Nat)
    (hinit : initial_state base s0) (hfuel : 2 ≤ fuel) (hwa : a + 40 < 2 ^ 63)
    (h1 : malloc_custom fuel k1 s0 a = .ret p1 s1) (hp1 : p1 ≠ 0)
    (h2 : malloc_custom fuel k2 s1 b = .ret p2 s2) (hp2 : p2 ≠ 0) :
    p1 = base + sizeof_block_header ∧
    p2 = base + sizeof_block_header + align8 a + sizeof_block_header ∧
    TwoBlocks s2 base (base + sizeof_block_header + align8 a) (align8 a) (align8 b) ∧
    s2.total_frees = s0.total_frees := by
  obtain ⟨hfl, hbrk, _, _⟩ := hinit
  have ha : 0 < a := by
    rcases Nat.eq_zero_or_pos a with rfl | h
    · rw [malloc_custom_zero] at h1
      simp only [Outcome.ret.injEq] at h1
      exact absurd h1.1.symm hp1
    · exact h
  have hb : b ≠ 0 := by
    rintro rfl
    rw [malloc_custom_zero] at h2
    simp only [Outcome.ret.injEq] at h2
    exact hp2 h2.1.symm
  obtain ⟨hB0, hp1e, b1, hmv, hs1⟩ := malloc_custom_first fuel k1 s0 s1 a p1 hfl h1 hp1
  rw [hbrk] at hB0 hp1e hmv hs1
  obtain ⟨hb1, _⟩ := sbrk_moves_small k1 base a b1 ha hwa hmv
  have hb1B : b1 ≠ base := by unfold sizeof_block_header at hb1; omega
  have hb10 : b1 ≠ 0 := by unfold sizeof_block_header at hb1; omega
  have hfl1 : s1.free_list = base := by rw [hs1]
  have hbrk1 : s1.brk = b1 := by rw [hs1]
  have hhB : s1.hdr base = ⟨align8 a, 0, 0, CANARY⟩ := by
    rw [hs1]; exact request_space_writes_block _ _ _ _
  have htf1 : s1.total_frees = s0.total_frees := by rw [hs1]
  obtain ⟨n, rfl⟩ : ∃ n, fuel = n + 2 := ⟨fuel - 2, by omega⟩
  have hfind : find_free_block (n + 2) s1.hdr s1.free_list s1.free_list (align8 b)
      = some (0, base) := by
    rw [hfl1, find_free_block_step _ _ _ _ _ hB0 (by rw [hhB]; simp), hhB]
    exact find_free_block_stop _ _ _ _ _ (Or.inl rfl)
  rcases malloc_custom_cases (n + 2) k2 s1 b hb with h | h | ⟨_, b2, h⟩ | ⟨_, _, b2, _, h⟩ |
      ⟨_, _, last, b2, hlast, _, h⟩ | ⟨_, block, last, hblock, hf, _⟩
  · rw [h] at h2; cases h2
  · rw [h] at h2; simp only [Outcome.ret.injEq] at h2; exact absurd h2.1.symm hp2
  · rw [h] at h2; simp only [Outcome.ret.injEq] at h2; exact absurd h2.1.symm hp2
  · rw [h] at h2; simp only [Outcome.ret.injEq] at h2; exact absurd h2.1.symm hp2
  · rw [h] at h2
    simp only [Outcome.ret.injEq] at h2
    obtain ⟨rfl, rfl⟩ := h2
    have hl : last = base := by
      rcases hlast with ⟨h0, _⟩ | ⟨_, hf⟩
      · rw [hfl1] at h0; exact absurd h0 hB0
      · rw [hfind] at hf
        simp only [Option.some.injEq, Prod.mk.injEq, true_and] at hf
        exact hf.symm
    subst hl
    refine ⟨hp1e, by rw [hbrk1, hb1], ⟨?_, hB0, by rw [← hb1]; exact hb10,
      by rw [← hb1]; exact hb1B, ?_, ?_⟩, htf1⟩
    · show (if s1.free_list = 0 then s1.brk else s1.free_list) = last
      rw [hfl1, if_neg hB0]
    · show request_space_writes s1.hdr last s1.brk (align8 b) last = _
      rw [hbrk1, request_space_writes_other _ _ _ _ _ (Ne.symm hb1B), if_pos ⟨rfl, hB0⟩, hhB, hb1]
    · show request_space_writes s1.hdr last s1.brk (align8 b) _ = _
      rw [hbrk1, ← hb1]
      exact request_space_writes_block _ _ _ _
  · rw [hfind] at hf
    simp only [Option.some.injEq, Prod.mk.injEq] at hf
    exact absurd hf.1.symm hblock

/-- Freeing the first of two occupied blocks marks it vacant and merges
nothing. -/
theorem free_first_of_two (fuel : Nat) (s : State) (b0 b1 c0 c1 : Nat)
    (hfuel : 2 ≤ fuel) (ht : TwoBlocks s b0 b1 c0 c1) :
    free_custom fuel s (b0 + sizeof_block_header) = .ret ()
      { s with hdr := setFree s.hdr b0 1, total_frees := add64 s.total_frees 1 } := by
  obtain ⟨hfl, hb0, hb1, hne, hh0, hh1⟩ := ht
  obtain ⟨n, rfl⟩ : ∃ n, fuel = n + 2 := ⟨fuel - 2, by omega⟩
  have hpb : b0 + sizeof_block_header - sizeof_block_header = b0 := Nat.add_sub_cancel _ _
  have hrun : coalesce_loop (n + 2) (setFree s.hdr b0 1) s.free_list
      = some (setFree s.hdr b0 1) := by
    have e0 : setFree s.hdr b0 1 b0 = ⟨c0, 1, b1, CANARY⟩ := by rw [setFree_same, hh0]
    have e1 : setFree s.hdr b0 1 b1 = ⟨c1, 0, 0, CANARY⟩ := by
      rw [setFree_other _ _ _ _ hne, hh1]
    rw [hfl, coalesce_loop_advance _ _ _ hb0 (by rw [e0]; exact hb1)
      (by rw [e0, e1]; simp), e0]
    exact coalesce_loop_stop _ _ _ (Or.inr (by rw [e1]))
  rcases free_custom_cases (n + 2) s (b0 + sizeof_block_header) with ⟨h, _⟩ | ⟨_, h, _⟩ |
      ⟨_, _, h, _⟩ | ⟨_, _, _, h, _⟩ | ⟨_, _, _, h2, hrun2, hfree⟩
  · exact absurd h (by unfold sizeof_block_header; omega)
  · rw [hpb, hh0] at h; exact absurd rfl h
  · rw [hpb, hh0] at h; exact absurd rfl h
  · rw [hpb, hrun] at h; cases h
  · rw [hpb, hrun] at hrun2
    simp only [Option.some.injEq] at hrun2
    rw [hfree, ← hrun2]

/-- C12, first-fit reuse: from the empty arena, with `a + 40 < 2^63` (no size
computation wraps for the first request) and both arena extensions granted
(`p1`, `p2` non-null), after `p1 = malloc_custom(a)`, `p2 = malloc_custom(b)` the
call `free_custom(p1)` returns, and then `malloc_custom(c)` for every `c > 0`
with `align8(c) ≤ align8(a)` returns `p1` again, whatever the kernel would
answer and with the break where it was: no arena extension is requested. -/
theorem first_fit_reuse (base fuel : Nat) (k1 k2 : Kernel) (s0 s1 s2 : State)
    (a b c p1 p2 : Nat) (hinit : initial_state base s0) (hfuel : 2 ≤ fuel)
    (hwa : a + 40 < 2 ^ 63) (hc : 0 < c) (hac : align8 c ≤ align8 a)
    (h1 : malloc_custom fuel k1 s0 a = .ret p1 s1) (hp1 : p1 ≠ 0)
    (h2 : malloc_custom fuel k2 s1 b = .ret p2 s2) (hp2 : p2 ≠ 0) :
    ∃ s3, free_custom fuel s2 p1 = .ret () s3 ∧
      ∀ k3 : Kernel, ∃ s4, malloc_custom fuel k3 s3 c = .ret p1 s4 ∧ s4.brk = s3.brk := by
  obtain ⟨hp1e, _, ht, _⟩ := two_mallocs base fuel k1 k2 s0 s1 s2 a b p1 p2 hinit hfuel hwa
    h1 hp1 h2 hp2
  have hfree := free_first_of_two fuel s2 _ _ _ _ hfuel ht
  obtain ⟨hfl, hb0, hb1, hne, hh0, hh1⟩ := ht
  rw [hp1e]
  refine ⟨_, hfree, ?_⟩
  intro k3
  obtain ⟨n, rfl⟩ : ∃ n, fuel = n + 1 := ⟨fuel - 1, by omega⟩
  refine ⟨_, malloc_custom_reuse (n + 1) k3 _ c base base (Nat.pos_iff_ne_zero.mp hc)
    (by show s2.free_list ≠ 0; rw [hfl]; exact hb0) hb0 ?_, rfl⟩
  show find_free_block (n + 1) (setFree s2.hdr base 1) s2.free_list s2.free_list (align8 c)
    = some (base, base)
  rw [hfl]
  exact find_free_block_stop _ _ _ _ _ (Or.inr (by rw [setFree_same, hh0]; exact ⟨by simp, hac⟩))

theorem first_fit_reuse_witness :
    ∃ s3, free_custom 2
        (malloc_custom 2 sample_kernel
          (malloc_custom 2 sample_kernel (empty_arena 4096) 100).stateD 200).stateD 4128
        = .ret () s3 ∧
      ∀ k3 : Kernel, ∃ s4, malloc_custom 2 k3 s3 50 = .ret 4128 s4 ∧ s4.brk = s3.brk :=
  first_fit_reuse 4096 2 sample_kernel sample_kernel (empty_arena 4096)
    (malloc_custom 2 sample_kernel (empty_arena 4096) 100).stateD
    (malloc_custom 2 sample_kernel
      (malloc_custom 2 sample_kernel (empty_arena 4096) 100).stateD 200).stateD
    100 200 50 4128 4264 ⟨rfl, rfl, rfl, rfl⟩ (by decide) (by decide) (by decide) (by decide)
    (eq_ret_of_value _ _ (by decide)) (by decide)
    (eq_ret_of_value _ _ (by decide)) (by decide)

/-- C13, coalescing scenario: from the empty arena, with `a + 40 < 2^63` and
`b + 40 < 2^63` (nothing wraps) and both arena extensions granted, after
`p1 = malloc_custom(a)`, `p2 = malloc_custom(b)` the calls `free_custom(p1)` and
`free_custom(p2)` return and leave a chain of exactly one block: its header is
the one before `p1`, it is vacant, its link is null and its capacity is
`align8(a) + sizeof(block_header) + align8(b)`. -/
theorem free_both_coalesces (base fuel : Nat) (k1 k2 : Kernel) (s0 s1 s2 : State)
    (a b p1 p2 : Nat) (hinit : initial_state base s0) (hfuel : 2 ≤ fuel)
    (hwa : a + 40 < 2 ^ 63) (hwb : b + 40 < 2 ^ 63)
    (h1 : malloc_custom fuel k1 s0 a = .ret p1 s1) (hp1 : p1 ≠ 0)
    (h2 : malloc_custom fuel k2 s1 b = .ret p2 s2) (hp2 : p2 ≠ 0) :
    ∃ s3 s4, free_custom fuel s2 p1 = .ret () s3 ∧ free_custom fuel s3 p2 = .ret () s4 ∧
      s4.free_list = p1 - sizeof_block_header ∧
      IsChain s4.hdr s4.free_list [p1 - sizeof_block_header] ∧
      s4.hdr (p1 - sizeof_block_header)
        = ⟨align8 a + sizeof_block_header + align8 b, 1, 0, CANARY⟩ := by
  obtain ⟨hp1e, hp2e, ht, _⟩ := two_mallocs base fuel k1 k2 s0 s1 s2 a b p1 p2 hinit hfuel hwa
    h1 hp1 h2 hp2
  have hfree := free_first_of_two fuel s2 _ _ _ _ hfuel ht
  obtain ⟨hfl, hb0, hb1, hne, hh0, hh1⟩ := ht
  have hb : 0 < b := by
    rcases Nat.eq_zero_or_pos b with rfl | h
    · rw [malloc_custom_zero] at h2
      simp only [Outcome.ret.injEq] at h2
      exact absurd h2.1.symm hp2
    · exact h
  have ha : 0 < a := by
    rcases Nat.eq_zero_or_pos a with rfl | h
    · rw [malloc_custom_zero] at h1
      simp only [Outcome.ret.injEq] at h1
      exact absurd h1.1.symm hp1
    · exact h
  have hA := align8_bounds a ha (by unfold WORD; omega)
  have hB := align8_bounds b hb (by unfold WORD; omega)
  obtain ⟨n, rfl⟩ : ∃ n, fuel = n + 2 := ⟨fuel - 2, by omega⟩
  have hpb1 : p1 - sizeof_block_header = base := by rw [hp1e]; exact Nat.add_sub_cancel _ _
  have hpb2 : p2 - sizeof_block_header = base + sizeof_block_header + align8 a := by
    rw [hp2e]; exact Nat.add_sub_cancel _ _
  rw [hpb1]
  rw [hp1e] at *
  -- the header memory before the second free
  have e0 : setFree (setFree s2.hdr base 1) (base + sizeof_block_header + align8 a) 1 base
      = ⟨align8 a, 1, base + sizeof_block_header + align8 a, CANARY⟩ := by
    rw [setFree_other _ _ _ _ (Ne.symm hne), setFree_same, hh0]
  have e1 : setFree (setFree s2.hdr base 1) (base + sizeof_block_header + align8 a) 1
      (base + sizeof_block_header + align8 a) = ⟨align8 b, 1, 0, CANARY⟩ := by
    rw [setFree_same, setFree_other _ _ _ _ hne, hh1]
  have em : coalesce_merge
      (setFree (setFree s2.hdr base 1) (base + sizeof_block_header + align8 a) 1) base base
      = ⟨align8 a + sizeof_block_header + align8 b, 1, 0, CANARY⟩ := by
    rw [coalesce_merge_eq, if_pos rfl, e0]
    simp only [e1]
    have : add64 (align8 a) (add64 sizeof_block_header (align8 b))
        = align8 a + sizeof_block_header + align8 b := by
      unfold add64 sizeof_block_header WORD
      omega
    rw [this]
  have hrun : coalesce_loop (n + 2)
      (setFree (setFree s2.hdr base 1) (base + sizeof_block_header + align8 a) 1) base
      = some (coalesce_merge
        (setFree (setFree s2.hdr base 1) (base + sizeof_block_header + align8 a) 1) base) := by
    rw [coalesce_loop_merge _ _ _ hb0 (by rw [e0]; exact hb1) (by rw [e0, e1]; simp)]
    exact coalesce_loop_stop _ _ _ (Or.inr (by rw [em]))
  rcases free_custom_cases (n + 2)
      { s2 with hdr := setFree s2.hdr base 1, total_frees := add64 s2.total_frees 1 } p2 with
    ⟨h, _⟩ | ⟨_, h, _⟩ | ⟨_, _, h, _⟩ | ⟨_, _, _, h, _⟩ | ⟨_, _, _, h2, hrun2, hfree2⟩
  · exact absurd h hp2
  · simp only [hpb2] at h
    rw [setFree_other _ _ _ _ hne, hh1] at h
    exact absurd rfl h
  · simp only [hpb2] at h
    rw [setFree_other _ _ _ _ hne, hh1] at h
    exact absurd rfl h
  · simp only [hpb2, hfl] at h
    rw [hrun] at h
    cases h
  · simp only [hpb2, hfl] at hrun2
    rw [hrun] at hrun2
    simp only [Option.some.injEq] at hrun2
    subst hrun2
    refine ⟨_, _, hfree, hfree2, hfl, ?_, em⟩
    show IsChain _ s2.free_list [base]
    rw [hfl]
    exact ⟨rfl, hb0, by show (coalesce_merge _ base base).next = 0; rw [em]⟩

theorem free_both_coalesces_witness :
    ∃ s3 s4,
      free_custom 2
        (malloc_custom 2 sample_kernel
          (malloc_custom 2 sample_kernel (empty_arena 4096) 100).stateD 200).stateD 4128
        = .ret () s3 ∧
      free_custom 2 s3 4264 = .ret () s4 ∧
      s4.free_list = 4128 - sizeof_block_header ∧
      IsChain s4.hdr s4.free_list [4128 - sizeof_block_header] ∧
      s4.hdr (4128 - sizeof_block_header)
        = ⟨align8 100 + sizeof_block_header + align8 200, 1, 0, CANARY⟩ :=
  free_both_coalesces 4096 2 sample_kernel sample_kernel (empty_arena 4096)
    (malloc_custom 2 sample_kernel (empty_arena 4096) 100).stateD
    (malloc_custom 2 sample_kernel
      (malloc_custom 2 sample_kernel (empty_arena 4096) 100).stateD 200).stateD
    100 200 4128 4264 ⟨rfl, rfl, rfl, rfl⟩ (by decide) (by decide) (by decide)
    (eq_ret_of_value _ _ (by decide)) (by decide)
    (eq_ret_of_value _ _ (by decide)) (by decide)

theorem coalesced_capacity_example : align8 100 + sizeof_block_header + align8 200 = 336 := by
  decide

/-! ## `coalesce_free_blocks` merges the maximal runs of vacant blocks -/

theorem vacant_runs_cons (b : Blk) (rest : List Blk) :
    ∃ g gs, vacant_runs (b :: rest) = (b :: g) :: gs ∧
      (∀ b2 : Blk, b2.vacant = b.vacant → vacant_runs (b2 :: rest) = (b2 :: g) :: gs) ∧
      (b.vacant = false → g = []) := by
  cases hr : vacant_runs rest with
  | nil =>
    refine ⟨[], [], by simp [vacant_runs, hr], fun b2 _ => by simp [vacant_runs, hr],
      fun _ => rfl⟩
  | cons g0 gs =>
    cases g0 with
    | nil =>
      refine ⟨[], gs, by simp [vacant_runs, hr], fun b2 _ => by simp [vacant_runs, hr],
        fun _ => rfl⟩
    | cons c g =>
      by_cases hv : b.vacant = true ∧ c.vacant = true
      · refine ⟨c :: g, gs, by simp [vacant_runs, hr, hv], ?_, ?_⟩
        · intro b2 hb2
          have hv2 : b2.vacant = true ∧ c.vacant = true := ⟨hb2.trans hv.1, hv.2⟩
          simp [vacant_runs, hr, hv2]
        · intro hf
          rw [hv.1] at hf
          cases hf
      · refine ⟨[], (c :: g) :: gs, by simp [vacant_runs, hr, hv], ?_, fun _ => rfl⟩
        intro b2 hb2
        have hv2 : ¬ (b2.vacant = true ∧ c.vacant = true) := by
          rw [hb2]; exact hv
        simp [vacant_runs, hr, hv2]

/-- Two vacant blocks at the head of a list are in the same run. -/
theorem vacant_runs_cons_cons_vacant (b c : Blk) (rest g : List Blk) (gs : List (List Blk))
    (hb : b.vacant = true) (hc : c.vacant = true)
    (hr : vacant_runs (c :: rest) = (c :: g) :: gs) :
    vacant_runs (b :: c :: rest) = (b :: c :: g) :: gs := by
  show (match vacant_runs (c :: rest) with
    | [] => [[b]]
    | [] :: gs => [b] :: gs
    | (c :: g) :: gs =>
      if b.vacant = true ∧ c.vacant = true then (b :: c :: g) :: gs
      else [b] :: (c :: g) :: gs) = _
  rw [hr]
  simp [hb, hc]

/-- A block that is not vacant together with its successor starts a run of
its own. -/
theorem vacant_runs_cons_cons_other (b c : Blk) (rest g : List Blk) (gs : List (List Blk))
    (hno : ¬ (b.vacant = true ∧ c.vacant = true))
    (hr : vacant_runs (c :: rest) = (c :: g) :: gs) :
    vacant_runs (b :: c :: rest) = [b] :: (c :: g) :: gs := by
  show (match vacant_runs (c :: rest) with
    | [] => [[b]]
    | [] :: gs => [b] :: gs
    | (c :: g) :: gs =>
      if b.vacant = true ∧ c.vacant = true then (b :: c :: g) :: gs
      else [b] :: (c :: g) :: gs) = _
  rw [hr]
  simp [hno]

theorem coalesce_from_eq_merge (b : Blk) (rest : List Blk)
    (hb : b.size < WORD) (hrest : ∀ c ∈ rest, c.size < WORD) :
    coalesce_from b rest = (merge_vacant_runs (b :: rest)).map size_t_block := by
  induction rest generalizing b with
  | nil =>
    simp [coalesce_from, merge_vacant_runs, vacant_runs, collapse_run, size_t_block,
      Nat.mod_eq_of_lt hb]
  | cons c rest ih =>
    have hc : c.size < WORD := hrest c (List.mem_cons_self _ _)
    have hrest2 : ∀ d ∈ rest, d.size < WORD := fun d hd => hrest d (List.mem_cons_of_mem _ hd)
    obtain ⟨g, gs, hr, hsame, _⟩ := vacant_runs_cons c rest
    by_cases hv : b.vacant = true ∧ c.vacant = true
    · rw [coalesce_from, if_pos hv,
        ih ⟨b.addr, add64 b.size (add64 sizeof_block_header c.size), b.vacant⟩
          (add64_lt_WORD _ _) hrest2]
      unfold merge_vacant_runs
      rw [vacant_runs_cons_cons_vacant b c rest g gs hv.1 hv.2 hr,
        hsame ⟨b.addr, add64 b.size (add64 sizeof_block_header c.size), b.vacant⟩
          (hv.1.trans hv.2.symm)]
      simp only [List.filterMap_cons, collapse_run, List.map_cons, List.sum_cons,
        List.length_cons]
      congr 1
      unfold size_t_block
      congr 1
      dsimp only
      unfold add64 sizeof_block_header WORD
      omega
    · rw [coalesce_from, if_neg hv, ih c hc hrest2]
      unfold merge_vacant_runs
      rw [vacant_runs_cons_cons_other b c rest g gs hv hr, hr]
      simp [List.filterMap_cons, collapse_run, size_t_block, Nat.mod_eq_of_lt hb]

theorem coalesce_from_head (b : Blk) (rest : List Blk) :
    ∃ b2 tl, coalesce_from b rest = b2 :: tl ∧ b2.addr = b.addr ∧ b2.vacant = b.vacant := by
  induction rest generalizing b with
  | nil => exact ⟨b, [], rfl, rfl, rfl⟩
  | cons c rest ih =>
    by_cases hv : b.vacant = true ∧ c.vacant = true
    · rw [coalesce_from, if_pos hv]
      exact ih _
    · rw [coalesce_from, if_neg hv]
      exact ⟨b, _, rfl, rfl, rfl⟩

theorem coalesce_from_noAdjacentVacant (b : Blk) (rest : List Blk) :
    NoAdjacentVacant (coalesce_from b rest) := by
  induction rest generalizing b with
  | nil => exact List.chain'_singleton _
  | cons c rest ih =>
    by_cases hv : b.vacant = true ∧ c.vacant = true
    · rw [coalesce_from, if_pos hv]
      exact ih _
    · rw [coalesce_from, if_neg hv]
      obtain ⟨b2, tl, he, _, hvac⟩ := coalesce_from_head c rest
      have := ih c
      rw [he] at this ⊢
      exact List.Chain'.cons (by rw [hvac]; exact hv) this

/-- The loop of `coalesce_free_blocks` keeps every occupied block as it is. -/
theorem coalesce_from_keeps_occupied (b : Blk) (rest : List Blk) :
    ∀ c ∈ b :: rest, c.vacant = false → c ∈ coalesce_from b rest := by
  induction rest generalizing b with
  | nil =>
    intro c hc _
    exact hc
  | cons d rest ih =>
    intro c hc hocc
    by_cases hv : b.vacant = true ∧ d.vacant = true
    · rw [coalesce_from, if_pos hv]
      apply ih _ c _ hocc
      rcases List.mem_cons.mp hc with rfl | hc2
      · rw [hv.1] at hocc
        cases hocc
      · rcases List.mem_cons.mp hc2 with rfl | hc3
        · rw [hv.2] at hocc
          cases hocc
        · exact List.mem_cons_of_mem _ hc3
    · rw [coalesce_from, if_neg hv]
      rcases List.mem_cons.mp hc with rfl | hc2
      · exact List.mem_cons_self _ _
      · exact List.mem_cons_of_mem _ (ih d c hc2 hocc)

theorem blocks_congr (h g : Headers) (l : List Nat)
    (hg : ∀ x ∈ l, g x = h x) : blocks g l = blocks h l := by
  unfold blocks
  apply List.map_congr_left
  intro x hx
  unfold block_at
  rw [hg x hx]

theorem block_at_vacant (h : Headers) (a : Nat) :
    (block_at h a).vacant = true ↔ (h a).free ≠ 0 := by
  simp [block_at]

/-- The loop of `coalesce_free_blocks` on a finite chain that starts at the
block `a`: it ends, the chain still starts at `a`, its blocks are those
computed by `coalesce_from`, headers outside the chain are untouched and no
flag or tag changes. -/
theorem coalesce_loop_refines (n : Nat) (h : Headers) (a : Nat) (l : List Nat)
    (hc : IsChain h a (a :: l)) (hn : l.length ≤ n) :
    ∃ h1 l1, coalesce_loop (n + 1) h a = some h1 ∧ IsChain h1 a (a :: l1) ∧
      blocks h1 (a :: l1) = coalesce_from (block_at h a) (blocks h l) ∧
      (∀ x, x ∉ a :: l → h1 x = h x) ∧ l1.Sublist l ∧
      (∀ x, (h1 x).free = (h x).free ∧ (h1 x).canary = (h x).canary) := by
  induction n generalizing h a l with
  | zero =>
    have : l = [] := List.length_eq_zero.mp (Nat.le_zero.mp hn)
    subst this
    obtain ⟨_, ha0, hnx⟩ := hc
    have hnx0 : (h a).next = 0 := hnx
    refine ⟨h, [], by simp [coalesce_loop, hnx0], ⟨rfl, ha0, hnx⟩, rfl, fun _ _ => rfl,
      List.Sublist.refl _, fun _ => ⟨rfl, rfl⟩⟩
  | succ n ih =>
    cases l with
    | nil =>
      obtain ⟨_, ha0, hnx⟩ := hc
      have hnx0 : (h a).next = 0 := hnx
      refine ⟨h, [], by rw [coalesce_loop]; simp [hnx0], ⟨rfl, ha0, hnx⟩, rfl,
        fun _ _ => rfl, List.Sublist.refl _, fun _ => ⟨rfl, rfl⟩⟩
    | cons c l2 =>
      have hnd := isChain_nodup h a _ hc
      obtain ⟨_, ha0, hc1⟩ := hc
      have hc1' : IsChain h (h a).next (c :: l2) := hc1
      obtain ⟨hnc, hc0, hc2⟩ := hc1
      have hnext : (h a).next ≠ 0 := by rw [hnc]; exact hc0
      have hac : a ∉ c :: l2 := (List.nodup_cons.mp hnd).1
      have hlen : l2.length ≤ n := by simp at hn; omega
      by_cases hv : (h a).free ≠ 0 ∧ (h (h a).next).free ≠ 0
      · -- merge: the chain from `a` loses the block `c`
        have hother : ∀ x, x ≠ a → coalesce_merge h a x = h x := by
          intro x hx
          rw [coalesce_merge_eq, if_neg hx]
        have hself : coalesce_merge h a a =
            { h a with
              size := add64 (h a).size (add64 sizeof_block_header (h c).size),
              next := (h c).next } := by
          rw [coalesce_merge_eq, if_pos rfl, hnc]
        have hchain : IsChain (coalesce_merge h a) a (a :: l2) := by
          refine ⟨rfl, ha0, ?_⟩
          have hnx : (coalesce_merge h a a).next = (h c).next := by rw [hself]
          rw [hnx]
          refine isChain_congr h _ _ l2 ?_ hc2
          intro x hx
          have hxa : x ≠ a := by
            rintro rfl
            exact hac (List.mem_cons_of_mem _ hx)
          rw [hother x hxa]
        obtain ⟨h1, l1, hrun, hch1, hbl, hframe, hsub, hfld⟩ := ih _ _ _ hchain hlen
        refine ⟨h1, l1, ?_, hch1, ?_, ?_, hsub.trans (List.sublist_cons_self _ _), ?_⟩
        · rw [coalesce_loop, if_pos ⟨ha0, hnext⟩, if_pos hv]
          exact hrun
        · rw [hbl]
          have hvac : (block_at h a).vacant = true ∧ (block_at h c).vacant = true := by
            rw [block_at_vacant, block_at_vacant, ← hnc]
            exact hv
          have hbl2 : blocks (coalesce_merge h a) l2 = blocks h l2 := by
            apply blocks_congr
            intro x hx
            apply hother
            rintro rfl
            exact hac (List.mem_cons_of_mem _ hx)
          have hba : block_at (coalesce_merge h a) a =
              ⟨(block_at h a).addr,
                add64 (block_at h a).size (add64 sizeof_block_header (block_at h c).size),
                (block_at h a).vacant⟩ := by
            unfold block_at
            rw [hself]
          rw [hbl2, hba]
          show _ = coalesce_from (block_at h a) (block_at h c :: blocks h l2)
          rw [coalesce_from, if_pos hvac]
        · intro x hx
          have hxa : x ≠ a := fun e => hx (e ▸ List.mem_cons_self _ _)
          have hx2 : x ∉ a :: l2 := by
            intro hm
            rcases List.mem_cons.mp hm with e | hm2
            · exact hxa e
            · exact hx (List.mem_cons_of_mem _ (List.mem_cons_of_mem _ hm2))
          rw [hframe x hx2, hother x hxa]
        · intro x
          rw [(hfld x).1, (hfld x).2]
          by_cases hxa : x = a
          · subst hxa
            rw [hself]
            exact ⟨rfl, rfl⟩
          · rw [hother x hxa]
            exact ⟨rfl, rfl⟩
      · -- advance to the block `c`
        have hcc : IsChain h c (c :: l2) := ⟨rfl, hc0, hc2⟩
        obtain ⟨h1, l1, hrun, hch1, hbl, hframe, hsub, hfld⟩ := ih _ _ _ hcc hlen
        have ha1 : h1 a = h a := hframe a hac
        refine ⟨h1, c :: l1, ?_, ?_, ?_, ?_, hsub.cons₂ _, hfld⟩
        · rw [coalesce_loop, if_pos ⟨ha0, hnext⟩, if_neg hv, hnc]
          exact hrun
        · refine ⟨rfl, ha0, ?_⟩
          rw [ha1, hnc]
          exact hch1
        · have hvac : ¬ ((block_at h a).vacant = true ∧ (block_at h c).vacant = true) := by
            rw [block_at_vacant, block_at_vacant, ← hnc]
            exact hv
          show block_at h1 a :: blocks h1 (c :: l1) =
            coalesce_from (block_at h a) (block_at h c :: blocks h l2)
          rw [coalesce_from, if_neg hvac, hbl]
          unfold block_at
          rw [ha1]
        · intro x hx
          apply hframe
          intro hm
          exact hx (List.mem_cons_of_mem _ hm)

theorem map_size_t_block_eq (l : List Blk) (hl : ∀ b ∈ l, b.size < WORD) :
    l.map size_t_block = l := by
  induction l with
  | nil => rfl
  | cons b l ih =>
    rw [List.map_cons, ih (fun c hc => hl c (List.mem_cons_of_mem _ hc))]
    congr 1
    unfold size_t_block
    rw [Nat.mod_eq_of_lt (hl b (List.mem_cons_self _ _))]

theorem two_vacant_blocks_chain :
    IsChain two_vacant_blocks.hdr two_vacant_blocks.free_list [4096, 4232] :=
  ⟨by decide, by decide, by decide, by decide,
    (show (two_vacant_blocks.hdr 4232).next = 0 by decide)⟩

/-- C14: `coalesce_free_blocks` against the reference `merge_vacant_runs`
("merge every maximal run of vacant blocks").  For every state whose chain is
finite (the blocks `l`, ending in `NULL`; capacities are `size_t` values) the
loop terminates with any fuel above the number of blocks and changes nothing
but headers; the resulting chain `l1` consists of exactly the blocks of the
reference: every maximal run of chain-consecutive vacant blocks with
capacities `c1 … ck` is replaced by one vacant block at the address of the
first block of the run, with capacity `c1 + … + ck + (k-1) * sizeof(block_header)`
stored in a `size_t`, occupied blocks keep address, capacity and order.
Whenever these sums are below `2^64` the result is literally the reference's.
Consequently no two chain-adjacent blocks are both vacant after the pass. -/
theorem coalesce_free_blocks_merges_runs (s : State) (l : List Nat) (fuel : Nat)
    (hc : IsChain s.hdr s.free_list l) (hsz : ∀ b ∈ l, (s.hdr b).size < WORD)
    (hfuel : l.length < fuel) :
    ∃ s1 l1, coalesce_free_blocks fuel s = some s1 ∧
      s1 = { s with hdr := s1.hdr } ∧
      IsChain s1.hdr s1.free_list l1 ∧
      blocks s1.hdr l1 = (merge_vacant_runs (blocks s.hdr l)).map size_t_block ∧
      ((∀ b ∈ merge_vacant_runs (blocks s.hdr l), b.size < WORD) →
        blocks s1.hdr l1 = merge_vacant_runs (blocks s.hdr l)) ∧
      NoAdjacentVacant (blocks s1.hdr l1) := by
  obtain ⟨n, rfl⟩ : ∃ n, fuel = n + 1 := ⟨fuel - 1, by omega⟩
  cases l with
  | nil =>
    have h0 : s.free_list = 0 := hc
    have hrun : coalesce_loop (n + 1) s.hdr s.free_list = some s.hdr := by
      rw [coalesce_loop, h0]
      simp
    refine ⟨s, [], ?_, rfl, hc, rfl, fun _ => rfl, List.chain'_nil⟩
    unfold coalesce_free_blocks
    rw [hrun]
  | cons b l2 =>
    have hb : s.free_list = b := hc.1
    rw [← hb] at hc hsz
    have hlen : l2.length ≤ n := by simp at hfuel; omega
    obtain ⟨h1, l1, hrun, hch, hbl, _, _, _⟩ := coalesce_loop_refines n s.hdr s.free_list l2 hc hlen
    have hmerge : blocks h1 (s.free_list :: l1) =
        (merge_vacant_runs (blocks s.hdr (s.free_list :: l2))).map size_t_block := by
      rw [hbl]
      exact coalesce_from_eq_merge _ _ (hsz _ (List.mem_cons_self _ _))
        (by
          intro c hcm
          obtain ⟨x, hx, rfl⟩ := List.mem_map.mp hcm
          exact hsz x (List.mem_cons_of_mem _ hx))
    rw [← hb]
    refine ⟨{ s with hdr := h1 }, s.free_list :: l1, ?_, rfl, hch, hmerge, ?_, ?_⟩
    · unfold coalesce_free_blocks
      rw [hrun]
    · intro hlt
      show blocks h1 (s.free_list :: l1) = _
      rw [hmerge, map_size_t_block_eq _ hlt]
    · show NoAdjacentVacant (blocks h1 (s.free_list :: l1))
      rw [hbl]
      exact coalesce_from_noAdjacentVacant _ _

theorem coalesce_free_blocks_merges_runs_witness :
    ∃ s1 l1, coalesce_free_blocks 3 two_vacant_blocks = some s1 ∧
      s1 = { two_vacant_blocks with hdr := s1.hdr } ∧
      IsChain s1.hdr s1.free_list l1 ∧
      blocks s1.hdr l1 =
        (merge_vacant_runs (blocks two_vacant_blocks.hdr [4096, 4232])).map size_t_block ∧
      ((∀ b ∈ merge_vacant_runs (blocks two_vacant_blocks.hdr [4096, 4232]), b.size < WORD) →
        blocks s1.hdr l1 = merge_vacant_runs (blocks two_vacant_blocks.hdr [4096, 4232])) ∧
      NoAdjacentVacant (blocks s1.hdr l1) :=
  coalesce_free_blocks_merges_runs two_vacant_blocks [4096, 4232] 3
    two_vacant_blocks_chain (by decide) (by decide)

/-- The reference on a run of three vacant blocks between occupied ones, and
the pass evaluated on the chain 4096, 4232 of two vacant blocks. -/
theorem merge_vacant_runs_example :
    merge_vacant_runs
        [⟨4096, 8, false⟩, ⟨4136, 16, true⟩, ⟨4184, 24, true⟩, ⟨4240, 8, true⟩,
          ⟨4280, 8, false⟩, ⟨4320, 8, true⟩] =
      [⟨4096, 8, false⟩, ⟨4136, 112, true⟩, ⟨4280, 8, false⟩, ⟨4320, 8, true⟩] ∧
    blocks two_vacant_blocks.hdr [4096, 4232] = [⟨4096, 104, true⟩, ⟨4232, 200, true⟩] ∧
    merge_vacant_runs (blocks two_vacant_blocks.hdr [4096, 4232]) = [⟨4096, 336, true⟩] ∧
    ((coalesce_free_blocks 3 two_vacant_blocks).map (fun s1 => blocks s1.hdr [4096])) =
      some [⟨4096, 336, true⟩] ∧
    ((coalesce_free_blocks 3 two_vacant_blocks).map (fun s1 => (s1.hdr 4096).next)) =
      some 0 := by
  refine ⟨by decide, by decide, by decide, by decide, by decide⟩

/-! ## No two neighbours are both vacant -/

theorem blocks_congr_fields (h g : Headers) (l : List Nat)
    (hg : ∀ x ∈ l, (g x).size = (h x).size ∧ (g x).free = (h x).free) :
    blocks g l = blocks h l := by
  unfold blocks
  apply List.map_congr_left
  intro x hx
  unfold block_at
  rw [(hg x hx).1, (hg x hx).2]

theorem blocks_append (h : Headers) (l1 l2 : List Nat) :
    blocks h (l1 ++ l2) = blocks h l1 ++ blocks h l2 :=
  List.map_append _ _ _

theorem noAdjacentVacant_append_occupied (B : List Blk) (o : Blk) (ho : o.vacant = false)
    (h : NoAdjacentVacant B) : NoAdjacentVacant (B ++ [o]) := by
  refine List.Chain'.append h (List.chain'_singleton o) ?_
  intro x _ y hy
  simp only [List.head?_cons, Option.mem_def, Option.some.injEq] at hy
  subst hy
  intro hxy
  rw [ho] at hxy
  cases hxy.2

/-- Marking a block occupied creates no pair of vacant neighbours. -/
theorem noAdjacentVacant_occupy (B1 B2 : List Blk) (v o : Blk) (ho : o.vacant = false)
    (h : NoAdjacentVacant (B1 ++ v :: B2)) : NoAdjacentVacant (B1 ++ o :: B2) := by
  unfold NoAdjacentVacant at h ⊢
  rw [List.chain'_split] at h ⊢
  obtain ⟨h1, h2⟩ := h
  refine ⟨noAdjacentVacant_append_occupied B1 o ho h1.left_of_append, ?_⟩
  cases B2 with
  | nil => exact List.chain'_singleton o
  | cons d B2 =>
    rw [List.chain'_cons] at h2 ⊢
    refine ⟨?_, h2.2⟩
    intro hxy
    rw [ho] at hxy
    cases hxy.1

/-- Splitting a vacant block into an occupied block and a vacant remainder
creates no pair of vacant neighbours: the block after the remainder was the
neighbour of the vacant block. -/
theorem noAdjacentVacant_split (B1 B2 : List Blk) (v o n : Blk) (hv : v.vacant = true)
    (ho : o.vacant = false) (h : NoAdjacentVacant (B1 ++ v :: B2)) :
    NoAdjacentVacant (B1 ++ o :: n :: B2) := by
  unfold NoAdjacentVacant at h ⊢
  rw [List.chain'_split] at h ⊢
  obtain ⟨h1, h2⟩ := h
  refine ⟨noAdjacentVacant_append_occupied B1 o ho h1.left_of_append, ?_⟩
  rw [List.chain'_cons]
  refine ⟨?_, ?_⟩
  · intro hxy
    rw [ho] at hxy
    cases hxy.1
  · cases B2 with
    | nil => exact List.chain'_singleton n
    | cons d B2 =>
      rw [List.chain'_cons] at h2 ⊢
      refine ⟨?_, h2.2⟩
      intro hxy
      exact h2.1 ⟨hv, hxy.2⟩

theorem noAdjacentVacant_all_vacant (B : List Blk) (h : NoAdjacentVacant B)
    (hall : ∀ b ∈ B, b.vacant = true) : B.length ≤ 1 := by
  cases B with
  | nil => exact Nat.zero_le _
  | cons b B =>
    cases B with
    | nil => exact Nat.le_refl _
    | cons c B =>
      exfalso
      exact (List.chain'_cons.mp h).1
        ⟨hall b (List.mem_cons_self _ _),
          hall c (List.mem_cons_of_mem _ (List.mem_cons_self _ _))⟩

/-! ## Tiling of the arena -/

theorem tiles_congr (h g : Headers) (l : List Nat) (e : Nat)
    (hg : ∀ x ∈ l, (g x).size = (h x).size) (ht : Tiles h l e) : Tiles g l e := by
  induction l with
  | nil => trivial
  | cons b l ih =>
    obtain ⟨hb, hl⟩ := ht
    refine ⟨?_, ih (fun x hx => hg x (List.mem_cons_of_mem _ hx)) hl⟩
    rw [hg b (List.mem_cons_self _ _)]
    exact hb

theorem blocks_map_addr (h : Headers) (l : List Nat) : (blocks h l).map Blk.addr = l := by
  induction l with
  | nil => rfl
  | cons b l ih =>
    show b :: (blocks h l).map Blk.addr = b :: l
    rw [ih]

theorem tiles_iff_tilesB (h : Headers) (l : List Nat) (e : Nat) :
    Tiles h l e ↔ TilesB (blocks h l) e := by
  induction l with
  | nil => exact Iff.rfl
  | cons b l ih =>
    show (b + sizeof_block_header + (h b).size = l.headD e ∧ Tiles h l e) ↔
      (b + sizeof_block_header + (h b).size = ((blocks h l).map Blk.addr).headD e ∧
        TilesB (blocks h l) e)
    rw [blocks_map_addr, ih]

theorem tilesB_le (b : Blk) (l : List Blk) (e : Nat) (ht : TilesB (b :: l) e) :
    b.addr + sizeof_block_header + b.size ≤ e := by
  induction l generalizing b with
  | nil =>
    obtain ⟨hb, _⟩ := ht
    exact Nat.le_of_eq hb
  | cons c l ih =>
    obtain ⟨hb, hl⟩ := ht
    have hc := ih c hl
    have hb2 : b.addr + sizeof_block_header + b.size = c.addr := hb
    omega

/-- The loop of `coalesce_free_blocks` keeps the tiling: the merged block
ends where the absorbed one did (no sum leaves the 64-bit range, since every
block ends at or below the break). -/
theorem tilesB_coalesce_from (b : Blk) (rest : List Blk) (e : Nat)
    (ht : TilesB (b :: rest) e) (he : e < WORD) : TilesB (coalesce_from b rest) e := by
  induction rest generalizing b with
  | nil => exact ht
  | cons c rest ih =>
    obtain ⟨hb, hl⟩ := ht
    have hb2 : b.addr + sizeof_block_header + b.size = c.addr := hb
    by_cases hv : b.vacant = true ∧ c.vacant = true
    · rw [coalesce_from, if_pos hv]
      apply ih
      have hce := tilesB_le c rest e hl
      obtain ⟨hc, hr⟩ := hl
      refine ⟨?_, hr⟩
      rw [← hc]
      show b.addr + sizeof_block_header +
        add64 b.size (add64 sizeof_block_header c.size) = _
      unfold add64 sizeof_block_header WORD at *
      omega
    · rw [coalesce_from, if_neg hv]
      obtain ⟨b2, tl, he2, haddr, _⟩ := coalesce_from_head c rest
      refine ⟨?_, ih c hl⟩
      rw [he2]
      show _ = b2.addr
      rw [haddr]
      exact hb2

theorem coalesce_loop_fuel (n m : Nat) (h : Headers) (a : Nat) (r : Headers)
    (hr : coalesce_loop n h a = some r) : coalesce_loop (n + m) h a = some r := by
  induction n generalizing h a with
  | zero => simp [coalesce_loop] at hr
  | succ n ih =>
    rw [Nat.add_right_comm, coalesce_loop]
    rw [coalesce_loop] at hr
    split
    · rw [if_pos (by assumption)] at hr
      split
      · rw [if_pos (by assumption)] at hr
        exact ih _ _ hr
      · rw [if_neg (by assumption)] at hr
        exact ih _ _ hr
    · rw [if_neg (by assumption)] at hr
      exact hr

/-- A pass of `coalesce_free_blocks` that returns keeps the tiling
invariant: the chain shrinks to a sublist that still starts at the same block
and tiles the arena up to the same break. -/
theorem coalesce_loop_tiles (fuel : Nat) (h h1 : Headers) (a e : Nat) (l : List Nat)
    (hc : IsChain h a l) (ht : Tiles h l e) (he : e < WORD)
    (hrun : coalesce_loop fuel h a = some h1) :
    ∃ l1, IsChain h1 a l1 ∧ Tiles h1 l1 e ∧ l1.headD e = l.headD e ∧ l1.Sublist l ∧
      (∀ x, x ∉ l → h1 x = h x) ∧
      (∀ x, (h1 x).free = (h x).free ∧ (h1 x).canary = (h x).canary) ∧
      NoAdjacentVacant (blocks h1 l1) ∧
      (∀ x ∈ l, (h x).free = 0 → x ∈ l1 ∧ (h1 x).size = (h x).size) := by
  cases l with
  | nil =>
    have ha : a = 0 := hc
    subst ha
    cases fuel with
    | zero => simp [coalesce_loop] at hrun
    | succ n =>
      rw [coalesce_loop] at hrun
      simp only [ne_eq, not_true_eq_false, false_and, if_false, Option.some.injEq] at hrun
      subst hrun
      exact ⟨[], hc, ht, rfl, List.Sublist.refl _, fun _ _ => rfl, fun _ => ⟨rfl, rfl⟩,
        List.chain'_nil, fun x hx _ => ⟨hx, rfl⟩⟩
  | cons b l2 =>
    have hab : a = b := hc.1
    subst hab
    obtain ⟨h2, l1, hrun2, hch, hbl, hframe, hsub, hfld⟩ :=
      coalesce_loop_refines (l2.length + fuel) h a l2 hc (Nat.le_add_right _ _)
    have hrun3 := coalesce_loop_fuel fuel (l2.length + 1) h a h1 hrun
    have heq : h1 = h2 := by
      have : fuel + (l2.length + 1) = l2.length + fuel + 1 := by omega
      rw [this, hrun2] at hrun3
      exact (Option.some.inj hrun3).symm
    subst heq
    refine ⟨a :: l1, hch, ?_, rfl, hsub.cons₂ _, hframe, hfld, ?_, ?_⟩
    · rw [tiles_iff_tilesB, hbl]
      exact tilesB_coalesce_from _ _ e ((tiles_iff_tilesB h (a :: l2) e).mp ht) he
    · rw [hbl]
      exact coalesce_from_noAdjacentVacant _ _
    · intro x hx hocc
      have hmem : block_at h x ∈ coalesce_from (block_at h a) (blocks h l2) :=
        coalesce_from_keeps_occupied _ _ (block_at h x)
          (List.mem_map.mpr ⟨x, hx, rfl⟩ : block_at h x ∈ blocks h (a :: l2))
          (by simp [block_at, hocc])
      rw [← hbl] at hmem
      obtain ⟨y, hy, hyx⟩ := List.mem_map.mp hmem
      have haddr : y = x := congrArg Blk.addr hyx
      subst haddr
      exact ⟨hy, congrArg Blk.size hyx⟩

/-- The call `request_space` for a request below `2^63 - 40`: either nothing
changes, or the break is raised by the header plus the rounded size and the
new block is written at the old break. -/
theorem request_space_small (k : Kernel) (s : State) (last a : Nat) (ha : 0 < a)
    (hw : a + 40 < 2 ^ 63) :
    request_space k s last (align8 a) = (0, s) ∨
    (s.brk + sizeof_block_header + align8 a < WORD ∧
      request_space k s last (align8 a) =
        (s.brk, { s with brk := s.brk + sizeof_block_header + align8 a,
                         hdr := request_space_writes s.hdr last s.brk (align8 a) })) := by
  rcases request_space_cases k s last (align8 a) with h0 | ⟨hb, b, hr⟩ | ⟨hb, b, hmv, hr⟩
  · exact Or.inl h0
  · left
    have hs : sbrk k s (add64 (align8 a) sizeof_block_header) = (SIZE_MAX, s) := by
      rcases sbrk_cases k s (add64 (align8 a) sizeof_block_header) with hs | ⟨b1, hmv, _⟩
      · exact hs
      · exfalso
        obtain ⟨hb2, hlt⟩ := sbrk_moves_small k s.brk a b1 ha hw hmv
        have hmax : SIZE_MAX + 1 = WORD := rfl
        rw [hb2, hb] at hlt
        have hle : SIZE_MAX + 1 ≤ SIZE_MAX + sizeof_block_header + align8 a := by
          rw [Nat.add_assoc]
          exact Nat.add_le_add_left (Nat.le_add_right_of_le (by decide)) _
        rw [hmax] at hle
        exact absurd hlt (Nat.not_lt.mpr hle)
    unfold request_space
    rw [sbrk_zero]
    simp [hs]
  · obtain ⟨hb2, hlt⟩ := sbrk_moves_small k s.brk a b ha hw hmv
    right
    rw [hr, hb2]
    exact ⟨hb2 ▸ hlt, rfl⟩
/-- Every way a call `malloc_custom(a)` with `0 < a < 2^63 - 40` returns when
the break is not the null address: nothing changes (result null); a new block
at the old break; or a vacant block of the chain is taken over. -/
theorem malloc_custom_small (fuel : Nat) (k : Kernel) (s s1 : State) (a p : Nat)
    (ha : 0 < a) (hw : a + 40 < 2 ^ 63) (hbrk : s.brk ≠ 0)
    (hm : malloc_custom fuel k s a = .ret p s1) :
    (p = 0 ∧ s1 = s) ∨
    (∃ last, (s.free_list = 0 ∧ last = 0 ∨
        s.free_list ≠ 0 ∧
          find_free_block fuel s.hdr s.free_list s.free_list (align8 a) = some (0, last)) ∧
      s.brk + sizeof_block_header + align8 a < WORD ∧ p = s.brk + sizeof_block_header ∧
      s1 = { s with
          brk := s.brk + sizeof_block_header + align8 a,
          hdr := request_space_writes s.hdr last s.brk (align8 a),
          free_list := if s.free_list = 0 then s.brk else s.free_list,
          total_allocations := add64 s.total_allocations 1 }) ∨
    (s.free_list ≠ 0 ∧ ∃ block last, block ≠ 0 ∧
      find_free_block fuel s.hdr s.free_list s.free_list (align8 a) = some (block, last) ∧
      p = block + sizeof_block_header ∧
      s1 = { s with
          hdr := split_block (setFree s.hdr block 0) block (align8 a),
          total_allocations := add64 s.total_allocations 1 }) := by
  have hsz : a ≠ 0 := Nat.pos_iff_ne_zero.mp ha
  by_cases hfl : s.free_list = 0
  · rw [malloc_custom_empty fuel k s a hsz hfl] at hm
    rcases request_space_small k s 0 a ha hw with h0 | ⟨hlt, hr⟩
    · rw [h0] at hm
      simp only [if_true, Outcome.ret.injEq] at hm
      exact Or.inl ⟨hm.1.symm, hm.2.symm⟩
    · rw [hr] at hm
      simp only [hbrk, if_false, malloc_done, Outcome.ret.injEq] at hm
      refine Or.inr (Or.inl ⟨0, Or.inl ⟨hfl, rfl⟩, hlt, hm.1.symm, ?_⟩)
      rw [← hm.2, if_pos hfl]
  · cases hfind : find_free_block fuel s.hdr s.free_list s.free_list (align8 a) with
    | none =>
      rw [malloc_custom_search_fuel fuel k s a hsz hfl hfind] at hm
      cases hm
    | some r =>
      obtain ⟨block, last⟩ := r
      by_cases hblock : block = 0
      · subst hblock
        rw [malloc_custom_grow fuel k s a last hsz hfl hfind] at hm
        rcases request_space_small k s last a ha hw with h0 | ⟨hlt, hr⟩
        · rw [h0] at hm
          simp only [if_true, Outcome.ret.injEq] at hm
          exact Or.inl ⟨hm.1.symm, hm.2.symm⟩
        · rw [hr] at hm
          simp only [hbrk, if_false, malloc_done, Outcome.ret.injEq] at hm
          refine Or.inr (Or.inl ⟨last, Or.inr ⟨hfl, rfl⟩, hlt, hm.1.symm, ?_⟩)
          rw [← hm.2, if_neg hfl]
      · rw [malloc_custom_reuse fuel k s a block last hsz hfl hblock hfind] at hm
        simp only [Outcome.ret.injEq] at hm
        exact Or.inr (Or.inr ⟨hfl, block, last, hblock, rfl, hm.1.symm, hm.2.symm⟩)

theorem tiled_brk_ge (base : Nat) (s : State) (l : List Nat) (ht : Tiled base s l) :
    base ≤ s.brk := by
  obtain ⟨_, htl, _, hhd⟩ := ht
  cases l with
  | nil => exact Nat.le_of_eq hhd.symm
  | cons b l =>
    have hb : b = base := hhd
    have := tiles_le s.hdr (b :: l) s.brk htl b (List.mem_cons_self _ _)
    omega

theorem tiled_lt_brk (base : Nat) (s : State) (l : List Nat) (ht : Tiled base s l) :
    ∀ y ∈ l, y < s.brk := by
  intro y hy
  have := tiles_le s.hdr l s.brk ht.2.1 y hy
  unfold sizeof_block_header at this
  omega

/-- Writing the flag of any header keeps the tiling invariant. -/
theorem tiled_setFree (base : Nat) (s : State) (l : List Nat) (x v : Nat) (g : Headers)
    (ht : Tiled base s l) (hg : g = setFree s.hdr x v) (s1 : State)
    (hs1 : s1.hdr = g ∧ s1.free_list = s.free_list ∧ s1.brk = s.brk) : Tiled base s1 l := by
  obtain ⟨hc, htl, hb, hhd⟩ := ht
  obtain ⟨h1, h2, h3⟩ := hs1
  have hfield : ∀ y, (g y).next = (s.hdr y).next ∧ (g y).size = (s.hdr y).size := by
    intro y
    rw [hg]
    unfold setFree
    by_cases hy : y = x
    · simp [hy]
    · simp [hy]
  unfold Tiled
  rw [h1, h2, h3]
  exact ⟨isChain_congr s.hdr g _ l (fun y _ => (hfield y).1) hc,
    tiles_congr s.hdr g l _ (fun y _ => (hfield y).2) htl, hb, hhd⟩

theorem getLastD_of_ne_nil (l : List Nat) (x y : Nat) (hl : l ≠ []) :
    l.getLastD x = l.getLastD y := by
  cases l with
  | nil => exact absurd rfl hl
  | cons b l => rfl

/-- Growing the arena keeps the tiling invariant: the new block starts at the
old break and ends at the new one; it is occupied, so no pair of vacant
neighbours appears. -/
theorem tiled_grow (base : Nat) (s : State) (l : List Nat) (last asz ta : Nat)
    (hbase : 0 < base) (ht : Tiled base s l)
    (hlast : (s.free_list = 0 ∧ last = 0) ∨ (s.free_list ≠ 0 ∧ last = l.getLastD s.free_list))
    (hlt : s.brk + sizeof_block_header + asz < WORD) :
    ∃ l1, Tiled base
      { s with
          brk := s.brk + sizeof_block_header + asz,
          hdr := request_space_writes s.hdr last s.brk asz,
          free_list := if s.free_list = 0 then s.brk else s.free_list,
          total_allocations := ta } l1 ∧
      (NoAdjacentVacant (blocks s.hdr l) →
        NoAdjacentVacant (blocks (request_space_writes s.hdr last s.brk asz) l1)) ∧
      (∀ x ∈ l, Kept s.hdr (request_space_writes s.hdr last s.brk asz) l1 x) := by
  have hge := tiled_brk_ge base s l ht
  have hltb := tiled_lt_brk base s l ht
  have hbrk : s.brk ≠ 0 := by omega
  obtain ⟨hc, htl, hb, hhd⟩ := ht
  rcases hlast with ⟨hfl, rfl⟩ | ⟨hfl, rfl⟩
  · have hl : l = [] := by
      cases l with
      | nil => rfl
      | cons b l2 =>
        obtain ⟨h1, h2, _⟩ := hc
        exact absurd (h1.symm.trans hfl) h2
    subst hl
    refine ⟨[s.brk], ⟨?_, ?_, hlt, ?_⟩, fun _ => List.chain'_singleton _,
      fun x hx => absurd hx (List.not_mem_nil _)⟩
    · show IsChain (request_space_writes s.hdr 0 s.brk asz)
        (if s.free_list = 0 then s.brk else s.free_list) [s.brk]
      rw [if_pos hfl]
      refine ⟨rfl, hbrk, ?_⟩
      rw [request_space_writes_block]
      rfl
    · show Tiles (request_space_writes s.hdr 0 s.brk asz) [s.brk]
        (s.brk + sizeof_block_header + asz)
      refine ⟨?_, trivial⟩
      rw [request_space_writes_block]
      rfl
    · exact hhd
  · have hne : l ≠ [] := by
      rintro rfl
      exact hfl hc
    have hfields : ∀ x ∈ l,
        (request_space_writes s.hdr (l.getLastD s.free_list) s.brk asz x).size
          = (s.hdr x).size ∧
        (request_space_writes s.hdr (l.getLastD s.free_list) s.brk asz x).free
          = (s.hdr x).free ∧
        (request_space_writes s.hdr (l.getLastD s.free_list) s.brk asz x).canary
          = (s.hdr x).canary := by
      intro x hx
      have hxb : x ≠ s.brk := Nat.ne_of_lt (hltb x hx)
      rw [request_space_writes_other _ _ _ _ _ hxb]
      split
      · exact ⟨rfl, rfl, rfl⟩
      · exact ⟨rfl, rfl, rfl⟩
    refine ⟨l ++ [s.brk], ⟨?_, ?_, hlt, ?_⟩, ?_,
      fun x hx => ⟨List.mem_append_left _ hx, hfields x hx⟩⟩
    · show IsChain (request_space_writes s.hdr (l.getLastD s.free_list) s.brk asz)
        (if s.free_list = 0 then s.brk else s.free_list) (l ++ [s.brk])
      rw [if_neg hfl, getLastD_of_ne_nil l s.free_list 0 hne]
      exact isChain_request_space_writes s.hdr s.free_list s.brk asz l hc hne
        (fun hm => Nat.lt_irrefl _ (hltb _ hm)) hbrk
    · show Tiles (request_space_writes s.hdr (l.getLastD s.free_list) s.brk asz)
        (l ++ [s.brk]) (s.brk + sizeof_block_header + asz)
      rw [tiles_append]
      refine ⟨tiles_congr s.hdr _ l s.brk (fun x hx => (hfields x hx).1) htl, ?_, trivial⟩
      rw [request_space_writes_block]
      rfl
    · cases l with
      | nil => exact absurd rfl hne
      | cons b l2 => exact hhd
    · intro hnv
      rw [blocks_append, blocks_congr_fields s.hdr _ l
        (fun x hx => ⟨(hfields x hx).1, (hfields x hx).2.1⟩)]
      refine noAdjacentVacant_append_occupied _ _ ?_ hnv
      show decide ((request_space_writes s.hdr (l.getLastD s.free_list) s.brk asz s.brk).free
        ≠ 0) = false
      rw [request_space_writes_block]
      rfl

/-- Taking over a vacant block of the chain, with or without a split, keeps
the tiling invariant: the remainder of a split starts where the shortened
block ends and ends where the block ended before; and no pair of vacant
neighbours appears. -/
theorem tiled_reuse (base : Nat) (s : State) (l : List Nat) (block asz ta : Nat)
    (ht : Tiled base s l) (hmem : block ∈ l) (hasz : asz + 40 < 2 ^ 64)
    (hvac : (s.hdr block).free ≠ 0) :
    ∃ l1, Tiled base
      { s with
          hdr := split_block (setFree s.hdr block 0) block asz,
          total_allocations := ta } l1 ∧
      (NoAdjacentVacant (blocks s.hdr l) →
        NoAdjacentVacant (blocks (split_block (setFree s.hdr block 0) block asz) l1)) ∧
      (∀ x ∈ l, x ≠ block →
        Kept s.hdr (split_block (setFree s.hdr block 0) block asz) l1 x) := by
  have hgb : setFree s.hdr block 0 block = { s.hdr block with free := 0 } := by
    simp [setFree]
  have hgo : ∀ y, y ≠ block → setFree s.hdr block 0 y = s.hdr y :=
    fun y hy => setFree_other _ _ _ _ hy
  have ht0 := ht
  obtain ⟨l1, l2, rfl⟩ := List.append_of_mem hmem
  obtain ⟨hc, htl, hb, hhd⟩ := ht
  obtain ⟨hpre, hpost, hend⟩ := tiles_split s.hdr l1 l2 block s.brk htl
  have hb1 : block ∉ l1 := by
    intro hm
    have := hpre _ hm
    unfold sizeof_block_header at this
    omega
  have hb2 : block ∉ l2 := by
    intro hm
    have := hpost _ hm
    unfold sizeof_block_header at this
    omega
  have hvold : (block_at s.hdr block).vacant = true := (block_at_vacant _ _).mpr hvac
  by_cases hsplit : add64 (add64 asz sizeof_block_header) ALIGNMENT
      ≤ (setFree s.hdr block 0 block).size
  · have hadd : add64 (add64 asz sizeof_block_header) ALIGNMENT = asz + 40 := by
      unfold add64 sizeof_block_header ALIGNMENT WORD
      omega
    have hcsz : (setFree s.hdr block 0 block).size = (s.hdr block).size := by rw [hgb]
    rw [hadd, hcsz] at hsplit
    have hcw : (s.hdr block).size < 2 ^ 64 := by
      unfold sizeof_block_header WORD at *
      omega
    have hsub : sub64 (sub64 (s.hdr block).size asz) sizeof_block_header
        = (s.hdr block).size - asz - 32 := by
      unfold sub64 sizeof_block_header WORD
      omega
    have hval : ∀ x, split_block (setFree s.hdr block 0) block asz x =
        if x = block then
          { setFree s.hdr block 0 block with
            size := asz, next := block + sizeof_block_header + asz }
        else if x = block + sizeof_block_header + asz then
          ⟨(s.hdr block).size - asz - 32, 1, (setFree s.hdr block 0 block).next, CANARY⟩
        else setFree s.hdr block 0 x := by
      intro x
      rw [split_block_eq, if_pos (by rw [hadd, hcsz]; exact hsplit), hcsz, hsub]
    have hnbne : block + sizeof_block_header + asz ≠ block := by
      unfold sizeof_block_header
      omega
    have hvb := hval block
    rw [if_pos rfl] at hvb
    have hvn := hval (block + sizeof_block_header + asz)
    rw [if_neg hnbne, if_pos rfl] at hvn
    have hvo : ∀ y, y ≠ block → y ≠ block + sizeof_block_header + asz →
        split_block (setFree s.hdr block 0) block asz y = s.hdr y := by
      intro y h1 h2
      rw [hval y, if_neg h1, if_neg h2, hgo y h1]
    have hnb1 : block + sizeof_block_header + asz ∉ l1 := by
      intro hm
      have := hpre _ hm
      unfold sizeof_block_header at this
      omega
    have hnb2 : block + sizeof_block_header + asz ∉ l2 := by
      intro hm
      have := hpost _ hm
      unfold sizeof_block_header at this
      omega
    have hnb : block + sizeof_block_header + asz ∉ l1 ++ block :: l2 := by
      intro hm
      rcases List.mem_append.mp hm with h | h
      · exact hnb1 h
      · rcases List.mem_cons.mp h with h | h
        · exact hnbne h
        · exact hnb2 h
    obtain ⟨ht1, ht2⟩ := (tiles_append s.hdr l1 l2 block s.brk).mp htl
    obtain ⟨hbt, ht3⟩ := ht2
    have ho1 : ∀ x ∈ l1, split_block (setFree s.hdr block 0) block asz x = s.hdr x :=
      fun x hx => hvo x (fun e => hb1 (e ▸ hx)) (fun e => hnb1 (e ▸ hx))
    have ho2 : ∀ x ∈ l2, split_block (setFree s.hdr block 0) block asz x = s.hdr x :=
      fun x hx => hvo x (fun e => hb2 (e ▸ hx)) (fun e => hnb2 (e ▸ hx))
    refine ⟨l1 ++ block :: (block + sizeof_block_header + asz) :: l2,
      ⟨?_, ?_, hb, ?_⟩, ?_, ?_⟩
    · show IsChain (split_block (setFree s.hdr block 0) block asz) s.free_list _
      refine isChain_insert s.hdr _ s.free_list block _ l1 l2 hc hnb
        (by unfold sizeof_block_header; omega) ?_ ?_ hvo
      · rw [hvb]
      · rw [hvn, hgb]
    · show Tiles (split_block (setFree s.hdr block 0) block asz) _ s.brk
      rw [tiles_append]
      refine ⟨?_, ?_, ?_, ?_⟩
      · refine tiles_congr s.hdr _ l1 block ?_ ht1
        intro x hx
        rw [ho1 x hx]
      · rw [hvb]
        rfl
      · rw [hvn]
        show block + sizeof_block_header + asz + sizeof_block_header
          + ((s.hdr block).size - asz - 32) = l2.headD s.brk
        rw [← hbt]
        unfold sizeof_block_header
        omega
      · refine tiles_congr s.hdr _ l2 s.brk ?_ ht3
        intro x hx
        rw [ho2 x hx]
    · cases l1 with
      | nil => exact hhd
      | cons c l1 => exact hhd
    · intro hnv
      rw [blocks_append] at hnv ⊢
      show NoAdjacentVacant (blocks _ l1 ++ block_at _ block ::
        block_at _ (block + sizeof_block_header + asz) :: blocks _ l2)
      rw [blocks_congr s.hdr _ l1 ho1, blocks_congr s.hdr _ l2 ho2]
      refine noAdjacentVacant_split _ _ (block_at s.hdr block) _ _ hvold ?_ hnv
      show decide ((split_block (setFree s.hdr block 0) block asz block).free ≠ 0) = false
      rw [hvb, hgb]
      rfl
    · intro x hx hxb
      have hxe := hvo x hxb (fun e => hnb (e ▸ hx))
      refine ⟨?_, by rw [hxe], by rw [hxe], by rw [hxe]⟩
      rcases List.mem_append.mp hx with h | h
      · exact List.mem_append_left _ h
      · rcases List.mem_cons.mp h with h | h
        · exact absurd h hxb
        · exact List.mem_append_right _
            (List.mem_cons_of_mem _ (List.mem_cons_of_mem _ h))
  · have hsame : split_block (setFree s.hdr block 0) block asz = setFree s.hdr block 0 := by
      funext x
      rw [split_block_eq, if_neg hsplit]
    refine ⟨l1 ++ block :: l2,
      tiled_setFree base s _ block 0 _ ht0 rfl _ ⟨hsame, rfl, rfl⟩, ?_, ?_⟩
    · intro hnv
      rw [hsame]
      rw [blocks_append] at hnv ⊢
      show NoAdjacentVacant (blocks _ l1 ++ block_at _ block :: blocks _ l2)
      rw [blocks_congr s.hdr _ l1 (fun x hx => hgo x (fun e => hb1 (e ▸ hx))),
        blocks_congr s.hdr _ l2 (fun x hx => hgo x (fun e => hb2 (e ▸ hx)))]
      refine noAdjacentVacant_occupy _ _ (block_at s.hdr block) _ ?_ hnv
      show decide ((setFree s.hdr block 0 block).free ≠ 0) = false
      rw [hgb]
      rfl
    · intro x hx hxb
      rw [hsame]
      have hxe := hgo x hxb
      exact ⟨hx, by rw [hxe], by rw [hxe], by rw [hxe]⟩

/-- A returning `malloc_custom(a)` with `a + 40 < 2^63` keeps the tiling
invariant and creates no pair of vacant neighbours. -/
theorem tiled_malloc (base : Nat) (s s1 : State) (l : List Nat) (fuel : Nat) (k : Kernel)
    (a p : Nat) (hbase : 0 < base) (ht : Tiled base s l) (hw : a + 40 < 2 ^ 63)
    (hm : malloc_custom fuel k s a = .ret p s1) :
    ∃ l1, Tiled base s1 l1 ∧
      (NoAdjacentVacant (blocks s.hdr l) → NoAdjacentVacant (blocks s1.hdr l1)) ∧
      (∀ x ∈ l, (s.hdr x).free = 0 → Kept s.hdr s1.hdr l1 x) := by
  have hsame : ∀ x ∈ l, (s.hdr x).free = 0 → Kept s.hdr s.hdr l x :=
    fun x hx _ => ⟨hx, rfl, rfl, rfl⟩
  rcases Nat.eq_zero_or_pos a with rfl | ha
  · rw [malloc_custom_zero] at hm
    simp only [Outcome.ret.injEq] at hm
    rw [← hm.2]
    exact ⟨l, ht, id, hsame⟩
  · have hge := tiled_brk_ge base s l ht
    have hbrk : s.brk ≠ 0 := by omega
    have hab := align8_bounds a ha (by unfold WORD; omega)
    rcases malloc_custom_small fuel k s s1 a p ha hw hbrk hm with
      ⟨_, rfl⟩ | ⟨last, hlast, hlt, _, rfl⟩ | ⟨hfl, block, last, hblock, hfind, _, rfl⟩
    · exact ⟨l, ht, id, hsame⟩
    · obtain ⟨l1, ht1, hnv1, hk1⟩ := tiled_grow base s l last (align8 a)
        (add64 s.total_allocations 1) hbase ht (by
          rcases hlast with ⟨hfl, rfl⟩ | ⟨hfl, hfind⟩
          · exact Or.inl ⟨hfl, rfl⟩
          · exact Or.inr ⟨hfl, (find_free_block_chain fuel s.hdr s.free_list s.free_list
              (align8 a) 0 last l ht.1 hfind).2 rfl⟩) hlt
      exact ⟨l1, ht1, hnv1, fun x hx _ => hk1 x hx⟩
    · have hres := find_free_block_result fuel s.hdr s.free_list s.free_list
        (align8 a) block last hfind
      have hvac := (hres.resolve_left hblock).1
      obtain ⟨l1, ht1, hnv1, hk1⟩ := tiled_reuse base s l block (align8 a)
        (add64 s.total_allocations 1) ht
        ((find_free_block_chain fuel s.hdr s.free_list s.free_list
          (align8 a) block last l ht.1 hfind).1 hblock) (by omega) hvac
      exact ⟨l1, ht1, hnv1, fun x hx hocc => hk1 x hx (fun e => hvac (e ▸ hocc))⟩

/-- A returning `free_custom(p)` keeps the tiling invariant, whatever `p`,
and creates no pair of vacant neighbours. -/
theorem tiled_free (base : Nat) (s s1 : State) (l : List Nat) (fuel p : Nat)
    (ht : Tiled base s l) (hf : free_custom fuel s p = .ret () s1) :
    ∃ l1, Tiled base s1 l1 ∧
      (NoAdjacentVacant (blocks s.hdr l) → NoAdjacentVacant (blocks s1.hdr l1)) ∧
      (∀ x ∈ l, (s.hdr x).free = 0 → x ≠ p - sizeof_block_header →
        Kept s.hdr s1.hdr l1 x) := by
  rcases free_custom_cases fuel s p with ⟨_, h⟩ | ⟨_, _, h⟩ | ⟨_, _, _, h⟩ | ⟨_, _, _, _, h⟩ |
    ⟨_, _, _, h1, hrun, h⟩
  · rw [h] at hf
    simp only [Outcome.ret.injEq, true_and] at hf
    rw [← hf]
    exact ⟨l, ht, id, fun x hx _ _ => ⟨hx, rfl, rfl, rfl⟩⟩
  · rw [h] at hf; cases hf
  · rw [h] at hf; cases hf
  · rw [h] at hf; cases hf
  · rw [h] at hf
    simp only [Outcome.ret.injEq, true_and] at hf
    rw [← hf]
    have ht2 := tiled_setFree base s l (p - sizeof_block_header) 1 _ ht rfl
      { s with hdr := setFree s.hdr (p - sizeof_block_header) 1 } ⟨rfl, rfl, rfl⟩
    obtain ⟨hc, htl, hb, hhd⟩ := ht2
    obtain ⟨l1, hc1, htl1, hhd1, _, _, hfld, hnv, hkeep⟩ :=
      coalesce_loop_tiles fuel _ h1 s.free_list s.brk l hc htl hb hrun
    refine ⟨l1, ⟨hc1, htl1, hb, hhd1.trans hhd⟩, fun _ => hnv, ?_⟩
    intro x hx hocc hxp
    have hgx : setFree s.hdr (p - sizeof_block_header) 1 x = s.hdr x :=
      setFree_other _ _ _ _ hxp
    obtain ⟨hm1, hsz1⟩ := hkeep x hx (by
      show (setFree s.hdr (p - sizeof_block_header) 1 x).free = 0
      rw [hgx]
      exact hocc)
    refine ⟨hm1, ?_, ?_, ?_⟩
    · show (h1 x).size = (s.hdr x).size
      rw [hsz1]
      show (setFree s.hdr (p - sizeof_block_header) 1 x).size = (s.hdr x).size
      rw [hgx]
    · show (h1 x).free = (s.hdr x).free
      rw [(hfld x).1]
      show (setFree s.hdr (p - sizeof_block_header) 1 x).free = (s.hdr x).free
      rw [hgx]
    · show (h1 x).canary = (s.hdr x).canary
      rw [(hfld x).2]
      show (setFree s.hdr (p - sizeof_block_header) 1 x).canary = (s.hdr x).canary
      rw [hgx]

/-- Every state reached under the size proviso satisfies the tiling
invariant, for some finite chain, and no two chain-adjacent blocks of that
chain are both vacant. -/
theorem saneReachable_tiled (base : Nat) (s : State) (hbase : 0 < base) (hbw : base < WORD)
    (hr : SaneReachable base s) :
    ∃ l, Tiled base s l ∧ NoAdjacentVacant (blocks s.hdr l) := by
  induction hr with
  | start s hinit =>
    obtain ⟨hfl, hbrk, _, _⟩ := hinit
    exact ⟨[], ⟨hfl, trivial, hbrk ▸ hbw, hbrk⟩, List.chain'_nil⟩
  | malloc s s1 fuel k size p _ hw hm ih =>
    obtain ⟨l, ht, hnv⟩ := ih
    obtain ⟨l1, ht1, hnv1, _⟩ := tiled_malloc base s s1 l fuel k size p hbase ht hw hm
    exact ⟨l1, ht1, hnv1 hnv⟩
  | free s s1 fuel p _ _ hf ih =>
    obtain ⟨l, ht, hnv⟩ := ih
    obtain ⟨l1, ht1, hnv1, _⟩ := tiled_free base s s1 l fuel p ht hf
    exact ⟨l1, ht1, hnv1 hnv⟩
  | calloc s s1 fuel k num nsize p _ _ _ hw hcal ih =>
    obtain ⟨l, ht, hnv⟩ := ih
    have hmod : num * nsize % WORD = num * nsize :=
      Nat.mod_eq_of_lt (by unfold WORD; omega)
    rcases calloc_custom_ret_cases fuel k s s1 num nsize p hcal with
      ⟨_, rfl⟩ | ⟨_, hm⟩ | ⟨_, s2, hm, rfl⟩
    · exact ⟨l, ht, hnv⟩
    · rw [hmod] at hm
      obtain ⟨l1, ht1, hnv1, _⟩ := tiled_malloc base s s1 l fuel k _ 0 hbase ht hw hm
      exact ⟨l1, ht1, hnv1 hnv⟩
    · rw [hmod] at hm
      obtain ⟨l1, ht1, hnv1, _⟩ := tiled_malloc base s s2 l fuel k _ p hbase ht hw hm
      exact ⟨l1, ht1, hnv1 hnv⟩
  | realloc s s1 fuel k ptr size p _ _ hw hre ih =>
    obtain ⟨l, ht, hnv⟩ := ih
    rcases realloc_custom_ret_cases fuel k s s1 ptr size p hre with
      ⟨_, hm⟩ | ⟨_, _, _, hf⟩ | ⟨_, _, _, _, _, rfl⟩ | ⟨_, _, _, _, _, hm⟩ |
      ⟨_, _, _, _, _, s2, hm, hf⟩
    · obtain ⟨l1, ht1, hnv1, _⟩ := tiled_malloc base s s1 l fuel k size p hbase ht hw hm
      exact ⟨l1, ht1, hnv1 hnv⟩
    · obtain ⟨l1, ht1, hnv1, _⟩ := tiled_free base s s1 l fuel ptr ht hf
      exact ⟨l1, ht1, hnv1 hnv⟩
    · exact ⟨l, ht, hnv⟩
    · obtain ⟨l1, ht1, hnv1, _⟩ := tiled_malloc base s s1 l fuel k size 0 hbase ht hw hm
      exact ⟨l1, ht1, hnv1 hnv⟩
    · obtain ⟨l1, ht1, hnv1, _⟩ := tiled_malloc base s s2 l fuel k size p hbase ht hw hm
      have ht2 : Tiled base
          { s2 with bytes := (memcpy s2.bytes p ptr (s2.hdr (ptr - sizeof_block_header)).size) }
          l1 := ht1
      obtain ⟨l2, ht3, hnv3, _⟩ := tiled_free base _ s1 l1 fuel ptr ht2 hf
      exact ⟨l2, ht3, hnv3 (hnv1 hnv)⟩
  | write s m _ ih =>
    obtain ⟨l, ht, hnv⟩ := ih
    exact ⟨l, ht, hnv⟩

theorem chain_next_tiles (h : Headers) (a e : Nat) (l : List Nat)
    (hc : IsChain h a l) (ht : Tiles h l e) :
    ∀ b ∈ l, ((h b).next ≠ 0 → (h b).next = b + sizeof_block_header + (h b).size) ∧
      ((h b).next = 0 → b + sizeof_block_header + (h b).size = e) := by
  induction l generalizing a with
  | nil =>
    intro b hb
    cases hb
  | cons c l ih =>
    obtain ⟨_, _, hc2⟩ := hc
    obtain ⟨ht1, ht2⟩ := ht
    intro b hb
    rcases List.mem_cons.mp hb with rfl | hb2
    · cases l with
      | nil =>
        have h0 : (h b).next = 0 := hc2
        exact ⟨fun hne => absurd h0 hne, fun _ => ht1⟩
      | cons d l2 =>
        obtain ⟨hd, hd0, _⟩ := hc2
        have ht1b : b + sizeof_block_header + (h b).size = d := ht1
        refine ⟨fun _ => ?_, fun h0 => ?_⟩
        · rw [hd, ht1b]
        · rw [hd] at h0
          exact absurd h0 hd0
    · exact ih _ hc2 ht2 b hb2

theorem tiles_pairwise (h : Headers) (l : List Nat) (e : Nat) (ht : Tiles h l e) :
    l.Pairwise (fun b c => b + sizeof_block_header + (h b).size ≤ c) := by
  induction l with
  | nil => exact List.Pairwise.nil
  | cons b l ih =>
    exact List.Pairwise.cons (tiles_after h l b e ht) (ih ht.2)

theorem tiles_sum (h : Headers) (l : List Nat) (e : Nat) (ht : Tiles h l e) :
    (l.map (fun b => sizeof_block_header + (h b).size)).sum + l.headD e = e := by
  induction l with
  | nil => simp
  | cons b l ih =>
    obtain ⟨hb, hl⟩ := ht
    have := ih hl
    simp only [List.map_cons, List.sum_cons, List.headD_cons]
    omega

/-- C18: blocks tile the arena.  In every state reached from the empty arena
(break at `base`, a non-null 64-bit address) through `malloc_custom`,
`free_custom`, `calloc_custom`, `realloc_custom` and payload writes, every
requested size `s` satisfying `s + 40 < 2^63` and the break being moved by the
allocator only, the chain is a finite list `l` of blocks such that: every
block with a successor has its successor at `block + sizeof(block_header) +
capacity`; the last block ends exactly at the break; any two distinct blocks
of the chain are disjoint (one ends before the other starts), so no address
lies in the payloads of both; and the sum of `sizeof(block_header) + capacity`
over the chain is `brk - base`, the number of bytes by which the arena was
extended. -/
theorem blocks_tile_arena (base : Nat) (s : State) (hbase : 0 < base) (hbw : base < WORD)
    (hr : SaneReachable base s) :
    ∃ l : List Nat, IsChain s.hdr s.free_list l ∧
      (∀ b ∈ l, (s.hdr b).next ≠ 0 →
        (s.hdr b).next = b + sizeof_block_header + (s.hdr b).size) ∧
      (∀ b ∈ l, (s.hdr b).next = 0 → b + sizeof_block_header + (s.hdr b).size = s.brk) ∧
      (∀ b ∈ l, ∀ c ∈ l, b ≠ c →
        b + sizeof_block_header + (s.hdr b).size ≤ c ∨
        c + sizeof_block_header + (s.hdr c).size ≤ b) ∧
      (∀ b ∈ l, ∀ c ∈ l, b ≠ c → ∀ x,
        ¬ (b + sizeof_block_header ≤ x ∧ x < b + sizeof_block_header + (s.hdr b).size ∧
           c + sizeof_block_header ≤ x ∧ x < c + sizeof_block_header + (s.hdr c).size)) ∧
      base ≤ s.brk ∧ s.brk < WORD ∧
      (l.map (fun b => sizeof_block_header + (s.hdr b).size)).sum = s.brk - base := by
  obtain ⟨l, ht, _⟩ := saneReachable_tiled base s hbase hbw hr
  have hge := tiled_brk_ge base s l ht
  obtain ⟨hc, htl, hb, hhd⟩ := ht
  have hnext := chain_next_tiles s.hdr s.free_list s.brk l hc htl
  have hpw := tiles_pairwise s.hdr l s.brk htl
  have hdis : ∀ b ∈ l, ∀ c ∈ l, b ≠ c →
      b + sizeof_block_header + (s.hdr b).size ≤ c ∨
      c + sizeof_block_header + (s.hdr c).size ≤ b := by
    have hpw2 : l.Pairwise (fun b c =>
        b + sizeof_block_header + (s.hdr b).size ≤ c ∨
        c + sizeof_block_header + (s.hdr c).size ≤ b) :=
      hpw.imp (fun h => Or.inl h)
    intro b hb c hc hne
    exact hpw2.forall (fun x y hxy => hxy.symm) hb hc hne
  refine ⟨l, hc, fun b hb => (hnext b hb).1, fun b hb => (hnext b hb).2, hdis, ?_, hge, hb, ?_⟩
  · intro b hb c hc hne x hx
    rcases hdis b hb c hc hne with h | h
    · omega
    · omega
  · have := tiles_sum s.hdr l s.brk htl
    rw [hhd] at this
    omega

theorem main_before_realloc_sane : SaneReachable 4096 main_before_realloc :=
  SaneReachable.malloc vacant_then_occupied main_before_realloc 3 sample_kernel 50 4128
    (SaneReachable.free _ vacant_then_occupied 3 4128
      (SaneReachable.malloc _ _ 2 sample_kernel 200 4264
        (SaneReachable.malloc (empty_arena 4096) _ 1 sample_kernel 100 4128
          (SaneReachable.start _ ⟨rfl, rfl, rfl, rfl⟩) (by decide)
          (eq_ret_of_value _ _ (by decide)))
        (by decide) (eq_ret_of_value _ _ (by decide)))
      (by decide) (eq_ret_of_value _ _ (by decide)))
    (by decide) (eq_ret_of_value _ _ (by decide))

theorem blocks_tile_arena_witness :
    ∃ l : List Nat, IsChain main_before_realloc.hdr main_before_realloc.free_list l ∧
      (∀ b ∈ l, (main_before_realloc.hdr b).next ≠ 0 →
        (main_before_realloc.hdr b).next
          = b + sizeof_block_header + (main_before_realloc.hdr b).size) ∧
      (∀ b ∈ l, (main_before_realloc.hdr b).next = 0 →
        b + sizeof_block_header + (main_before_realloc.hdr b).size = main_before_realloc.brk) ∧
      (∀ b ∈ l, ∀ c ∈ l, b ≠ c →
        b + sizeof_block_header + (main_before_realloc.hdr b).size ≤ c ∨
        c + sizeof_block_header + (main_before_realloc.hdr c).size ≤ b) ∧
      (∀ b ∈ l, ∀ c ∈ l, b ≠ c → ∀ x,
        ¬ (b + sizeof_block_header ≤ x ∧
           x < b + sizeof_block_header + (main_before_realloc.hdr b).size ∧
           c + sizeof_block_header ≤ x ∧
           x < c + sizeof_block_header + (main_before_realloc.hdr c).size)) ∧
      4096 ≤ main_before_realloc.brk ∧ main_before_realloc.brk < WORD ∧
      (l.map (fun b => sizeof_block_header + (main_before_realloc.hdr b).size)).sum
        = main_before_realloc.brk - 4096 :=
  blocks_tile_arena 4096 main_before_realloc (by decide) (by decide) main_before_realloc_sane

/-- The tiling of `main_before_realloc`, evaluated: blocks at 4096, 4184 and
4232 with capacities 56, 16 and 200, the break at 4464. -/
theorem main_before_realloc_tiling :
    (blocks main_before_realloc.hdr [4096, 4184, 4232] =
      [⟨4096, 56, false⟩, ⟨4184, 16, true⟩, ⟨4232, 200, false⟩]) ∧
    main_before_realloc.brk = 4464 ∧
    (32 + 56) + (32 + 16) + (32 + 200) = 4464 - 4096 := by
  refine ⟨by decide, by decide, by decide⟩

/-- Under the size proviso of the tiling property the chain is in strictly
increasing address order: every block with a successor lies below it. -/
theorem chain_increasing_of_sane (base : Nat) (s : State) (hbase : 0 < base)
    (hbw : base < WORD) (hr : SaneReachable base s) :
    ∃ l : List Nat, IsChain s.hdr s.free_list l ∧
      ∀ b ∈ l, (s.hdr b).next ≠ 0 → b < (s.hdr b).next := by
  obtain ⟨l, ⟨hc, htl, _, _⟩, _⟩ := saneReachable_tiled base s hbase hbw hr
  refine ⟨l, hc, ?_⟩
  intro b hb hne
  rw [(chain_next_tiles s.hdr s.free_list s.brk l hc htl b hb).1 hne]
  unfold sizeof_block_header
  omega

/-- Every state reached under the size proviso is a reachable state. -/
theorem SaneReachable.reachable (base : Nat) (s : State) (hr : SaneReachable base s) :
    Reachable base s := by
  induction hr with
  | start s hinit => exact Reachable.start s hinit
  | malloc s s1 fuel k size p _ hw hm ih =>
    exact Reachable.malloc s s1 fuel k size p ih (by unfold WORD; omega) hm
  | free s s1 fuel p _ hp hf ih => exact Reachable.free s s1 fuel p ih hp hf
  | calloc s s1 fuel k num nsize p _ hn hns _ hcal ih =>
    exact Reachable.calloc s s1 fuel k num nsize p ih hn hns hcal
  | realloc s s1 fuel k ptr size p _ hp hw hre ih =>
    exact Reachable.realloc s s1 fuel k ptr size p ih hp (by unfold WORD; omega) hre
  | write s m _ ih => exact Reachable.write s m ih

/-- On a chain without a pair of vacant neighbours, no block and its
successor (the block its link points to) are both vacant. -/
theorem chain_neighbours_not_vacant (h : Headers) (a : Nat) (l : List Nat)
    (hc : IsChain h a l) (hnv : NoAdjacentVacant (blocks h l)) :
    ∀ b ∈ l, (h b).next ≠ 0 → ¬ ((h b).free ≠ 0 ∧ (h (h b).next).free ≠ 0) := by
  induction l generalizing a with
  | nil =>
    intro b hb
    cases hb
  | cons c l ih =>
    obtain ⟨_, _, hc2⟩ := hc
    intro b hb hne
    rcases List.mem_cons.mp hb with rfl | hb2
    · cases l with
      | nil => exact absurd hc2 hne
      | cons d l2 =>
        obtain ⟨hd, _, _⟩ := hc2
        have hrel := (List.chain'_cons.mp hnv).1
        rw [block_at_vacant, block_at_vacant] at hrel
        rw [hd]
        exact hrel
    · exact ih _ hc2 (List.Chain'.tail hnv) b hb2 hne

/-- Under the size proviso of the tiling property no two chain-adjacent blocks
are both vacant; hence when every block of the chain is vacant, the chain has
at most one block. -/
theorem no_adjacent_vacant_of_sane (base : Nat) (s : State) (hbase : 0 < base)
    (hbw : base < WORD) (hr : SaneReachable base s) :
    ∃ l : List Nat, IsChain s.hdr s.free_list l ∧ NoAdjacentVacant (blocks s.hdr l) ∧
      (∀ b ∈ l, (s.hdr b).next ≠ 0 →
        ¬ ((s.hdr b).free ≠ 0 ∧ (s.hdr (s.hdr b).next).free ≠ 0)) ∧
      ((∀ b ∈ l, (s.hdr b).free ≠ 0) → l.length ≤ 1) := by
  obtain ⟨l, ⟨hc, _, _, _⟩, hnv⟩ := saneReachable_tiled base s hbase hbw hr
  refine ⟨l, hc, hnv, chain_neighbours_not_vacant s.hdr s.free_list l hc hnv, ?_⟩
  intro hall
  have := noAdjacentVacant_all_vacant (blocks s.hdr l) hnv (by
    intro b hb
    obtain ⟨x, hx, rfl⟩ := List.mem_map.mp hb
    exact (block_at_vacant _ _).mpr (hall x hx))
  simpa [blocks] using this

/-- Under the size proviso of the tiling property live allocations are not
disturbed: in a state reached so, with chain `l`, every returning
`malloc_custom(a)` with `a + 40 < 2^63` and every returning `free_custom(p)`
leaves each occupied block of the chain (other than the block of `p`) in the
chain, with the same capacity, still occupied and with the same tag. -/
theorem live_blocks_kept_of_sane (base : Nat) (s : State) (hbase : 0 < base)
    (hbw : base < WORD) (hr : SaneReachable base s) :
    ∃ l : List Nat, IsChain s.hdr s.free_list l ∧
      (∀ (fuel : Nat) (k : Kernel) (a p : Nat) (s1 : State), a + 40 < 2 ^ 63 →
        malloc_custom fuel k s a = .ret p s1 →
        ∃ l1, IsChain s1.hdr s1.free_list l1 ∧
          ∀ x ∈ l, (s.hdr x).free = 0 → Kept s.hdr s1.hdr l1 x) ∧
      (∀ (fuel p : Nat) (s1 : State), free_custom fuel s p = .ret () s1 →
        ∃ l1, IsChain s1.hdr s1.free_list l1 ∧
          ∀ x ∈ l, (s.hdr x).free = 0 → x ≠ p - sizeof_block_header →
            Kept s.hdr s1.hdr l1 x) := by
  obtain ⟨l, ht, _⟩ := saneReachable_tiled base s hbase hbw hr
  refine ⟨l, ht.1, ?_, ?_⟩
  · intro fuel k a p s1 hw hm
    obtain ⟨l1, ht1, _, hk⟩ := tiled_malloc base s s1 l fuel k a p hbase ht hw hm
    exact ⟨l1, ht1.1, hk⟩
  · intro fuel p s1 hf
    obtain ⟨l1, ht1, _, hk⟩ := tiled_free base s s1 l fuel p ht hf
    exact ⟨l1, ht1.1, hk⟩

end MemAlloc
